import Mathlib

/-!
Verification of the gitvault secret-management engine.

This file gives a shallow embedding of the dotenv engine
(`internal/domain`), the secret service merge/apply algorithms
(`internal/services`), the rotation service, the index bookkeeping and the
CLI output-path guardrails, together with proofs about them.

Go strings and byte slices are modelled as `List Char`.  All the delimiters
the Go code searches for are ASCII, and UTF-8 encoding preserves both
character boundaries and lexicographic order for such searches, so the
character-level model agrees with Go's byte-level operations on valid
UTF-8 input.  `strings.TrimSpace` trims Go's `unicode.IsSpace` set, which
is reproduced exactly in `goIsSpace`.
-/

namespace GitVault

abbrev Str := List Char

/-- The double-quote character. -/
def qchar : Char := Char.ofNat 34

/-- The single-quote character. -/
def squote : Char := Char.ofNat 39

/-- The backslash character. -/
def bslash : Char := Char.ofNat 92

/-- Go's `unicode.IsSpace` predicate (the set `strings.TrimSpace` trims),
written on code points. -/
def goIsSpace (c : Char) : Bool :=
  c.toNat = 9 || c.toNat = 10 || c.toNat = 11 || c.toNat = 12 || c.toNat = 13 ||
  c.toNat = 32 || c.toNat = 0x85 || c.toNat = 0xA0 || c.toNat = 0x1680 ||
  (0x2000 ≤ c.toNat && c.toNat ≤ 0x200A) || c.toNat = 0x2028 ||
  c.toNat = 0x2029 || c.toNat = 0x202F || c.toNat = 0x205F || c.toNat = 0x3000

/-- Trailing-whitespace trim. -/
def goTrimRight (l : Str) : Str := (l.reverse.dropWhile goIsSpace).reverse

/-- Go `strings.TrimSpace`. -/
def goTrimSpace (l : Str) : Str := goTrimRight (l.dropWhile goIsSpace)

/-- Split at every newline character; pieces do not contain the newline.
A list of `n` newlines yields `n+1` pieces. -/
def splitNL : Str → List Str
  | [] => [[]]
  | c :: cs =>
    if c = '\n' then [] :: splitNL cs
    else
      match splitNL cs with
      | [] => [[c]]
      | p :: ps => (c :: p) :: ps

/-- `bufio.ScanLines` drops a single carriage return at the end of a line. -/
def dropCR (l : Str) : Str :=
  if l.getLast? = some '\r' then l.dropLast else l

/-- Drop the final piece when it is empty (data ending in a newline does not
produce a trailing empty line; empty data produces no lines). -/
def dropLastEmpty : List Str → List Str
  | [] => []
  | [p] => if p = [] then [] else [p]
  | p :: ps => p :: dropLastEmpty ps

/-- The sequence of lines `bufio.Scanner` with `ScanLines` yields. -/
def goLines (data : Str) : List Str :=
  (dropLastEmpty (splitNL data)).map dropCR

/-- `strings.Index(line, "=")`: split at the first equals sign, if any. -/
def splitFirstEq : Str → Option (Str × Str)
  | [] => none
  | c :: cs =>
    if c = '=' then some ([], cs)
    else (splitFirstEq cs).map (fun p => (c :: p.1, p.2))

/-- Scan for the first `#` that either starts the string or follows a space
or tab, as the inline-comment scanners in the source do. -/
def findHashAux (prev : Option Char) (i : Nat) : Str → Option Nat
  | [] => none
  | c :: cs =>
    if c = '#' && (i == 0 || prev == some ' ' || prev == some '\t') then some i
    else findHashAux (some c) (i + 1) cs

def findHashIdx (v : Str) : Option Nat := findHashAux none 0 v

/-- `domain.splitInlineComment`. -/
def splitInlineComment (v : Str) : Str × Str :=
  match findHashIdx v with
  | none => (v, [])
  | some i => (goTrimSpace (v.take i), goTrimSpace (v.drop i))

/-- `domain.stripInlineComment`. -/
def stripInlineComment (v : Str) : Str :=
  match findHashIdx v with
  | none => v
  | some i => goTrimSpace (v.take i)

inductive ValueErr
  | unterminated
deriving DecidableEq, Repr

/-- The escape map applied inside a double-quoted value:
`\n`, `\r`, `\t`, and otherwise the escaped character itself. -/
def unescMap (c : Char) : Char :=
  if c = 'n' then '\n' else if c = 'r' then '\r' else if c = 't' then '\t' else c

/-- The double-quoted-value unescaping loop of `domain.parseQuoted`:
a backslash not in final position consumes the next character; a character
in final position is copied even when it is a backslash. -/
def unescape : Str → Str
  | [] => []
  | [c] => [c]
  | c :: d :: rest =>
    if c = bslash then unescMap d :: unescape rest
    else c :: unescape (d :: rest)

/-- `domain.parseQuoted`. -/
def parseQuoted (v : Str) (q : Char) : Except ValueErr Str :=
  if v.length < 2 || v.getLast? ≠ some q then .error .unterminated
  else
    let inner := (v.drop 1).dropLast
    if q = squote then .ok inner else .ok (unescape inner)

/-- `domain.parseDotenvValue`. -/
def parseDotenvValue (v : Str) : Except ValueErr Str :=
  if v = [] then .ok []
  else if v.head? = some qchar then parseQuoted v qchar
  else if v.head? = some squote then parseQuoted v squote
  else .ok (goTrimSpace (stripInlineComment v))

/-- One character of `domain.isValidEnvKey`: letters and underscore anywhere,
digits only after the first position (Go compares runes, i.e. code points). -/
def isKeyChar (first : Bool) (c : Char) : Bool :=
  (65 ≤ c.toNat && c.toNat ≤ 90) || (97 ≤ c.toNat && c.toNat ≤ 122) ||
    c.toNat = 95 || (!first && 48 ≤ c.toNat && c.toNat ≤ 57)

def isValidEnvKeyAux : Bool → Str → Bool
  | _, [] => true
  | first, c :: cs => isKeyChar first c && isValidEnvKeyAux false cs

/-- `domain.isValidEnvKey` / `domain.IsValidEnvKey`. -/
def isValidEnvKey (k : Str) : Bool := !(k.isEmpty) && isValidEnvKeyAux true k

/-- One pass of `strings.ReplaceAll` where the pattern is a single
character. -/
def replChar (c : Char) (repl : Str) : Str → Str
  | [] => []
  | x :: xs => (if x = c then repl else [x]) ++ replChar c repl xs

/-- The escape pipeline of `domain.formatDotenvValue`: backslash first,
then quote, newline, carriage return and tab. -/
def goEscape (v : Str) : Str :=
  replChar '\t' [bslash, 't']
    (replChar '\r' [bslash, 'r']
      (replChar '\n' [bslash, 'n']
        (replChar qchar [bslash, qchar]
          (replChar bslash [bslash, bslash] v))))

/-- `strings.ContainsAny(value, " \t\n\r#\x22\x27\x5c")`. -/
def needsQuote (v : Str) : Bool :=
  v.any fun c =>
    c = ' ' || c = '\t' || c = '\n' || c = '\r' || c = '#' ||
    c = qchar || c = squote || c = bslash

/-- `domain.formatDotenvValue`. -/
def formatDotenvValue (v : Str) : Str :=
  if v = [] then []
  else if !needsQuote v then v
  else qchar :: (goEscape v ++ [qchar])

inductive Severity
  | error
  | warning
deriving DecidableEq, Repr

inductive IssueMsg
  | missingEq
  | emptyKey
  | invalidKey (k : Str)
  | badValue (e : ValueErr)
  | exportStripped
  | duplicateKey (k : Str)
deriving DecidableEq, Repr

def msgSeverity : IssueMsg → Severity
  | .exportStripped => .warning
  | .duplicateKey _ => .warning
  | _ => .error

structure DotenvIssue where
  line : Nat
  severity : Severity
  msg : IssueMsg
deriving DecidableEq, Repr

/-- `domain.Dotenv`: the value model.  The Go `map[string]string` is
modelled as an association list whose keys stay distinct. -/
structure Dotenv where
  Values : List (Str × Str)
  Order : List Str
deriving DecidableEq, Repr

/-- Map lookup. -/
def alookup (l : List (Str × Str)) (k : Str) : Option Str :=
  (l.find? fun p => p.1 == k).map (·.2)

/-- Map update: replace in place, or append when the key is new. -/
def aupsert (l : List (Str × Str)) (k v : Str) : List (Str × Str) :=
  match l with
  | [] => [(k, v)]
  | (k0, v0) :: rest =>
    if k0 == k then (k, v) :: rest else (k0, v0) :: aupsert rest k v

def exportStr : Str := ['e', 'x', 'p', 'o', 'r', 't', ' ']

/-- The `export ` prefix handling of value-mode `domain.ParseDotenv`:
strip the prefix, trim again, and record a warning. -/
def exportSplit (line : Str) : List IssueMsg × Str :=
  if exportStr.isPrefixOf line then
    ([IssueMsg.exportStripped], goTrimSpace (line.drop 7))
  else ([], line)

/-- The key/value half of a value-mode line, after the export handling. -/
def parseEnvBody (line : Str) : List IssueMsg × Option (Str × Str) :=
  match splitFirstEq line with
  | none => ([.missingEq], none)
  | some (k0, rest) =>
    let key := goTrimSpace k0
    if key = [] then ([.emptyKey], none)
    else if !isValidEnvKey key then ([.invalidKey key], none)
    else
      match parseDotenvValue (goTrimSpace rest) with
      | .error e => ([.badValue e], none)
      | .ok v => ([], some (key, v))

def parseEnvLine (raw : Str) : List IssueMsg × Option (Str × Str) :=
  let line := goTrimSpace raw
  if line = [] || line.head? = some '#' then ([], none)
  else
    let es := exportSplit line
    let body := parseEnvBody es.2
    (es.1 ++ body.1, body.2)

/-- The line loop of `domain.ParseDotenv`.  The Go `seen` set always equals
the domain of `Values` (both are updated together), so the duplicate test
is the `Values` lookup. -/
def parseEnvAux : Nat → Dotenv → List Str → Dotenv × List DotenvIssue
  | _, acc, [] => (acc, [])
  | n, acc, raw :: raws =>
    let pl := parseEnvLine raw
    let issues0 := pl.1.map fun m => DotenvIssue.mk n (msgSeverity m) m
    match pl.2 with
    | none =>
      let rec0 := parseEnvAux (n + 1) acc raws
      (rec0.1, issues0 ++ rec0.2)
    | some (k, v) =>
      let dup := (alookup acc.Values k).isSome
      let acc' : Dotenv :=
        ⟨aupsert acc.Values k v, if dup then acc.Order else acc.Order ++ [k]⟩
      let dupIss : List DotenvIssue :=
        if dup then [DotenvIssue.mk n .warning (.duplicateKey k)] else []
      let rec0 := parseEnvAux (n + 1) acc' raws
      (rec0.1, issues0 ++ dupIss ++ rec0.2)

/-- `domain.ParseDotenv`. -/
def ParseDotenv (data : Str) : Dotenv × List DotenvIssue :=
  parseEnvAux 1 ⟨[], []⟩ (goLines data)

/-- Go `sort.Strings` order: lexicographic byte order, which equals
lexicographic code-point order on valid UTF-8. -/
def lexLe : Str → Str → Bool
  | [], _ => true
  | _ :: _, [] => false
  | a :: as, b :: bs => if a = b then lexLe as bs else decide (a < b)

/-- Insert into a lexicographically sorted list. -/
def insertSorted (x : Str) : List Str → List Str
  | [] => [x]
  | y :: ys => if lexLe x y then x :: y :: ys else y :: insertSorted x ys

/-- The result of Go `sort.Strings`: the sorted arrangement of the list.
Equal strings are indistinguishable, so any sorting algorithm yields the
same list; insertion sort is used here. -/
def sortKeys : List Str → List Str
  | [] => []
  | x :: xs => insertSorted x (sortKeys xs)

/-- One `KEY=value` output line. -/
def renderKV (k v : Str) : Str := k ++ '=' :: (formatDotenvValue v ++ ['\n'])

/-- `domain.RenderDotenv`: all keys sorted. -/
def RenderDotenv (values : List (Str × Str)) : Str :=
  ((sortKeys (values.map (·.1))).map
    (fun k => renderKV k ((alookup values k).getD []))).flatten

/-! ## Basic facts about trimming, splitting and keys -/

theorem dropWhile_eq_self_of_head {p : Char → Bool} {l : Str}
    (h : ∀ c, l.head? = some c → p c = false) : l.dropWhile p = l := by
  cases l with
  | nil => rfl
  | cons a as =>
    have := h a rfl
    simp [List.dropWhile_cons, this]

theorem goTrimRight_eq_self {l : Str}
    (h : ∀ c, l.getLast? = some c → goIsSpace c = false) : goTrimRight l = l := by
  unfold goTrimRight
  rw [dropWhile_eq_self_of_head, List.reverse_reverse]
  intro c hc
  exact h c (by rwa [← List.head?_reverse])

theorem goTrimSpace_eq_self {l : Str}
    (h1 : ∀ c, l.head? = some c → goIsSpace c = false)
    (h2 : ∀ c, l.getLast? = some c → goIsSpace c = false) : goTrimSpace l = l := by
  unfold goTrimSpace
  rw [dropWhile_eq_self_of_head h1, goTrimRight_eq_self h2]

theorem goTrimSpace_nil : goTrimSpace [] = [] := rfl

theorem goTrimRight_append {xs ys : Str}
    (h : ∀ c, xs.getLast? = some c → goIsSpace c = false) :
    goTrimRight (xs ++ ys) = xs ++ goTrimRight ys := by
  unfold goTrimRight
  rw [List.reverse_append, List.dropWhile_append]
  have hxs : xs.reverse.dropWhile goIsSpace = xs.reverse := by
    apply dropWhile_eq_self_of_head
    intro c hc
    exact h c (by rwa [← List.head?_reverse])
  by_cases he : (ys.reverse.dropWhile goIsSpace).isEmpty = true
  · rw [if_pos he, hxs]
    have : ys.reverse.dropWhile goIsSpace = [] := by
      simpa [List.isEmpty_iff] using he
    simp [this]
  · rw [if_neg he, List.reverse_append, List.reverse_reverse]

theorem goTrimSpace_append_eq {xs ys : Str}
    (hh : ∀ c, xs.head? = some c → goIsSpace c = false)
    (hl : ∀ c, xs.getLast? = some c → goIsSpace c = false)
    (hne : xs ≠ []) :
    goTrimSpace (xs ++ ys) = xs ++ goTrimRight ys := by
  unfold goTrimSpace
  rw [dropWhile_eq_self_of_head, goTrimRight_append hl]
  intro c hc
  apply hh c
  cases xs with
  | nil => exact absurd rfl hne
  | cons a as => simpa using hc

theorem mem_of_mem_goTrimRight {c : Char} {l : Str} (h : c ∈ goTrimRight l) : c ∈ l := by
  unfold goTrimRight at h
  rw [List.mem_reverse] at h
  have := List.dropWhile_sublist (l := l.reverse) (p := goIsSpace)
  exact List.mem_reverse.mp (this.mem h)

theorem mem_of_mem_goTrimSpace {c : Char} {l : Str} (h : c ∈ goTrimSpace l) : c ∈ l := by
  unfold goTrimSpace at h
  have h2 := mem_of_mem_goTrimRight h
  exact (List.dropWhile_sublist (l := l) (p := goIsSpace)).mem h2

theorem goTrimSpace_eq_self_of_all {l : Str}
    (h : ∀ c ∈ l, goIsSpace c = false) : goTrimSpace l = l := by
  apply goTrimSpace_eq_self
  · intro c hc
    exact h c (by cases l with | nil => simp at hc | cons a as => simp_all)
  · intro c hc
    exact h c (List.mem_of_mem_getLast? hc)

/-- The first equals sign in `k ++ "=" ++ rest` splits exactly there when
`k` contains no equals sign. -/
theorem splitFirstEq_append {k rest : Str} (h : '=' ∉ k) :
    splitFirstEq (k ++ '=' :: rest) = some (k, rest) := by
  induction k with
  | nil => simp [splitFirstEq]
  | cons c cs ih =>
    have hc : c ≠ '=' := fun hc => h (hc ▸ List.mem_cons_self c cs)
    have hcs : '=' ∉ cs := fun hm => h (List.mem_cons_of_mem c hm)
    simp [splitFirstEq, hc, ih hcs]

theorem isKeyChar_mono {first : Bool} {c : Char} (h : isKeyChar first c = true) :
    isKeyChar false c = true := by
  unfold isKeyChar at *
  rcases Bool.or_eq_true_iff.mp h with h1 | h1
  · rcases Bool.or_eq_true_iff.mp h1 with h2 | h2
    · rcases Bool.or_eq_true_iff.mp h2 with h3 | h3 <;> simp_all
    · simp_all
  · simp only [Bool.and_eq_true, Bool.not_eq_eq_eq_not, Bool.not_true, decide_eq_true_eq] at h1
    simp [h1.1.2, h1.2]

theorem validKeyAux_chars {k : Str} : ∀ {first : Bool},
    isValidEnvKeyAux first k = true → ∀ c ∈ k, isKeyChar false c = true := by
  induction k with
  | nil => intro first _ c hc; simp at hc
  | cons a as ih =>
    intro first h c hc
    have ha : isKeyChar first a = true ∧ isValidEnvKeyAux false as = true := by
      simpa [isValidEnvKeyAux] using h
    rcases List.mem_cons.mp hc with rfl | hmem
    · exact isKeyChar_mono ha.1
    · exact ih ha.2 c hmem

theorem validKey_chars {k : Str} (h : isValidEnvKey k = true) :
    ∀ c ∈ k, isKeyChar false c = true := by
  unfold isValidEnvKey at h
  exact validKeyAux_chars (Bool.and_eq_true_iff.mp h).2

theorem keyChar_bounds {c : Char} (h : isKeyChar false c = true) :
    (65 ≤ c.toNat ∧ c.toNat ≤ 90) ∨ (97 ≤ c.toNat ∧ c.toNat ≤ 122) ∨
      c.toNat = 95 ∨ (48 ≤ c.toNat ∧ c.toNat ≤ 57) := by
  unfold isKeyChar at h
  rcases Bool.or_eq_true_iff.mp h with h1 | h1
  · rcases Bool.or_eq_true_iff.mp h1 with h2 | h2
    · rcases Bool.or_eq_true_iff.mp h2 with h3 | h3
      · exact Or.inl (by simp_all)
      · exact Or.inr (Or.inl (by simp_all))
    · exact Or.inr (Or.inr (Or.inl (by simp_all)))
  · exact Or.inr (Or.inr (Or.inr (by simp_all)))

theorem keyChar_not_space {c : Char} (h : isKeyChar false c = true) :
    goIsSpace c = false := by
  have hb := keyChar_bounds h
  unfold goIsSpace
  simp only [Bool.or_eq_false_iff, decide_eq_false_iff_not, Bool.and_eq_false_iff,
    decide_eq_false_iff_not]
  omega

theorem keyChar_toNat_ne {c : Char} (h : isKeyChar false c = true) {n : Nat}
    (hn : n = 61 ∨ n = 35 ∨ n = 34 ∨ n = 39 ∨ n = 92 ∨ n = 10 ∨ n = 13 ∨ n = 32 ∨ n = 9) :
    c.toNat ≠ n := by
  have hb := keyChar_bounds h
  omega

theorem keyChar_ne_of_toNat {c d : Char} (h : isKeyChar false c = true)
    (hd : d.toNat = 61 ∨ d.toNat = 35 ∨ d.toNat = 34 ∨ d.toNat = 39 ∨ d.toNat = 92 ∨
      d.toNat = 10 ∨ d.toNat = 13 ∨ d.toNat = 32 ∨ d.toNat = 9) : c ≠ d := by
  intro he
  exact keyChar_toNat_ne h hd (he ▸ rfl)

/-! ## The escape pipeline acts character by character -/

/-- The per-character effect of the escape pipeline (proof artifact; the
source-faithful definition is `goEscape`). -/
def escChar (c : Char) : Str :=
  if c = bslash then [bslash, bslash]
  else if c = qchar then [bslash, qchar]
  else if c = '\n' then [bslash, 'n']
  else if c = '\r' then [bslash, 'r']
  else if c = '\t' then [bslash, 't']
  else [c]

theorem replChar_append (c : Char) (r l1 l2 : Str) :
    replChar c r (l1 ++ l2) = replChar c r l1 ++ replChar c r l2 := by
  induction l1 with
  | nil => rfl
  | cons a as ih => simp [replChar, ih]

theorem goEscape_append (l1 l2 : Str) :
    goEscape (l1 ++ l2) = goEscape l1 ++ goEscape l2 := by
  unfold goEscape
  rw [replChar_append, replChar_append, replChar_append, replChar_append,
    replChar_append]

theorem goEscape_single (c : Char) : goEscape [c] = escChar c := by
  by_cases h1 : c = bslash
  · subst h1; rfl
  · by_cases h2 : c = qchar
    · subst h2; rfl
    · by_cases h3 : c = '\n'
      · subst h3; rfl
      · by_cases h4 : c = '\r'
        · subst h4; rfl
        · by_cases h5 : c = '\t'
          · subst h5; rfl
          · simp [goEscape, replChar, escChar, h1, h2, h3, h4, h5]

theorem goEscape_cons (c : Char) (v : Str) :
    goEscape (c :: v) = escChar c ++ goEscape v := by
  have := goEscape_append [c] v
  simpa [goEscape_single] using this

theorem unescape_cons_bslash (d : Char) (rest : Str) :
    unescape (bslash :: d :: rest) = unescMap d :: unescape rest := by
  simp only [unescape]
  simp

theorem unescape_cons_other {c : Char} (h : c ≠ bslash) (rest : Str) :
    unescape (c :: rest) = c :: unescape rest := by
  cases rest with
  | nil => rfl
  | cons d ds =>
    simp only [unescape]
    rw [if_neg h]

theorem unescape_goEscape (v : Str) : unescape (goEscape v) = v := by
  induction v with
  | nil => rfl
  | cons c cs ih =>
    rw [goEscape_cons]
    by_cases h1 : c = bslash
    · subst h1
      rw [show escChar bslash = [bslash, bslash] from by decide]
      rw [List.cons_append, List.cons_append, List.nil_append,
        unescape_cons_bslash, ih, show unescMap bslash = bslash from by decide]
    · by_cases h2 : c = qchar
      · subst h2
        rw [show escChar qchar = [bslash, qchar] from by decide]
        rw [List.cons_append, List.cons_append, List.nil_append,
          unescape_cons_bslash, ih, show unescMap qchar = qchar from by decide]
      · by_cases h3 : c = '\n'
        · subst h3
          rw [show escChar '\n' = [bslash, 'n'] from by decide]
          rw [List.cons_append, List.cons_append, List.nil_append,
            unescape_cons_bslash, ih, show unescMap 'n' = '\n' from by decide]
        · by_cases h4 : c = '\r'
          · subst h4
            rw [show escChar '\r' = [bslash, 'r'] from by decide]
            rw [List.cons_append, List.cons_append, List.nil_append,
              unescape_cons_bslash, ih, show unescMap 'r' = '\r' from by decide]
          · by_cases h5 : c = '\t'
            · subst h5
              rw [show escChar '\t' = [bslash, 't'] from by decide]
              rw [List.cons_append, List.cons_append, List.nil_append,
                unescape_cons_bslash, ih, show unescMap 't' = '\t' from by decide]
            · rw [show escChar c = [c] from by
                unfold escChar; rw [if_neg h1, if_neg h2, if_neg h3, if_neg h4, if_neg h5]]
              rw [List.cons_append, List.nil_append, unescape_cons_other h1, ih]

theorem escChar_no_nl (c : Char) : '\n' ∉ escChar c := by
  unfold escChar
  split_ifs with g1 g2 g3 g4 g5
  · decide
  · decide
  · decide
  · decide
  · decide
  · simp only [List.mem_singleton]
    intro h
    exact g3 h.symm

theorem escChar_no_cr (c : Char) : '\r' ∉ escChar c := by
  unfold escChar
  split_ifs with g1 g2 g3 g4 g5
  · decide
  · decide
  · decide
  · decide
  · decide
  · simp only [List.mem_singleton]
    intro h
    exact g4 h.symm

theorem goEscape_no_nl {v : Str} : '\n' ∉ goEscape v := by
  induction v with
  | nil => simp [goEscape, replChar]
  | cons c cs ih =>
    rw [goEscape_cons]
    intro hmem
    rcases List.mem_append.mp hmem with hm | hm
    · exact escChar_no_nl c hm
    · exact ih hm

theorem goEscape_no_cr {v : Str} : '\r' ∉ goEscape v := by
  induction v with
  | nil => simp [goEscape, replChar]
  | cons c cs ih =>
    rw [goEscape_cons]
    intro hmem
    rcases List.mem_append.mp hmem with hm | hm
    · exact escChar_no_cr c hm
    · exact ih hm

/-! ## Scanner lines of a rendered payload -/

theorem splitNL_ne_nil (d : Str) : splitNL d ≠ [] := by
  cases d with
  | nil => simp [splitNL]
  | cons c cs =>
    unfold splitNL
    by_cases h : c = '\n'
    · simp [h]
    · simp only [if_neg h]
      cases splitNL cs <;> simp

theorem splitNL_no_nl {r : Str} (h : '\n' ∉ r) : splitNL r = [r] := by
  induction r with
  | nil => rfl
  | cons c cs ih =>
    have hc : c ≠ '\n' := fun hc => h (hc ▸ List.mem_cons_self c cs)
    have hcs : '\n' ∉ cs := fun hm => h (List.mem_cons_of_mem c hm)
    unfold splitNL
    rw [if_neg hc, ih hcs]

theorem splitNL_append_nl {r t : Str} (h : '\n' ∉ r) :
    splitNL (r ++ '\n' :: t) = r :: splitNL t := by
  induction r with
  | nil => simp [splitNL]
  | cons c cs ih =>
    have hc : c ≠ '\n' := fun hc => h (hc ▸ List.mem_cons_self c cs)
    have hcs : '\n' ∉ cs := fun hm => h (List.mem_cons_of_mem c hm)
    rw [List.cons_append]
    simp only [splitNL]
    rw [if_neg hc, ih hcs]

theorem dropLastEmpty_cons {p : Str} {ps : List Str} (h : ps ≠ []) :
    dropLastEmpty (p :: ps) = p :: dropLastEmpty ps := by
  cases ps with
  | nil => exact absurd rfl h
  | cons q qs => rfl

theorem dropCR_eq_self {l : Str}
    (h : ∀ c, l.getLast? = some c → c ≠ '\r') : dropCR l = l := by
  unfold dropCR
  cases hl : l.getLast? with
  | none => simp
  | some c =>
    have := h c hl
    simp [hl, this]

/-- Scanning the concatenation of newline-free lines, each followed by a
newline, recovers exactly those lines (after the carriage-return drop). -/
theorem goLines_flatten {rls : List Str} (h : ∀ r ∈ rls, '\n' ∉ r) :
    goLines ((rls.map (· ++ ['\n'])).flatten) = rls.map dropCR := by
  induction rls with
  | nil => rfl
  | cons r rest ih =>
    have hr : '\n' ∉ r := h r (List.mem_cons_self r rest)
    have hrest : ∀ x ∈ rest, '\n' ∉ x := fun x hx => h x (List.mem_cons_of_mem r hx)
    unfold goLines
    have hres : (r ++ ['\n']) ++ (rest.map (· ++ ['\n'])).flatten =
        r ++ '\n' :: (rest.map (· ++ ['\n'])).flatten := by simp
    rw [List.map_cons, List.flatten_cons, hres, splitNL_append_nl hr,
      dropLastEmpty_cons (splitNL_ne_nil _), List.map_cons]
    have ih2 := ih hrest
    unfold goLines at ih2
    rw [ih2]
    rfl

/-! ## Heads and tails of trimmed strings -/

theorem head?_dropWhile_false {p : Char → Bool} {l : Str} {c : Char}
    (h : (l.dropWhile p).head? = some c) : p c = false := by
  induction l with
  | nil => simp [List.dropWhile] at h
  | cons a as ih =>
    rw [List.dropWhile_cons] at h
    by_cases hp : p a = true
    · rw [if_pos hp] at h
      exact ih h
    · rw [if_neg hp] at h
      simp at h
      rw [← h]
      exact Bool.eq_false_iff.mpr hp

theorem goTrimRight_prefix (l : Str) : goTrimRight l <+: l := by
  unfold goTrimRight
  have h := List.dropWhile_suffix (l := l.reverse) (p := goIsSpace)
  rw [← List.reverse_prefix] at h
  simpa using h

theorem goTrimRight_getLast_not_space {l : Str} {c : Char}
    (h : (goTrimRight l).getLast? = some c) : goIsSpace c = false := by
  unfold goTrimRight at h
  rw [List.getLast?_reverse] at h
  exact head?_dropWhile_false h

theorem goTrimSpace_getLast_not_space {l : Str} {c : Char}
    (h : (goTrimSpace l).getLast? = some c) : goIsSpace c = false :=
  goTrimRight_getLast_not_space h

theorem goTrimSpace_head_not_space {l : Str} {c : Char}
    (h : (goTrimSpace l).head? = some c) : goIsSpace c = false := by
  unfold goTrimSpace at h
  rcases goTrimRight_prefix (l.dropWhile goIsSpace) with ⟨t, ht⟩
  have hh : (l.dropWhile goIsSpace).head? = some c := by
    rw [← ht, List.head?_append, h]
    rfl
  exact head?_dropWhile_false hh

theorem stable_of_edges {l : Str}
    (h1 : ∀ c, l.head? = some c → goIsSpace c = false)
    (h2 : ∀ c, l.getLast? = some c → goIsSpace c = false) : goTrimSpace l = l :=
  goTrimSpace_eq_self h1 h2

theorem goTrimRight_eq_self_of_stable {l : Str} (h : goTrimSpace l = l) :
    goTrimRight l = l := by
  apply goTrimRight_eq_self
  intro c hc
  apply goTrimSpace_getLast_not_space (l := l)
  rw [h]
  exact hc

theorem dropWhile_eq_self_of_stable {l : Str} (h : goTrimSpace l = l) :
    l.dropWhile goIsSpace = l := by
  apply dropWhile_eq_self_of_head
  intro c hc
  apply goTrimSpace_head_not_space (l := l)
  rw [h]
  exact hc

/-! ## Characters of bare (unquoted) rendered values -/

theorem bare_chars {v : Str} (h : needsQuote v = false) :
    ∀ c ∈ v, c ≠ ' ' ∧ c ≠ '\t' ∧ c ≠ '\n' ∧ c ≠ '\r' ∧ c ≠ '#' ∧
      c ≠ qchar ∧ c ≠ squote ∧ c ≠ bslash := by
  intro c hc
  unfold needsQuote at h
  rw [List.any_eq_false] at h
  have h2 := h c hc
  simp only [Bool.or_eq_true, decide_eq_true_eq, not_or] at h2
  tauto

theorem bare_no_hash {v : Str} (h : needsQuote v = false) : '#' ∉ v := by
  intro hm
  exact (bare_chars h '#' hm).2.2.2.2.1 rfl

theorem findHashAux_none {v : Str} (h : '#' ∉ v) :
    ∀ prev i, findHashAux prev i v = none := by
  induction v with
  | nil => intro prev i; rfl
  | cons c cs ih =>
    intro prev i
    have hc : c ≠ '#' := fun hc => h (hc ▸ List.mem_cons_self c cs)
    have hcs : '#' ∉ cs := fun hm => h (List.mem_cons_of_mem c hm)
    unfold findHashAux
    rw [if_neg (by simp [hc]), ih hcs]

theorem stripInlineComment_no_hash {v : Str} (h : '#' ∉ v) :
    stripInlineComment v = v := by
  unfold stripInlineComment findHashIdx
  rw [findHashAux_none h]

/-! ## The `export ` prefix never matches a rendered key line -/

theorem exportStr_not_prefix {k rest : Str} (hk : isValidEnvKey k = true) :
    exportStr.isPrefixOf (k ++ '=' :: rest) = false := by
  by_contra hcon
  have hpre : exportStr <+: (k ++ '=' :: rest) :=
    List.isPrefixOf_iff_prefix.mp (Bool.not_eq_false _ ▸ hcon)
  rcases hpre with ⟨t, ht⟩
  by_cases hlen : k.length ≤ 6
  · -- position `k.length` carries the equals sign but must match the literal
    have h1 : (exportStr ++ t)[k.length]? = exportStr[k.length]? := by
      rw [List.getElem?_append]
      rw [if_pos (by simp [exportStr]; omega)]
    have h2 : (k ++ '=' :: rest)[k.length]? = some '=' := by
      rw [List.getElem?_append]
      rw [if_neg (by omega)]
      simp
    rw [ht] at h1
    rw [h2] at h1
    interval_cases h : k.length <;> revert h1 <;> decide
  · -- position 6 carries a space but sits inside the key
    have h1 : (exportStr ++ t)[6]? = some ' ' := by
      rw [List.getElem?_append]
      rw [if_pos (by simp [exportStr])]
      rfl
    have h2 : (k ++ '=' :: rest)[6]? = k[6]? := by
      rw [List.getElem?_append]
      rw [if_pos (by omega)]
    rw [ht, h2] at h1
    have hmem : ' ' ∈ k := List.getElem?_mem h1
    have := validKey_chars hk ' ' hmem
    have hb := keyChar_bounds this
    revert hb
    decide

/-! ## Re-parsing a rendered key line -/

theorem validKey_ne_nil {k : Str} (hk : isValidEnvKey k = true) : k ≠ [] := by
  intro h
  subst h
  simp [isValidEnvKey] at hk

theorem validKey_no_eq {k : Str} (hk : isValidEnvKey k = true) : '=' ∉ k := by
  intro hm
  have hb := keyChar_bounds (validKey_chars hk '=' hm)
  revert hb
  decide

theorem keyChar_ne_hash {c : Char} (h : isKeyChar false c = true) : c ≠ '#' := by
  intro he
  subst he
  revert h
  decide

theorem validKey_trim {k : Str} (hk : isValidEnvKey k = true) :
    goTrimSpace k = k :=
  goTrimSpace_eq_self_of_all fun c hc => keyChar_not_space (validKey_chars hk c hc)

theorem goTrimSpace_keyline {k : Str} (hk : isValidEnvKey k = true) (fv : Str) :
    goTrimSpace (k ++ '=' :: fv) = k ++ '=' :: goTrimRight fv := by
  have hkne : k ≠ [] := validKey_ne_nil hk
  have hes : (k ++ ['=']) ++ fv = k ++ '=' :: fv := by simp
  rw [← hes, goTrimSpace_append_eq, List.append_assoc]
  · rfl
  · intro c hc
    apply keyChar_not_space
    apply validKey_chars hk
    cases k with
    | nil => exact absurd rfl hkne
    | cons a as =>
      simp at hc
      subst hc
      exact List.mem_cons_self _ _
  · intro c hc
    rw [List.getLast?_concat] at hc
    cases hc
    decide
  · simp

/-- Re-parsing `KEY=fv` in value mode: the front half of the line loop.
The line survives the blank/comment/export/key checks and hands
`goTrimSpace (goTrimRight fv)` to `parseDotenvValue`. -/
theorem parseEnvLine_keyline {k : Str} (hk : isValidEnvKey k = true) (fv : Str) :
    parseEnvLine (k ++ '=' :: fv) =
      match parseDotenvValue (goTrimSpace (goTrimRight fv)) with
      | .ok w => ([], some (k, w))
      | .error e => ([IssueMsg.badValue e], none) := by
  obtain ⟨c, ks, rfl⟩ : ∃ c ks, k = c :: ks := by
    cases k with
    | nil => exact absurd rfl (validKey_ne_nil hk)
    | cons a as => exact ⟨a, as, rfl⟩
  have hc : isKeyChar false c = true :=
    validKey_chars hk c (List.mem_cons_self c ks)
  have hline := goTrimSpace_keyline hk fv
  have hexp : exportStr.isPrefixOf ((c :: ks) ++ '=' :: goTrimRight fv) = false :=
    exportStr_not_prefix hk
  have hsplit : splitFirstEq ((c :: ks) ++ '=' :: goTrimRight fv) =
      some (c :: ks, goTrimRight fv) :=
    splitFirstEq_append (validKey_no_eq hk)
  have hktrim : goTrimSpace (c :: ks) = c :: ks := validKey_trim hk
  have hhash : ¬ ((c :: ks) ++ '=' :: goTrimRight fv).head? = some '#' := by
    intro hh
    simp at hh
    exact keyChar_ne_hash hc hh
  have hes : exportSplit ((c :: ks) ++ '=' :: goTrimRight fv) =
      ([], (c :: ks) ++ '=' :: goTrimRight fv) := by
    unfold exportSplit
    rw [hexp]
    simp
  have hbody : parseEnvBody ((c :: ks) ++ '=' :: goTrimRight fv) =
      match parseDotenvValue (goTrimSpace (goTrimRight fv)) with
      | .ok w => ([], some (c :: ks, w))
      | .error e => ([IssueMsg.badValue e], none) := by
    unfold parseEnvBody
    rw [hsplit]
    simp only [hktrim]
    rw [if_neg (by simp)]
    rw [if_neg (by rw [hk]; simp)]
    cases parseDotenvValue (goTrimSpace (goTrimRight fv)) <;> rfl
  unfold parseEnvLine
  rw [hline]
  rw [if_neg (by simp [keyChar_ne_hash hc])]
  simp only [hes, hbody]
  cases parseDotenvValue (goTrimSpace (goTrimRight fv)) <;> simp

/-! ## The value round trip through format and parse -/

theorem needsQuote_nil : needsQuote [] = false := rfl

theorem parseDotenvValue_bare {v : Str} (hv : v ≠ []) (hb : needsQuote v = false)
    (hs : goTrimSpace v = v) :
    parseDotenvValue (goTrimSpace (goTrimRight (formatDotenvValue v))) = .ok v := by
  have hfv : formatDotenvValue v = v := by
    unfold formatDotenvValue
    rw [if_neg hv, hb]
    simp
  rw [hfv, goTrimRight_eq_self_of_stable hs, hs]
  obtain ⟨c, cs, rfl⟩ : ∃ c cs, v = c :: cs := by
    cases v with
    | nil => exact absurd rfl hv
    | cons a as => exact ⟨a, as, rfl⟩
  have hfacts := bare_chars hb c (List.mem_cons_self c cs)
  unfold parseDotenvValue
  rw [if_neg hv]
  rw [if_neg (by simp; exact hfacts.2.2.2.2.2.1)]
  rw [if_neg (by simp; exact hfacts.2.2.2.2.2.2.1)]
  rw [stripInlineComment_no_hash (bare_no_hash hb), hs]

theorem parseDotenvValue_quoted {v : Str} (hb : needsQuote v = true) :
    parseDotenvValue (goTrimSpace (goTrimRight (formatDotenvValue v))) = .ok v := by
  have hvne : v ≠ [] := by
    intro h
    subst h
    simp [needsQuote] at hb
  have hfv : formatDotenvValue v = qchar :: (goEscape v ++ [qchar]) := by
    unfold formatDotenvValue
    rw [if_neg hvne, hb]
    simp
  have hshape : qchar :: (goEscape v ++ [qchar]) = (qchar :: goEscape v) ++ [qchar] := by
    simp
  have hlast : (qchar :: (goEscape v ++ [qchar])).getLast? = some qchar := by
    rw [hshape]
    exact List.getLast?_concat _
  have htr : goTrimRight (qchar :: (goEscape v ++ [qchar])) =
      qchar :: (goEscape v ++ [qchar]) := by
    apply goTrimRight_eq_self
    intro c hc
    rw [hlast] at hc
    cases hc
    decide
  have hts : goTrimSpace (qchar :: (goEscape v ++ [qchar])) =
      qchar :: (goEscape v ++ [qchar]) := by
    apply goTrimSpace_eq_self
    · intro c hc
      simp at hc
      subst hc
      decide
    · intro c hc
      rw [hlast] at hc
      cases hc
      decide
  rw [hfv, htr, hts]
  unfold parseDotenvValue
  rw [if_neg (by simp)]
  rw [if_pos (by simp)]
  unfold parseQuoted
  rw [if_neg (by simp [hlast])]
  rw [if_neg (by decide)]
  have hinner : ((qchar :: (goEscape v ++ [qchar])).drop 1).dropLast = goEscape v := by
    rw [List.drop_one, hshape]
    simp [List.dropLast_concat]
  simp only [hinner, unescape_goEscape]

theorem parseDotenvValue_roundtrip {v : Str}
    (hv : goTrimSpace v = v ∨ needsQuote v = true) :
    parseDotenvValue (goTrimSpace (goTrimRight (formatDotenvValue v))) = .ok v := by
  by_cases hb : needsQuote v = true
  · exact parseDotenvValue_quoted hb
  · have hb' : needsQuote v = false := Bool.eq_false_iff.mpr hb
    rcases hv with hs | hq
    · by_cases hvn : v = []
      · subst hvn
        rfl
      · exact parseDotenvValue_bare hvn hb' hs
    · exact absurd hq hb

theorem parseDotenvValue_roundtrip_weak (v : Str) :
    ∃ w, parseDotenvValue (goTrimSpace (goTrimRight (formatDotenvValue v))) = .ok w := by
  by_cases hb : needsQuote v = true
  · exact ⟨v, parseDotenvValue_quoted hb⟩
  · have hb' : needsQuote v = false := Bool.eq_false_iff.mpr hb
    have hfv : formatDotenvValue v = v := by
      by_cases hvn : v = []
      · subst hvn
        rfl
      · unfold formatDotenvValue
        rw [if_neg hvn, hb']
        simp
    rw [hfv]
    set u := goTrimSpace (goTrimRight v) with hu
    by_cases hun : u = []
    · exact ⟨[], by rw [hun]; rfl⟩
    · obtain ⟨c, cs, hcons⟩ : ∃ c cs, u = c :: cs := by
        cases hcase : u with
        | nil => exact absurd hcase hun
        | cons a as => exact ⟨a, as, rfl⟩
      have hcv : c ∈ v := by
        have h1 : c ∈ u := by rw [hcons]; exact List.mem_cons_self c cs
        exact mem_of_mem_goTrimRight (mem_of_mem_goTrimSpace (hu ▸ h1))
      have hfacts := bare_chars hb' c hcv
      refine ⟨goTrimSpace (stripInlineComment u), ?_⟩
      unfold parseDotenvValue
      rw [if_neg hun]
      rw [if_neg (by rw [hcons]; simp; exact hfacts.2.2.2.2.2.1)]
      rw [if_neg (by rw [hcons]; simp; exact hfacts.2.2.2.2.2.2.1)]

/-- Re-parsing a full rendered `KEY=value` line recovers the pair exactly,
provided the value either needs quoting or is already trim-stable. -/
theorem parseEnvLine_renderKV {k v : Str} (hk : isValidEnvKey k = true)
    (hv : goTrimSpace v = v ∨ needsQuote v = true) :
    parseEnvLine (k ++ '=' :: formatDotenvValue v) = ([], some (k, v)) := by
  rw [parseEnvLine_keyline hk, parseDotenvValue_roundtrip hv]

/-- Re-parsing a rendered `KEY=value` line always recovers the key, whatever
the value. -/
theorem parseEnvLine_renderKV_weak {k : Str} (v : Str) (hk : isValidEnvKey k = true) :
    ∃ w, parseEnvLine (k ++ '=' :: formatDotenvValue v) = ([], some (k, w)) := by
  obtain ⟨w, hw⟩ := parseDotenvValue_roundtrip_weak v
  exact ⟨w, by rw [parseEnvLine_keyline hk, hw]⟩

/-! ## Parsing a whole rendered payload -/

theorem renderKV_shape (k v : Str) :
    renderKV k v = (k ++ '=' :: formatDotenvValue v) ++ ['\n'] := by
  unfold renderKV
  simp

theorem mem_formatDotenvValue {c : Char} {v : Str} (h : c ∈ formatDotenvValue v) :
    c = qchar ∨ c ∈ goEscape v ∨ (needsQuote v = false ∧ c ∈ v) := by
  unfold formatDotenvValue at h
  by_cases h1 : v = []
  · rw [if_pos h1] at h
    simp at h
  · rw [if_neg h1] at h
    by_cases h2 : needsQuote v
    · rw [if_neg (by simp [h2])] at h
      rcases List.mem_cons.mp h with h3 | h3
      · exact Or.inl h3
      · rcases List.mem_append.mp h3 with h4 | h4
        · exact Or.inr (Or.inl h4)
        · simp at h4
          exact Or.inl h4
    · rw [if_pos (by simp [Bool.eq_false_iff.mpr h2])] at h
      exact Or.inr (Or.inr ⟨Bool.eq_false_iff.mpr h2, h⟩)

theorem keyline_no_nl {k v : Str} (hk : isValidEnvKey k = true) :
    '\n' ∉ (k ++ '=' :: formatDotenvValue v) := by
  intro hmem
  rcases List.mem_append.mp hmem with hm | hm
  · have hb := keyChar_bounds (validKey_chars hk '\n' hm)
    revert hb
    decide
  · rcases List.mem_cons.mp hm with hm2 | hm2
    · exact absurd hm2 (by decide)
    · rcases mem_formatDotenvValue hm2 with h | h | h
      · exact absurd h (by decide)
      · exact goEscape_no_nl h
      · exact (bare_chars h.1 '\n' h.2).2.2.1 rfl

theorem getLast?_formatDotenvValue_ne_cr {v : Str} {c : Char}
    (h : (formatDotenvValue v).getLast? = some c) : c ≠ '\r' := by
  intro he
  subst he
  have hmem := List.mem_of_mem_getLast? h
  rcases mem_formatDotenvValue hmem with h2 | h2 | h2
  · exact absurd h2 (by decide)
  · exact goEscape_no_cr h2
  · exact (bare_chars h2.1 '\r' h2.2).2.2.2.1 rfl

theorem dropCR_keyline (k v : Str) :
    dropCR (k ++ '=' :: formatDotenvValue v) = k ++ '=' :: formatDotenvValue v := by
  apply dropCR_eq_self
  intro c hc
  rw [show k ++ '=' :: formatDotenvValue v = (k ++ ['=']) ++ formatDotenvValue v
    from by simp] at hc
  rw [List.getLast?_append] at hc
  cases hfv : (formatDotenvValue v).getLast? with
  | some d =>
    rw [hfv] at hc
    simp at hc
    subst hc
    exact getLast?_formatDotenvValue_ne_cr hfv
  | none =>
    rw [hfv] at hc
    simp at hc
    rw [← hc]
    decide

theorem beq_false_of_ne {a b : Str} (h : a ≠ b) : (a == b) = false :=
  beq_eq_false_iff_ne.mpr h

theorem alookup_nil (k : Str) : alookup [] k = none := rfl

theorem alookup_cons_ne {p : Str × Str} {rest : List (Str × Str)} {k : Str}
    (h : (p.1 == k) = false) : alookup (p :: rest) k = alookup rest k := by
  unfold alookup
  rw [List.find?_cons, h]

theorem aupsert_fresh {l : List (Str × Str)} {k : Str} (v : Str)
    (h : alookup l k = none) : aupsert l k v = l ++ [(k, v)] := by
  induction l with
  | nil => rfl
  | cons p rest ih =>
    rcases p with ⟨k0, v0⟩
    have hne : (k0 == k) = false := by
      cases hb : (k0 == k) with
      | false => rfl
      | true =>
        exfalso
        unfold alookup at h
        rw [List.find?_cons, show ((k0, v0).1 == k) = true from hb] at h
        simp at h
    have hrest : alookup rest k = none := by
      rw [← alookup_cons_ne (p := (k0, v0)) hne]
      exact h
    unfold aupsert
    rw [if_neg (by rw [hne]; simp), ih hrest]
    simp

theorem alookup_append_of_none {l1 l2 : List (Str × Str)} {k : Str}
    (h : alookup l1 k = none) : alookup (l1 ++ l2) k = alookup l2 k := by
  induction l1 with
  | nil => rfl
  | cons p rest ih =>
    unfold alookup at h
    rw [List.find?_cons] at h
    cases hbeq : (p.1 == k) with
    | true => rw [hbeq] at h; simp at h
    | false =>
      rw [hbeq] at h
      rw [List.cons_append, alookup_cons_ne hbeq]
      exact ih h

/-- Folding the line loop over freshly keyed rendered lines appends the
pairs to the accumulator, emits no issue, and extends the order. -/
theorem parseEnvAux_fresh_kvs {kvs : List (Str × Str)}
    (hk : ∀ p ∈ kvs, isValidEnvKey p.1 = true)
    (hv : ∀ p ∈ kvs, goTrimSpace p.2 = p.2 ∨ needsQuote p.2 = true)
    (hnodup : (kvs.map (·.1)).Nodup) :
    ∀ (n : Nat) (acc : Dotenv), (∀ p ∈ kvs, alookup acc.Values p.1 = none) →
    parseEnvAux n acc (kvs.map fun p => p.1 ++ '=' :: formatDotenvValue p.2) =
      (⟨acc.Values ++ kvs, acc.Order ++ kvs.map (·.1)⟩, []) := by
  induction kvs with
  | nil =>
    intro n acc _
    simp [parseEnvAux]
  | cons p rest ih =>
    intro n acc hfresh
    have hkp := hk p (List.mem_cons_self p rest)
    have hvp := hv p (List.mem_cons_self p rest)
    have hline := parseEnvLine_renderKV hkp hvp
    rw [List.map_cons]
    unfold parseEnvAux
    rw [show (p.1 ++ '=' :: formatDotenvValue p.2) = p.1 ++ '=' :: formatDotenvValue p.2
      from rfl]
    simp only [hline]
    have hfp : alookup acc.Values p.1 = none := hfresh p (List.mem_cons_self p rest)
    simp only [hfp, Option.isSome_none, Bool.false_eq_true, if_false]
    have hrec := ih (fun q hq => hk q (List.mem_cons_of_mem p hq))
      (fun q hq => hv q (List.mem_cons_of_mem p hq))
      (by
        rw [List.map_cons] at hnodup
        exact (List.nodup_cons.mp hnodup).2)
      (n + 1)
      ⟨aupsert acc.Values p.1 p.2, acc.Order ++ [p.1]⟩
      (by
        intro q hq
        have hneq : p.1 ≠ q.1 := by
          have hnd := hnodup
          rw [List.map_cons] at hnd
          have hnotin : p.1 ∉ rest.map (·.1) := (List.nodup_cons.mp hnd).1
          intro he
          exact hnotin (he ▸ List.mem_map_of_mem (·.1) hq)
        rw [aupsert_fresh p.2 hfp, alookup_append_of_none (hfresh q (List.mem_cons_of_mem p hq))]
        exact alookup_cons_ne (beq_false_of_ne hneq))
    rw [hrec, aupsert_fresh p.2 hfp]
    simp

theorem alookup_isSome_of_mem {m : List (Str × Str)} {k : Str}
    (h : k ∈ m.map (·.1)) : (alookup m k).isSome = true := by
  induction m with
  | nil => simp at h
  | cons p rest ih =>
    cases hbeq : (p.1 == k) with
    | true =>
      unfold alookup
      rw [List.find?_cons, hbeq]
      rfl
    | false =>
      rw [alookup_cons_ne hbeq]
      apply ih
      rw [List.map_cons] at h
      rcases List.mem_cons.mp h with h1 | h1
      · exact absurd h1.symm (ne_of_beq_false hbeq)
      · exact h1

theorem alookup_none_of_not_mem {m : List (Str × Str)} {k : Str}
    (h : k ∉ m.map (·.1)) : alookup m k = none := by
  induction m with
  | nil => rfl
  | cons p rest ih =>
    have h1 : p.1 ≠ k := by
      intro he
      exact h (by simp [he])
    rw [alookup_cons_ne (beq_false_of_ne h1)]
    exact ih (fun hm => h (by simp at hm ⊢; tauto))

theorem alookup_map_pair {ks : List Str} {f : Str → Str} {k : Str} (h : k ∈ ks) :
    alookup (ks.map fun x => (x, f x)) k = some (f k) := by
  induction ks with
  | nil => simp at h
  | cons a rest ih =>
    rcases List.mem_cons.mp h with h1 | h1
    · subst h1
      unfold alookup
      rw [List.map_cons, List.find?_cons, show ((k, f k).1 == k) = true from beq_iff_eq.mpr rfl]
      rfl
    · rw [List.map_cons]
      cases hbeq : (((a, f a)).1 == k) with
      | true =>
        have : a = k := beq_iff_eq.mp hbeq
        subst this
        unfold alookup
        rw [List.find?_cons, hbeq]
        rfl
      | false =>
        rw [alookup_cons_ne hbeq]
        exact ih h1

theorem alookup_map_pair_none {ks : List Str} {f : Str → Str} {k : Str} (h : k ∉ ks) :
    alookup (ks.map fun x => (x, f x)) k = none := by
  apply alookup_none_of_not_mem
  intro hm
  simp at hm
  exact h hm

theorem insertSorted_perm (x : Str) (l : List Str) :
    (insertSorted x l).Perm (x :: l) := by
  induction l with
  | nil => rfl
  | cons y ys ih =>
    unfold insertSorted
    by_cases h : lexLe x y = true
    · rw [if_pos h]
    · rw [if_neg h]
      exact (List.Perm.cons y ih).trans (List.Perm.swap x y ys)

theorem sortKeys_perm (l : List Str) : (sortKeys l).Perm l := by
  induction l with
  | nil => rfl
  | cons x xs ih =>
    unfold sortKeys
    exact (insertSorted_perm x (sortKeys xs)).trans (List.Perm.cons x ih)

theorem mem_sortKeys {l : List Str} {k : Str} : k ∈ sortKeys l ↔ k ∈ l :=
  (sortKeys_perm l).mem_iff

theorem sortKeys_nodup {l : List Str} (h : l.Nodup) : (sortKeys l).Nodup :=
  ((sortKeys_perm l).nodup_iff).mpr h

theorem alookup_some_mem {m : List (Str × Str)} {k v : Str}
    (h : alookup m k = some v) : (k, v) ∈ m := by
  unfold alookup at h
  cases hf : m.find? (fun p => p.1 == k) with
  | none => rw [hf] at h; simp at h
  | some q =>
    rw [hf] at h
    simp at h
    have hq := List.find?_some hf
    have hqm := List.mem_of_find?_eq_some hf
    rcases q with ⟨a, b⟩
    simp at hq h
    subst hq
    subst h
    exact hqm

theorem valid_of_mem_keys {m : List (Str × Str)}
    (hkeys : ∀ p ∈ m, isValidEnvKey p.1 = true) {k : Str}
    (h : k ∈ m.map (·.1)) : isValidEnvKey k = true := by
  rcases List.mem_map.mp h with ⟨p, hp, rfl⟩
  exact hkeys p hp

/-- The scanner lines of `RenderDotenv values` are exactly the rendered
`KEY=value` bodies, one per sorted key. -/
theorem RenderDotenv_lines {m : List (Str × Str)}
    (hkeys : ∀ p ∈ m, isValidEnvKey p.1 = true) :
    goLines (RenderDotenv m) =
      (sortKeys (m.map (·.1))).map
        (fun k => k ++ '=' :: formatDotenvValue ((alookup m k).getD [])) := by
  unfold RenderDotenv
  have hmap : (sortKeys (m.map (·.1))).map (fun k => renderKV k ((alookup m k).getD [])) =
      ((sortKeys (m.map (·.1))).map
        (fun k => k ++ '=' :: formatDotenvValue ((alookup m k).getD []))).map (· ++ ['\n']) := by
    rw [List.map_map]
    apply List.map_congr_left
    intro k _
    rw [Function.comp_apply, renderKV_shape]
  rw [hmap, goLines_flatten]
  · rw [List.map_map]
    apply List.map_congr_left
    intro k hkm
    rw [Function.comp_apply]
    exact dropCR_keyline k _
  · intro r hr
    rcases List.mem_map.mp hr with ⟨k, hkm, rfl⟩
    exact keyline_no_nl (valid_of_mem_keys hkeys (mem_sortKeys.mp hkm))

/-! ## Claim C10: the value-mode render/parse round trip -/

/-- C10 counterexample: the map sending key `K` to the one-character value
vertical tab (code point 11) satisfies `IsValidEnvKey` for its key, renders
without quoting (vertical tab is not in the quoting set), parses back with
no issues at all — but the parsed value is empty, because the parser trims
the whole line with Go's Unicode space set, which contains vertical tab.
So parsing the rendered output does not yield the original map. -/
theorem claim_C10_counterexample :
    isValidEnvKey ['K'] = true ∧
    (ParseDotenv (RenderDotenv [(['K'], [Char.ofNat 11])])).2 = [] ∧
    ¬ alookup (ParseDotenv (RenderDotenv [(['K'], [Char.ofNat 11])])).1.Values ['K'] =
      some [Char.ofNat 11] := by
  decide

/-- C10 (amended): for every finite map whose keys satisfy `IsValidEnvKey`
and whose values are each either unchanged by Go's whitespace trim or
contain a character from the quoting set (space, tab, newline, carriage
return, hash, quotes, backslash — such values are double-quoted and
escaped on render), parsing the output of `RenderDotenv` in value mode
yields no issues and exactly the original map. -/
theorem claim_C10_amended {m : List (Str × Str)}
    (hkeys : ∀ p ∈ m, isValidEnvKey p.1 = true)
    (hnodup : (m.map (·.1)).Nodup)
    (hvals : ∀ p ∈ m, goTrimSpace p.2 = p.2 ∨ needsQuote p.2 = true) :
    (ParseDotenv (RenderDotenv m)).2 = [] ∧
      ∀ k, alookup (ParseDotenv (RenderDotenv m)).1.Values k = alookup m k := by
  have hbodies : goLines (RenderDotenv m) =
      ((sortKeys (m.map (·.1))).map (fun k => (k, (alookup m k).getD []))).map
        (fun p => p.1 ++ '=' :: formatDotenvValue p.2) := by
    rw [RenderDotenv_lines hkeys, List.map_map]
    rfl
  have hkvs_keys : ∀ p ∈ (sortKeys (m.map (·.1))).map (fun k => (k, (alookup m k).getD [])),
      isValidEnvKey p.1 = true := by
    intro p hp
    rcases List.mem_map.mp hp with ⟨k, hk2, rfl⟩
    exact valid_of_mem_keys hkeys (mem_sortKeys.mp hk2)
  have hkvs_vals : ∀ p ∈ (sortKeys (m.map (·.1))).map (fun k => (k, (alookup m k).getD [])),
      goTrimSpace p.2 = p.2 ∨ needsQuote p.2 = true := by
    intro p hp
    rcases List.mem_map.mp hp with ⟨k, hk2, rfl⟩
    cases hal : alookup m k with
    | none => left; rfl
    | some v =>
      have hmem := alookup_some_mem hal
      have := hvals (k, v) hmem
      simpa [hal] using this
  have hkvs_nodup : (((sortKeys (m.map (·.1))).map (fun k => (k, (alookup m k).getD []))).map
      (·.1)).Nodup := by
    rw [List.map_map]
    rw [show ((·.1) ∘ fun k => (k, (alookup m k).getD [])) = id from rfl, List.map_id]
    exact sortKeys_nodup hnodup
  have hrun := parseEnvAux_fresh_kvs hkvs_keys hkvs_vals hkvs_nodup 1 ⟨[], []⟩
    (fun p _ => rfl)
  unfold ParseDotenv
  rw [hbodies, hrun]
  refine ⟨rfl, ?_⟩
  intro k
  simp only [List.nil_append]
  by_cases hmem : k ∈ m.map (·.1)
  · have h1 : k ∈ sortKeys (m.map (·.1)) := mem_sortKeys.mpr hmem
    rw [alookup_map_pair h1]
    obtain ⟨v, hv2⟩ := Option.isSome_iff_exists.mp (alookup_isSome_of_mem hmem)
    rw [hv2]
    simp [hv2]
  · rw [alookup_map_pair_none (fun hmm => hmem (mem_sortKeys.mp hmm)),
      alookup_none_of_not_mem hmem]

/-- C10 witness: a concrete instantiation of the amended round trip. -/
theorem claim_C10_witness :
    (ParseDotenv (RenderDotenv [(['K'], ['v'])])).2 = [] ∧
    ∀ k, alookup (ParseDotenv (RenderDotenv [(['K'], ['v'])])).1.Values k =
      alookup [(['K'], ['v'])] k :=
  claim_C10_amended (by decide) (by decide) (by decide)

/-! ## Claim C9: duplicate handling and order invariants of ParseDotenv -/

/-- The successfully parsed key/value pairs of the input, in line order.
Describes line positions for the duplicate-handling statement. -/
def validKVs (data : Str) : List (Str × Str) :=
  (goLines data).filterMap fun r => (parseEnvLine r).2

/-- Association lookup where the last binding wins. -/
def lastAssoc (l : List (Str × Str)) (k : Str) : Option Str := alookup l.reverse k

/-- Keep the first occurrence of every element not yet seen. -/
def firstDedupFrom (seen : List Str) : List Str → List Str
  | [] => []
  | k :: ks =>
    if seen.contains k then firstDedupFrom seen ks
    else k :: firstDedupFrom (k :: seen) ks

def firstDedup (l : List Str) : List Str := firstDedupFrom [] l

theorem exportSplit_shape (line : Str) :
    (exportSplit line).1 = [] ∨ (exportSplit line).1 = [IssueMsg.exportStripped] := by
  unfold exportSplit
  split_ifs <;> simp

theorem parseEnvBody_shape (line : Str) :
    ((parseEnvBody line).1 = [] ∧ (parseEnvBody line).2.isSome = true) ∨
    (∃ mg, (parseEnvBody line).1 = [mg] ∧ msgSeverity mg = .error ∧
      (parseEnvBody line).2 = none) := by
  unfold parseEnvBody
  cases hsp : splitFirstEq line with
  | none => right; exact ⟨_, rfl, rfl, rfl⟩
  | some p =>
    rcases p with ⟨k0, rest⟩
    dsimp only
    split_ifs with h1 h2
    · right; exact ⟨_, rfl, rfl, rfl⟩
    · right; exact ⟨_, rfl, rfl, rfl⟩
    · cases hpd : parseDotenvValue (goTrimSpace rest) with
      | error e => right; exact ⟨IssueMsg.badValue e, rfl, rfl, rfl⟩
      | ok v => left; exact ⟨rfl, rfl⟩

theorem parseEnvLine_no_dupMsg (raw : Str) (k : Str) :
    IssueMsg.duplicateKey k ∉ (parseEnvLine raw).1 := by
  unfold parseEnvLine
  dsimp only
  split_ifs with h1
  · simp
  · dsimp only
    intro hmem
    rcases List.mem_append.mp hmem with hm | hm
    · rcases exportSplit_shape (goTrimSpace raw) with he | he <;> rw [he] at hm <;>
        simp at hm
    · rcases parseEnvBody_shape (exportSplit (goTrimSpace raw)).2 with ⟨h2, _⟩ | ⟨mg, h2, hsev, _⟩
      · rw [h2] at hm
        simp at hm
      · rw [h2] at hm
        simp at hm
        subst hm
        simp [msgSeverity] at hsev

/-! ### Map bookkeeping -/

theorem alookup_single (p : Str × Str) (k : Str) :
    alookup [p] k = if p.1 == k then some p.2 else none := by
  unfold alookup
  rw [List.find?_cons]
  cases hbeq : (p.1 == k) <;> simp [hbeq]

theorem aupsert_lookup_self (l : List (Str × Str)) (k v : Str) :
    alookup (aupsert l k v) k = some v := by
  induction l with
  | nil =>
    unfold aupsert alookup
    rw [List.find?_cons, show (((k, v) : Str × Str).1 == k) = true from beq_iff_eq.mpr rfl]
    rfl
  | cons p rest ih =>
    rcases p with ⟨k0, v0⟩
    unfold aupsert
    by_cases hbeq : (k0 == k) = true
    · rw [if_pos hbeq]
      unfold alookup
      rw [List.find?_cons, show (((k, v) : Str × Str).1 == k) = true from beq_iff_eq.mpr rfl]
      rfl
    · have hbeq' : (k0 == k) = false := Bool.eq_false_iff.mpr hbeq
      rw [if_neg (by rw [hbeq']; simp)]
      rw [alookup_cons_ne (p := (k0, v0)) hbeq']
      exact ih

theorem aupsert_lookup_ne (l : List (Str × Str)) (k v q : Str) (h : (k == q) = false) :
    alookup (aupsert l k v) q = alookup l q := by
  induction l with
  | nil =>
    unfold aupsert
    rw [alookup_cons_ne (p := (k, v)) h]
  | cons p rest ih =>
    rcases p with ⟨k0, v0⟩
    unfold aupsert
    by_cases hbeq : (k0 == k) = true
    · rw [if_pos hbeq]
      have hk0 : k0 = k := beq_iff_eq.mp hbeq
      subst hk0
      rw [alookup_cons_ne (p := (k0, v)) h, alookup_cons_ne (p := (k0, v0)) h]
    · have hbeq' : (k0 == k) = false := Bool.eq_false_iff.mpr hbeq
      rw [if_neg (by rw [hbeq']; simp)]
      by_cases hq : (k0 == q) = true
      · unfold alookup
        rw [List.find?_cons, List.find?_cons,
          show (((k0, v0) : Str × Str).1 == q) = true from hq]
      · have hq' : (k0 == q) = false := Bool.eq_false_iff.mpr hq
        rw [alookup_cons_ne (p := (k0, v0)) hq', alookup_cons_ne (p := (k0, v0)) hq', ih]

theorem aupsert_lookup (l : List (Str × Str)) (k v q : Str) :
    alookup (aupsert l k v) q = (alookup [(k, v)] q).or (alookup l q) := by
  by_cases h : (k == q) = true
  · have hkq : k = q := beq_iff_eq.mp h
    subst hkq
    rw [aupsert_lookup_self, alookup_single]
    simp [Option.or]
  · have h' : (k == q) = false := Bool.eq_false_iff.mpr h
    rw [aupsert_lookup_ne l k v q h', alookup_single]
    simp only [show (((k, v) : Str × Str).1 == q) = false from h', Bool.false_eq_true,
      if_false]
    cases alookup l q <;> simp [Option.or]

theorem aupsert_keys_of_some {l : List (Str × Str)} {k : Str} (v : Str)
    (h : (alookup l k).isSome = true) :
    (aupsert l k v).map (·.1) = l.map (·.1) := by
  induction l with
  | nil => simp [alookup] at h
  | cons p rest ih =>
    rcases p with ⟨k0, v0⟩
    unfold aupsert
    by_cases hbeq : (k0 == k) = true
    · rw [if_pos hbeq]
      have : k0 = k := beq_iff_eq.mp hbeq
      subst this
      simp
    · have hbeq' : (k0 == k) = false := Bool.eq_false_iff.mpr hbeq
      rw [if_neg (by rw [hbeq']; simp)]
      rw [alookup_cons_ne (p := (k0, v0)) hbeq'] at h
      simp only [List.map_cons]
      rw [ih h]

theorem alookup_append (l1 l2 : List (Str × Str)) (k : Str) :
    alookup (l1 ++ l2) k = (alookup l1 k).or (alookup l2 k) := by
  induction l1 with
  | nil => simp [alookup, Option.or]
  | cons p rest ih =>
    by_cases hbeq : (p.1 == k) = true
    · unfold alookup
      rw [List.cons_append, List.find?_cons, List.find?_cons, hbeq]
      simp [Option.or]
    · have hbeq' : (p.1 == k) = false := Bool.eq_false_iff.mpr hbeq
      rw [List.cons_append, alookup_cons_ne hbeq', alookup_cons_ne hbeq', ih]

theorem lastAssoc_cons (p : Str × Str) (rest : List (Str × Str)) (k : Str) :
    lastAssoc (p :: rest) k = (lastAssoc rest k).or (alookup [p] k) := by
  unfold lastAssoc
  rw [List.reverse_cons, alookup_append]

theorem contains_keys_eq {l : List (Str × Str)} {k : Str} :
    (l.map (·.1)).contains k = (alookup l k).isSome := by
  cases h : (alookup l k).isSome with
  | true =>
    obtain ⟨v, hv⟩ := Option.isSome_iff_exists.mp h
    have := alookup_some_mem hv
    have hmem : k ∈ l.map (·.1) := List.mem_map_of_mem (·.1) this
    simpa using hmem
  | false =>
    have hnm : k ∉ l.map (·.1) := by
      intro hmem
      rw [alookup_isSome_of_mem hmem] at h
      exact Bool.true_eq_false.mp h
    simpa using hnm

theorem firstDedupFrom_congr {s1 s2 : List Str} (h : ∀ x, x ∈ s1 ↔ x ∈ s2) :
    ∀ l, firstDedupFrom s1 l = firstDedupFrom s2 l := by
  intro l
  induction l generalizing s1 s2 with
  | nil => rfl
  | cons k ks ih =>
    unfold firstDedupFrom
    have hc : s1.contains k = s2.contains k := by
      cases hm : s2.contains k with
      | true =>
        have : k ∈ s2 := by simpa using hm
        simpa using (h k).mpr this
      | false =>
        have : k ∉ s2 := by simpa using hm
        have : k ∉ s1 := fun hk => this ((h k).mp hk)
        simpa using this
    rw [hc]
    by_cases hm : s2.contains k = true
    · rw [if_pos hm, if_pos hm, ih h]
    · rw [if_neg hm, if_neg hm]
      congr 1
      apply ih
      intro x
      constructor
      · intro hx
        rcases List.mem_cons.mp hx with rfl | hx
        · exact List.mem_cons_self x s2
        · exact List.mem_cons_of_mem k ((h x).mp hx)
      · intro hx
        rcases List.mem_cons.mp hx with rfl | hx
        · exact List.mem_cons_self x s1
        · exact List.mem_cons_of_mem k ((h x).mpr hx)

theorem firstDedupFrom_cons (seen : List Str) (k : Str) (ks : List Str) :
    firstDedupFrom seen (k :: ks) =
      if seen.contains k then firstDedupFrom seen ks
      else k :: firstDedupFrom (k :: seen) ks := rfl

theorem mem_firstDedupFrom {seen : List Str} {l : List Str} {x : Str} :
    x ∈ firstDedupFrom seen l → x ∈ l ∧ x ∉ seen := by
  induction l generalizing seen with
  | nil => intro h; simp [firstDedupFrom] at h
  | cons k ks ih =>
    intro h
    unfold firstDedupFrom at h
    by_cases hc : seen.contains k = true
    · rw [if_pos hc] at h
      obtain ⟨h1, h2⟩ := ih h
      exact ⟨List.mem_cons_of_mem k h1, h2⟩
    · rw [if_neg hc] at h
      rcases List.mem_cons.mp h with rfl | h2
      · refine ⟨List.mem_cons_self x ks, ?_⟩
        intro hx
        exact hc (by simpa using hx)
      · obtain ⟨h3, h4⟩ := ih h2
        refine ⟨List.mem_cons_of_mem k h3, ?_⟩
        intro hx
        exact h4 (List.mem_cons_of_mem k hx)

theorem firstDedupFrom_nodup (seen : List Str) (l : List Str) :
    (firstDedupFrom seen l).Nodup := by
  induction l generalizing seen with
  | nil => simp [firstDedupFrom]
  | cons k ks ih =>
    unfold firstDedupFrom
    by_cases hc : seen.contains k = true
    · rw [if_pos hc]
      exact ih seen
    · rw [if_neg hc]
      rw [List.nodup_cons]
      refine ⟨?_, ih (k :: seen)⟩
      intro hmem
      exact (mem_firstDedupFrom hmem).2 (List.mem_cons_self k seen)

theorem alookup_isSome_iff {m : List (Str × Str)} {k : Str} :
    (alookup m k).isSome = true ↔ k ∈ m.map (·.1) := by
  constructor
  · intro h
    by_contra hnm
    rw [alookup_none_of_not_mem hnm] at h
    simp at h
  · exact alookup_isSome_of_mem

theorem parseEnvAux_cons_none {n : Nat} {acc : Dotenv} {raw : Str} {raws : List Str}
    (h : (parseEnvLine raw).2 = none) :
    parseEnvAux n acc (raw :: raws) =
      ((parseEnvAux (n + 1) acc raws).1,
        ((parseEnvLine raw).1.map fun m => DotenvIssue.mk n (msgSeverity m) m) ++
          (parseEnvAux (n + 1) acc raws).2) := by
  conv_lhs => rw [parseEnvAux]
  dsimp only
  rw [h]

theorem parseEnvAux_cons_some {n : Nat} {acc : Dotenv} {raw : Str} {raws : List Str}
    {k v : Str} (h : (parseEnvLine raw).2 = some (k, v)) :
    parseEnvAux n acc (raw :: raws) =
      ((parseEnvAux (n + 1)
          ⟨aupsert acc.Values k v,
            if (alookup acc.Values k).isSome then acc.Order else acc.Order ++ [k]⟩ raws).1,
        ((parseEnvLine raw).1.map fun m => DotenvIssue.mk n (msgSeverity m) m) ++
          (if (alookup acc.Values k).isSome
            then [DotenvIssue.mk n .warning (.duplicateKey k)] else []) ++
          (parseEnvAux (n + 1)
            ⟨aupsert acc.Values k v,
              if (alookup acc.Values k).isSome then acc.Order else acc.Order ++ [k]⟩ raws).2) := by
  conv_lhs => rw [parseEnvAux]
  dsimp only
  rw [h]

/-- The state invariant of the value-mode line loop: final lookups are
last-binding-wins over the accumulated map, the order extends by
first occurrences of fresh keys, the order always lists exactly the value
keys, duplicate warnings count the repeated occurrences, and issue
severities follow the message kind. -/
theorem parseEnvAux_spec (raws : List Str) : ∀ (n : Nat) (acc : Dotenv),
    acc.Order = acc.Values.map (·.1) →
    (∀ k, alookup (parseEnvAux n acc raws).1.Values k =
        (lastAssoc (raws.filterMap fun r => (parseEnvLine r).2) k).or
          (alookup acc.Values k)) ∧
    (parseEnvAux n acc raws).1.Order =
        acc.Order ++ firstDedupFrom (acc.Values.map (·.1))
          ((raws.filterMap fun r => (parseEnvLine r).2).map (·.1)) ∧
    (parseEnvAux n acc raws).1.Order = (parseEnvAux n acc raws).1.Values.map (·.1) ∧
    (∀ k, ((parseEnvAux n acc raws).2.countP
          fun i => i.msg == IssueMsg.duplicateKey k) +
        (if (alookup acc.Values k).isSome then 0
          else min 1 (((raws.filterMap fun r => (parseEnvLine r).2).map (·.1)).count k)) =
        ((raws.filterMap fun r => (parseEnvLine r).2).map (·.1)).count k) ∧
    (∀ i ∈ (parseEnvAux n acc raws).2, i.severity = msgSeverity i.msg) := by
  induction raws with
  | nil =>
    intro n acc hOI
    refine ⟨?_, ?_, ?_, ?_, ?_⟩
    · intro k
      simp [parseEnvAux, lastAssoc, alookup, Option.or]
    · simp [parseEnvAux, firstDedupFrom]
    · simpa [parseEnvAux] using hOI
    · intro k
      simp [parseEnvAux]
    · intro i hi
      simp [parseEnvAux] at hi
  | cons raw raws ih =>
    intro n acc hOI
    have hcount0 : ∀ k, (((parseEnvLine raw).1.map
        fun m => DotenvIssue.mk n (msgSeverity m) m).countP
          fun i => i.msg == IssueMsg.duplicateKey k) = 0 := by
      intro k
      rw [List.countP_eq_zero]
      intro i hi
      rcases List.mem_map.mp hi with ⟨m, hm, rfl⟩
      simp only [beq_iff_eq]
      intro hcon
      exact parseEnvLine_no_dupMsg raw k (hcon ▸ hm)
    have hsev0 : ∀ i ∈ ((parseEnvLine raw).1.map
        fun m => DotenvIssue.mk n (msgSeverity m) m), i.severity = msgSeverity i.msg := by
      intro i hi
      rcases List.mem_map.mp hi with ⟨m, _, rfl⟩
      rfl
    cases hpl : (parseEnvLine raw).2 with
    | none =>
      have heq := @parseEnvAux_cons_none n acc raw raws hpl
      obtain ⟨r1, r2, r3, r4, r5⟩ := ih (n + 1) acc hOI
      have hfm : ((raw :: raws).filterMap fun r => (parseEnvLine r).2) =
          raws.filterMap fun r => (parseEnvLine r).2 := by
        simp only [List.filterMap_cons, hpl]
      rw [heq, hfm]
      refine ⟨r1, r2, r3, ?_, ?_⟩
      · intro k
        rw [List.countP_append, hcount0]
        simpa using r4 k
      · intro i hi
        rcases List.mem_append.mp hi with hm | hm
        · exact hsev0 i hm
        · exact r5 i hm
    | some p =>
      rcases p with ⟨k0, v0⟩
      have heq := @parseEnvAux_cons_some n acc raw raws k0 v0 hpl
      have hfm : ((raw :: raws).filterMap fun r => (parseEnvLine r).2) =
          (k0, v0) :: (raws.filterMap fun r => (parseEnvLine r).2) := by
        simp only [List.filterMap_cons, hpl]
      by_cases hd : (alookup acc.Values k0).isSome = true
      · -- duplicate occurrence of k0
        have hord : (if (alookup acc.Values k0).isSome = true then acc.Order
            else acc.Order ++ [k0]) = acc.Order := by rw [hd]; simp
        have hdup : (if (alookup acc.Values k0).isSome = true
            then [DotenvIssue.mk n .warning (.duplicateKey k0)] else []) =
            [DotenvIssue.mk n .warning (.duplicateKey k0)] := by rw [hd]; simp
        obtain ⟨r1, r2, r3, r4, r5⟩ := ih (n + 1)
          ⟨aupsert acc.Values k0 v0, acc.Order⟩
          (by
            show acc.Order = (aupsert acc.Values k0 v0).map (·.1)
            rw [aupsert_keys_of_some v0 hd, hOI])
        rw [heq, hfm, hord, hdup]
        refine ⟨?_, ?_, r3, ?_, ?_⟩
        · intro k
          rw [r1 k, lastAssoc_cons, Option.or_assoc]
          congr 1
          exact aupsert_lookup acc.Values k0 v0 k
        · rw [r2]
          have hcont : (acc.Values.map (·.1)).contains k0 = true := by
            rw [contains_keys_eq, hd]
          rw [List.map_cons, firstDedupFrom_cons, if_pos hcont,
            aupsert_keys_of_some v0 hd]
        · intro k
          rw [List.countP_append, List.countP_append, hcount0]
          have hrec := r4 k
          rw [List.map_cons, List.count_cons]
          by_cases hkk : k0 = k
          · subst hkk
            rw [show ((k0 : Str) == k0) = true from beq_iff_eq.mpr rfl, if_pos rfl]
            rw [if_pos hd]
            have hsome2 : (alookup (aupsert acc.Values k0 v0) k0).isSome = true := by
              rw [aupsert_lookup_self]
              rfl
            rw [hsome2, if_pos rfl] at hrec
            have hc1 : (List.countP (fun i => i.msg == IssueMsg.duplicateKey k0)
                [DotenvIssue.mk n .warning (.duplicateKey k0)]) = 1 := by
              simp [List.countP_cons]
            rw [hc1]
            omega
          · have hne : ((k0 : Str) == k) = false := beq_eq_false_iff_ne.mpr hkk
            rw [hne]
            simp only [Bool.false_eq_true, if_false]
            have hc0 : (List.countP (fun i => i.msg == IssueMsg.duplicateKey k)
                [DotenvIssue.mk n .warning (.duplicateKey k0)]) = 0 := by
              simp [List.countP_cons]
              intro hcon
              exact hkk hcon
            rw [hc0]
            have hlook : alookup (aupsert acc.Values k0 v0) k = alookup acc.Values k :=
              aupsert_lookup_ne acc.Values k0 v0 k (beq_eq_false_iff_ne.mpr hkk)
            rw [hlook] at hrec
            simp only [Nat.add_zero] at hrec ⊢
            omega
        · intro i hi
          rcases List.mem_append.mp hi with hm | hm
          · rcases List.mem_append.mp hm with hm2 | hm2
            · exact hsev0 i hm2
            · rcases List.mem_singleton.mp hm2 with rfl
              rfl
          · exact r5 i hm
      · -- fresh key k0
        have hd' : (alookup acc.Values k0).isSome = false := Bool.eq_false_iff.mpr hd
        have hnone : alookup acc.Values k0 = none := by
          cases hx : alookup acc.Values k0 with
          | none => rfl
          | some w => rw [hx] at hd'; simp at hd'
        have hord : (if (alookup acc.Values k0).isSome = true then acc.Order
            else acc.Order ++ [k0]) = acc.Order ++ [k0] := by rw [hd']; simp
        have hdup : (if (alookup acc.Values k0).isSome = true
            then [DotenvIssue.mk n .warning (.duplicateKey k0)] else []) = [] := by
          rw [hd']; simp
        obtain ⟨r1, r2, r3, r4, r5⟩ := ih (n + 1)
          ⟨aupsert acc.Values k0 v0, acc.Order ++ [k0]⟩
          (by
            show acc.Order ++ [k0] = (aupsert acc.Values k0 v0).map (·.1)
            rw [aupsert_fresh v0 hnone, List.map_append, hOI]
            rfl)
        rw [heq, hfm, hord, hdup]
        refine ⟨?_, ?_, r3, ?_, ?_⟩
        · intro k
          rw [r1 k, lastAssoc_cons, Option.or_assoc]
          congr 1
          exact aupsert_lookup acc.Values k0 v0 k
        · rw [r2]
          have hcont : (acc.Values.map (·.1)).contains k0 = false := by
            rw [contains_keys_eq, hd']
          rw [List.map_cons, firstDedupFrom_cons, if_neg (by rw [hcont]; simp)]
          rw [aupsert_fresh v0 hnone, List.map_append]
          rw [@firstDedupFrom_congr
            (acc.Values.map (·.1) ++ [(k0, v0)].map (·.1))
            (k0 :: acc.Values.map (·.1))
            (by intro x; simp [List.mem_append, or_comm])]
          simp
        · intro k
          rw [List.countP_append, List.countP_append, hcount0, List.countP_nil]
          have hrec := r4 k
          rw [List.map_cons, List.count_cons]
          by_cases hkk : k0 = k
          · subst hkk
            rw [show ((k0 : Str) == k0) = true from beq_iff_eq.mpr rfl, if_pos rfl]
            rw [if_neg (by rw [hd']; simp)]
            have hsome2 : (alookup (aupsert acc.Values k0 v0) k0).isSome = true := by
              rw [aupsert_lookup_self]
              rfl
            rw [hsome2, if_pos rfl] at hrec
            omega
          · have hne : ((k0 : Str) == k) = false := beq_eq_false_iff_ne.mpr hkk
            rw [hne]
            simp only [Bool.false_eq_true, if_false]
            have hlook : alookup (aupsert acc.Values k0 v0) k = alookup acc.Values k :=
              aupsert_lookup_ne acc.Values k0 v0 k (beq_eq_false_iff_ne.mpr hkk)
            rw [hlook] at hrec
            simp only [Nat.add_zero] at hrec ⊢
            omega
        · intro i hi
          rcases List.mem_append.mp hi with hm | hm
          · rcases List.mem_append.mp hm with hm2 | hm2
            · exact hsev0 i hm2
            · simp at hm2
          · exact r5 i hm


/-- C9: for every input, value-mode `ParseDotenv` satisfies: the order is
duplicate-free and lists exactly the keys of the value map; each key maps
to the value of its last successfully parsed occurrence; the order keeps
the position of each key's first occurrence (first-seen de-duplication of
the parsed line sequence); for every key that occurs, the number of
duplicate-key issues emitted is the number of repeated occurrences
(occurrences minus one); and every duplicate-key issue carries Warning
severity (each issue's severity follows its message kind). -/
theorem claim_C9 (data : Str) :
    (ParseDotenv data).1.Order.Nodup ∧
    (∀ k, k ∈ (ParseDotenv data).1.Order ↔
      (alookup (ParseDotenv data).1.Values k).isSome = true) ∧
    (∀ k, alookup (ParseDotenv data).1.Values k = lastAssoc (validKVs data) k) ∧
    (ParseDotenv data).1.Order = firstDedup ((validKVs data).map (·.1)) ∧
    (∀ k, k ∈ (validKVs data).map (·.1) →
      ((ParseDotenv data).2.countP fun i => i.msg == IssueMsg.duplicateKey k) + 1 =
        ((validKVs data).map (·.1)).count k) ∧
    (∀ i ∈ (ParseDotenv data).2, i.severity = msgSeverity i.msg) := by
  obtain ⟨r1, r2, r3, r4, r5⟩ :=
    parseEnvAux_spec (goLines data) 1 ⟨[], []⟩ rfl
  have hP : ParseDotenv data = parseEnvAux 1 ⟨[], []⟩ (goLines data) := rfl
  have hKV : validKVs data = (goLines data).filterMap fun r => (parseEnvLine r).2 := rfl
  refine ⟨?_, ?_, ?_, ?_, ?_, ?_⟩
  · rw [hP]
    rw [r2]
    simp only [List.map_nil, List.nil_append]
    exact firstDedupFrom_nodup _ _
  · intro k
    rw [hP, r3]
    exact ⟨fun h => alookup_isSome_of_mem h, fun h => alookup_isSome_iff.mp h⟩
  · intro k
    rw [hP, hKV, r1 k]
    simp [alookup, Option.or_none]
  · rw [hP, hKV, r2]
    simp only [List.map_nil, List.nil_append]
    rfl
  · intro k hk
    rw [hP, hKV]
    have hrec := r4 k
    rw [show alookup (Dotenv.mk [] []).Values k = none from rfl] at hrec
    simp only [Option.isSome_none, Bool.false_eq_true, if_false] at hrec
    have hpos : 0 < (((goLines data).filterMap fun r => (parseEnvLine r).2).map (·.1)).count k :=
      List.count_pos_iff.mpr (hKV ▸ hk)
    omega
  · intro i hi
    exact r5 i (hP ▸ hi)

/-! ## The document model (`domain.ParseDotenvDocument` / `Render`) -/

inductive DotenvLineKind
  | key
  | comment
  | blank
  | other
deriving DecidableEq, Repr

/-- `domain.DotenvLine`; unset fields carry Go's zero value. -/
structure DotenvLine where
  Kind : DotenvLineKind
  Raw : Str := []
  Key : Str := []
  Value : Str := []
  Comment : Str := []
  HasExport : Bool := false
deriving DecidableEq, Repr

structure DotenvDocument where
  Lines : List DotenvLine
  Order : List Str
deriving DecidableEq, Repr

/-- The inline-comment decision of `domain.ParseDotenvDocument`: only a
value part that is nonempty and not quote-led is split. -/
def classifyVC (valuePart : Str) : Str × Str :=
  if valuePart ≠ [] ∧ valuePart.head? ≠ some qchar ∧ valuePart.head? ≠ some squote
  then splitInlineComment valuePart else (valuePart, [])

/-- The per-line classification of `domain.ParseDotenvDocument`. -/
def classifyLine (raw : Str) : DotenvLine × Option IssueMsg :=
  let trimmed := goTrimSpace raw
  if trimmed = [] then ({ Kind := .blank, Raw := raw }, none)
  else if trimmed.head? = some '#' then ({ Kind := .comment, Raw := raw }, none)
  else
    let hasExp := exportStr.isPrefixOf trimmed
    let payload := if hasExp then goTrimSpace (trimmed.drop 7) else trimmed
    match splitFirstEq payload with
    | none => ({ Kind := .other, Raw := raw }, some .missingEq)
    | some (k0, rest) =>
      let key := goTrimSpace k0
      if key = [] then ({ Kind := .other, Raw := raw }, some .emptyKey)
      else if !isValidEnvKey key then ({ Kind := .other, Raw := raw }, some (.invalidKey key))
      else
        let valuePart := goTrimSpace rest
        let vc := classifyVC valuePart
        match parseDotenvValue (goTrimSpace vc.1) with
        | .error e => ({ Kind := .other, Raw := raw }, some (.badValue e))
        | .ok v =>
          ({ Kind := .key, Key := key, Value := v, Comment := vc.2, HasExport := hasExp },
            none)

/-- The line loop of `domain.ParseDotenvDocument`: lines in order, first-seen
order of keys, and issues (line errors plus duplicate warnings). -/
def parseDocAux : Nat → List Str → List Str → List DotenvLine × List Str × List DotenvIssue
  | _, _, [] => ([], [], [])
  | n, seen, raw :: raws =>
    let cl := classifyLine raw
    let issues0 : List DotenvIssue := match cl.2 with
      | some m => [DotenvIssue.mk n (msgSeverity m) m]
      | none => []
    if cl.1.Kind = .key then
      let dup := seen.contains cl.1.Key
      let dupIss : List DotenvIssue :=
        if dup then [DotenvIssue.mk n .warning (.duplicateKey cl.1.Key)] else []
      let rec0 := parseDocAux (n + 1) (if dup then seen else seen ++ [cl.1.Key]) raws
      (cl.1 :: rec0.1, (if dup then [] else [cl.1.Key]) ++ rec0.2.1,
        issues0 ++ dupIss ++ rec0.2.2)
    else
      let rec0 := parseDocAux (n + 1) seen raws
      (cl.1 :: rec0.1, rec0.2.1, issues0 ++ rec0.2.2)

/-- `domain.ParseDotenvDocument`. -/
def ParseDotenvDocument (data : Str) : DotenvDocument × List DotenvIssue :=
  let r := parseDocAux 1 [] (goLines data)
  (⟨r.1, r.2.1⟩, r.2.2)

/-- One line of `DotenvDocument.Render`: raw text verbatim except key
lines, which are reconstructed from their structured fields. -/
def renderLine (l : DotenvLine) : Str :=
  match l.Kind with
  | .key =>
    (if l.HasExport then exportStr else []) ++ l.Key ++ '=' ::
      (formatDotenvValue l.Value ++ (if l.Comment = [] then [] else ' ' :: l.Comment))
  | _ => l.Raw

/-- `domain.DotenvDocument.Render`: every line followed by a newline. -/
def DotenvDocument.Render (doc : DotenvDocument) : Str :=
  (doc.Lines.map fun l => renderLine l ++ ['\n']).flatten

theorem parseDocAux_lines (raws : List Str) : ∀ (n : Nat) (seen : List Str),
    (parseDocAux n seen raws).1 = raws.map fun r => (classifyLine r).1 := by
  induction raws with
  | nil => intro n seen; rfl
  | cons raw rest ih =>
    intro n seen
    unfold parseDocAux
    dsimp only
    by_cases h : (classifyLine raw).1.Kind = .key
    · rw [if_pos h]
      simp only [List.map_cons]
      rw [ih]
    · rw [if_neg h]
      simp only [List.map_cons]
      rw [ih]

/-! ## Claim C2 machinery: re-parsing a rendered document -/

/-- The conditions under which a parsed line survives the render/re-parse
round byte-identically: retained raw text must not end in a carriage
return (the scanner would drop it); a bare-rendered value must be
trim-stable; a quoted-rendered value with an inline comment must not have
the comment end in a double quote (the re-parser would swallow it into
the quoted value). -/
def lineOK (l : DotenvLine) : Bool :=
  match l.Kind with
  | .key =>
    (needsQuote l.Value || (goTrimSpace l.Value == l.Value)) &&
    (!(needsQuote l.Value) || (l.Comment == []) || !(l.Comment.getLast? == some qchar))
  | _ => !(l.Raw.getLast? == some '\r')

/-- Structural invariants of every line `classifyLine` produces from a
newline-free raw line. -/
def LineWF (l : DotenvLine) : Prop :=
  match l.Kind with
  | .key => isValidEnvKey l.Key = true ∧ '\n' ∉ l.Comment ∧
      goTrimSpace l.Comment = l.Comment ∧
      (l.Comment = [] ∨ l.Comment.head? = some '#')
  | _ => '\n' ∉ l.Raw ∧ l.Raw ≠ [] → True

theorem splitFirstEq_parts : ∀ {l k0 rest : Str},
    splitFirstEq l = some (k0, rest) → l = k0 ++ '=' :: rest := by
  intro l
  induction l with
  | nil => intro k0 rest h; simp [splitFirstEq] at h
  | cons c cs ih =>
    intro k0 rest h
    unfold splitFirstEq at h
    by_cases hc : c = '='
    · rw [if_pos hc] at h
      simp at h
      rw [hc, h.1, h.2]
      simp
    · rw [if_neg hc] at h
      cases hs : splitFirstEq cs with
      | none => rw [hs] at h; simp at h
      | some p =>
        rw [hs] at h
        simp at h
        rcases p with ⟨a, b⟩
        have := ih hs
        rw [← h.1, ← h.2]
        simp at this ⊢
        exact this

theorem goTrimSpace_idem (l : Str) : goTrimSpace (goTrimSpace l) = goTrimSpace l := by
  apply goTrimSpace_eq_self
  · intro c hc
    exact goTrimSpace_head_not_space hc
  · intro c hc
    exact goTrimSpace_getLast_not_space hc

theorem mem_splitNL_no_nl {d : Str} : ∀ p ∈ splitNL d, '\n' ∉ p := by
  induction d with
  | nil =>
    intro p hp
    simp [splitNL] at hp
    simp [hp]
  | cons c cs ih =>
    intro p hp
    unfold splitNL at hp
    by_cases hc : c = '\n'
    · rw [if_pos hc] at hp
      rcases List.mem_cons.mp hp with rfl | h2
      · simp
      · exact ih p h2
    · rw [if_neg hc] at hp
      cases hs : splitNL cs with
      | nil => exact absurd hs (splitNL_ne_nil cs)
      | cons q qs =>
        rw [hs] at hp
        rcases List.mem_cons.mp hp with rfl | h2
        · intro hmem
          rcases List.mem_cons.mp hmem with he | he
          · exact hc he.symm
          · exact ih q (hs ▸ List.mem_cons_self q qs) he
        · exact ih p (hs ▸ List.mem_cons_of_mem q h2)

theorem mem_dropLastEmpty {ps : List Str} {p : Str} (h : p ∈ dropLastEmpty ps) :
    p ∈ ps := by
  induction ps with
  | nil => simp [dropLastEmpty] at h
  | cons q qs ih =>
    cases qs with
    | nil =>
      unfold dropLastEmpty at h
      by_cases hq : q = []
      · rw [if_pos hq] at h
        simp at h
      · rw [if_neg hq] at h
        simpa using h
    | cons r rs =>
      rw [dropLastEmpty_cons (by simp)] at h
      rcases List.mem_cons.mp h with rfl | h2
      · exact List.mem_cons_self p _
      · exact List.mem_cons_of_mem q (ih h2)

theorem mem_dropCR {l : Str} {c : Char} (h : c ∈ dropCR l) : c ∈ l := by
  unfold dropCR at h
  by_cases hl : l.getLast? = some '\r'
  · rw [if_pos hl] at h
    exact (List.dropLast_sublist l).subset h
  · rw [if_neg hl] at h
    exact h

theorem goLines_no_nl {d : Str} : ∀ r ∈ goLines d, '\n' ∉ r := by
  intro r hr hmem
  unfold goLines at hr
  rcases List.mem_map.mp hr with ⟨q, hq, rfl⟩
  exact mem_splitNL_no_nl q (mem_dropLastEmpty hq) (mem_dropCR hmem)

theorem classify_raw_or_key (raw : Str) :
    (classifyLine raw).1.Kind = .key ∨ (classifyLine raw).1.Raw = raw := by
  unfold classifyLine
  dsimp only
  split_ifs <;> try (right; rfl)
  all_goals (try split) <;> try (right; rfl)
  all_goals (try split_ifs) <;> try (right; rfl)
  all_goals (try split) <;> first | (right; rfl) | (left; rfl)

theorem classify_nonkey_raw {raw : Str}
    (h : (classifyLine raw).1.Kind ≠ .key) : (classifyLine raw).1.Raw = raw :=
  (classify_raw_or_key raw).resolve_left h

/-! ## Finer structure of trimming -/

theorem goTrimRight_cons {c : Char} (t : Str) (h : goIsSpace c = false) :
    goTrimRight (c :: t) = c :: goTrimRight t := by
  unfold goTrimRight
  rw [show (c :: t).reverse = t.reverse ++ [c] from by simp, List.dropWhile_append]
  by_cases he : (t.reverse.dropWhile goIsSpace).isEmpty = true
  · rw [if_pos he]
    have h0 : t.reverse.dropWhile goIsSpace = [] := by simpa [List.isEmpty_iff] using he
    simp [List.dropWhile, h, h0]
  · rw [if_neg he]
    simp

theorem goTrimSpace_cons_not_space {c : Char} (t : Str) (h : goIsSpace c = false) :
    goTrimSpace (c :: t) = c :: goTrimRight t := by
  unfold goTrimSpace
  rw [List.dropWhile_cons, if_neg (by simp [h])]
  exact goTrimRight_cons t h

theorem goTrimSpace_cons_space {c : Char} (t : Str) (h : goIsSpace c = true) :
    goTrimSpace (c :: t) = goTrimSpace t := by
  unfold goTrimSpace
  rw [List.dropWhile_cons, if_pos h]

theorem getLast?_some_of_ne_nil {ys : Str} (h : ys ≠ []) : ∃ y, ys.getLast? = some y := by
  cases hy : ys.getLast? with
  | some y => exact ⟨y, rfl⟩
  | none => exact absurd (List.getLast?_eq_none_iff.mp hy) h

theorem getLast?_append_ne {xs ys : Str} (h : ys ≠ []) :
    (xs ++ ys).getLast? = ys.getLast? := by
  obtain ⟨y, hy⟩ := getLast?_some_of_ne_nil h
  rw [List.getLast?_append, hy]
  rfl

theorem goTrimRight_append_spaces {xs ys : Str} (h : ∀ c ∈ ys, goIsSpace c = true) :
    goTrimRight (xs ++ ys) = goTrimRight xs := by
  unfold goTrimRight
  rw [List.reverse_append, List.dropWhile_append]
  have h0 : ys.reverse.dropWhile goIsSpace = [] :=
    List.dropWhile_eq_nil_iff.mpr fun x hx => h x (List.mem_reverse.mp hx)
  rw [if_pos (by simp [h0])]

/-! ## Locating the inline-comment hash -/

theorem findHashAux_mem : ∀ {v : Str} {prev : Option Char} {j i : Nat},
    findHashAux prev j v = some i → j ≤ i ∧ ∃ t, v.drop (i - j) = '#' :: t := by
  intro v
  induction v with
  | nil => intro prev j i h; simp [findHashAux] at h
  | cons c cs ih =>
    intro prev j i h
    unfold findHashAux at h
    by_cases hc : (c = '#' && (j == 0 || prev == some ' ' || prev == some '\t')) = true
    · rw [if_pos hc] at h
      simp at h
      subst h
      have hceq : c = '#' := by
        rcases Bool.and_eq_true_iff.mp hc with ⟨h1, _⟩
        simpa using h1
      subst hceq
      exact ⟨Nat.le_refl j, cs, by simp⟩
    · rw [if_neg hc] at h
      obtain ⟨hle, t, ht⟩ := ih h
      refine ⟨by omega, t, ?_⟩
      have hij : i - j = (i - (j + 1)) + 1 := by omega
      rw [hij]
      simpa using ht

theorem findHashIdx_drop {v : Str} {i : Nat} (h : findHashIdx v = some i) :
    ∃ t, v.drop i = '#' :: t := by
  obtain ⟨_, t, ht⟩ := findHashAux_mem h
  exact ⟨t, by simpa using ht⟩

theorem findHashAux_skip {v : Str} (h : '#' ∉ v) (r : Str) :
    ∀ (prev : Option Char) (j : Nat),
      findHashAux prev j (v ++ ' ' :: '#' :: r) = some (j + v.length + 1) := by
  induction v with
  | nil =>
    intro prev j
    rw [List.nil_append]
    unfold findHashAux
    rw [if_neg (by simp)]
    unfold findHashAux
    rw [if_pos (by simp)]
    simp
  | cons c cs ih =>
    intro prev j
    have hc : c ≠ '#' := fun hc => h (hc ▸ List.mem_cons_self c cs)
    have hcs : '#' ∉ cs := fun hm => h (List.mem_cons_of_mem c hm)
    rw [List.cons_append]
    unfold findHashAux
    rw [if_neg (by simp [hc])]
    rw [ih hcs (some c) (j + 1)]
    congr 1
    simp only [List.length_cons]
    omega

theorem splitInlineComment_no_hash {v : Str} (h : '#' ∉ v) :
    splitInlineComment v = (v, []) := by
  unfold splitInlineComment findHashIdx
  rw [findHashAux_none h]

theorem splitInlineComment_hash_head (t : Str) :
    splitInlineComment ('#' :: t) = ([], goTrimSpace ('#' :: t)) := by
  unfold splitInlineComment findHashIdx
  unfold findHashAux
  rw [if_pos (by simp)]
  rfl

theorem splitInlineComment_bare_comment {v r : Str} (hb : needsQuote v = false)
    (hvne : v ≠ []) (hvs : goTrimSpace v = v)
    (hcs : goTrimSpace ('#' :: r) = '#' :: r) :
    splitInlineComment (v ++ ' ' :: '#' :: r) = (v, '#' :: r) := by
  unfold splitInlineComment findHashIdx
  rw [findHashAux_skip (bare_no_hash hb) r none 0]
  have htake : (v ++ ' ' :: '#' :: r).take (0 + v.length + 1) = v ++ [' '] := by
    rw [show v ++ ' ' :: '#' :: r = (v ++ [' ']) ++ '#' :: r from by simp]
    rw [show 0 + v.length + 1 = (v ++ [' ']).length from by simp]
    exact List.take_left _ _
  have hdrop : (v ++ ' ' :: '#' :: r).drop (0 + v.length + 1) = '#' :: r := by
    rw [show v ++ ' ' :: '#' :: r = (v ++ [' ']) ++ '#' :: r from by simp]
    rw [show 0 + v.length + 1 = (v ++ [' ']).length from by simp]
    exact List.drop_left _ _
  dsimp only
  rw [htake, hdrop, hcs]
  obtain ⟨c, cs, rfl⟩ : ∃ c cs, v = c :: cs := by
    cases v with
    | nil => exact absurd rfl hvne
    | cons a as => exact ⟨a, as, rfl⟩
  have hch : goIsSpace c = false := goTrimSpace_head_not_space (by rw [hvs]; rfl)
  have hrt : goTrimRight cs = cs := by
    have := hvs
    rw [goTrimSpace_cons_not_space cs hch] at this
    exact List.cons.inj this |>.2
  rw [show (c :: cs) ++ [' '] = c :: (cs ++ [' ']) from rfl]
  rw [goTrimSpace_cons_not_space _ hch,
    goTrimRight_append_spaces (by intro x hx; simp at hx; subst hx; decide), hrt]

/-! ## Computation of the inline-comment decision -/

theorem classifyVC_nil : classifyVC [] = ([], []) := by decide

theorem classifyVC_quote_head (t : Str) : classifyVC (qchar :: t) = (qchar :: t, []) := by
  unfold classifyVC
  rw [if_neg (by intro hcon; exact hcon.2.1 rfl)]

theorem classifyVC_no_quote {vp : Str} (hne : vp ≠ [])
    (h1 : vp.head? ≠ some qchar) (h2 : vp.head? ≠ some squote) :
    classifyVC vp = splitInlineComment vp := by
  unfold classifyVC
  rw [if_pos ⟨hne, h1, h2⟩]

theorem parseQuoted_bad_last {w : Str} {q : Char} (h : w.getLast? ≠ some q) :
    parseQuoted w q = .error .unterminated := by
  unfold parseQuoted
  rw [if_pos (Bool.or_eq_true_iff.mpr (Or.inr (by rw [decide_eq_true_eq]; exact h)))]

/-- What `renderLine` emits for an explicit key line. -/
theorem renderLine_mk_key_raw (raw k v cm : Str) (ex : Bool) :
    renderLine ⟨.key, raw, k, v, cm, ex⟩ = (if ex then exportStr else []) ++ k ++ '=' ::
      (formatDotenvValue v ++ (if cm = [] then [] else ' ' :: cm)) := rfl

theorem renderLine_mk_key (k v cm : Str) (ex : Bool) :
    renderLine { Kind := .key, Key := k, Value := v, Comment := cm, HasExport := ex } =
      (if ex then exportStr else []) ++ k ++ '=' ::
        (formatDotenvValue v ++ (if cm = [] then [] else ' ' :: cm)) := rfl

/-- Classifying a well-shaped key line `[export ]KEY=vtail` whose tail is
already right-trimmed: the scan reaches the value stage, with
`classifyVC (goTrimSpace vtail)` deciding the inline-comment split. -/
theorem classifyLine_keyline (ex : Bool) (k vtail : Str)
    (hk : isValidEnvKey k = true) (hvt : goTrimRight vtail = vtail) :
    classifyLine ((if ex then exportStr else []) ++ k ++ '=' :: vtail) =
      (match parseDotenvValue (goTrimSpace (classifyVC (goTrimSpace vtail)).1) with
       | .error e =>
         ({ Kind := .other, Raw := (if ex then exportStr else []) ++ k ++ '=' :: vtail },
           some (.badValue e))
       | .ok v =>
         ({ Kind := .key, Key := k, Value := v,
            Comment := (classifyVC (goTrimSpace vtail)).2, HasExport := ex }, none)) := by
  have hlast : ∀ c, ('=' :: vtail : Str).getLast? = some c → goIsSpace c = false := by
    intro c hc
    cases vtail with
    | nil =>
      simp at hc
      subst hc
      decide
    | cons a as =>
      rw [show ('=' :: a :: as : Str) = ['='] ++ (a :: as) from rfl,
        getLast?_append_ne (by simp)] at hc
      exact goTrimRight_getLast_not_space (by rw [hvt]; exact hc)
  obtain ⟨c, cs, rfl⟩ : ∃ c cs, k = c :: cs := by
    cases k with
    | nil => exact absurd rfl (validKey_ne_nil hk)
    | cons a as => exact ⟨a, as, rfl⟩
  have hc : isKeyChar false c = true := validKey_chars hk c (List.mem_cons_self c cs)
  cases ex with
  | false =>
    simp only [Bool.false_eq_true, if_false, List.nil_append]
    have hst : goTrimSpace ((c :: cs) ++ '=' :: vtail) = (c :: cs) ++ '=' :: vtail := by
      rw [goTrimSpace_keyline hk vtail, hvt]
    unfold classifyLine
    dsimp only
    rw [hst]
    rw [if_neg (by simp)]
    rw [if_neg (by intro hh; simp at hh; exact keyChar_ne_hash hc hh)]
    rw [ exportStr_not_prefix hk]
    simp only [Bool.false_eq_true, if_false]
    rw [splitFirstEq_append (validKey_no_eq hk)]
    dsimp only
    rw [validKey_trim hk]
    rw [if_neg (validKey_ne_nil hk)]
    rw [hk]
    simp only [Bool.not_true, Bool.false_eq_true, if_false]
  | true =>
    simp only [if_true]
    have hst : goTrimSpace (exportStr ++ (c :: cs) ++ '=' :: vtail) =
        exportStr ++ (c :: cs) ++ '=' :: vtail := by
      apply goTrimSpace_eq_self
      · intro d hd
        rw [show (exportStr ++ (c :: cs) ++ '=' :: vtail).head? = some 'e' from rfl] at hd
        cases hd
        decide
      · intro d hd
        rw [getLast?_append_ne (by simp)] at hd
        exact hlast d hd
    unfold classifyLine
    dsimp only
    rw [hst]
    rw [if_neg (by simp [exportStr])]
    rw [if_neg (by
      intro hh
      exact absurd (show some 'e' = some '#' from hh) (by decide))]
    have hpre : List.isPrefixOf exportStr (exportStr ++ (c :: cs) ++ '=' :: vtail) = true :=
      List.isPrefixOf_iff_prefix.mpr ⟨(c :: cs) ++ '=' :: vtail, (List.append_assoc _ _ _).symm⟩
    rw [hpre]
    rw [if_pos rfl]
    rw [show (exportStr ++ (c :: cs) ++ '=' :: vtail).drop 7 =
      (c :: cs) ++ '=' :: vtail from rfl]
    rw [goTrimSpace_keyline hk vtail, hvt]
    rw [splitFirstEq_append (validKey_no_eq hk)]
    dsimp only
    rw [validKey_trim hk]
    rw [if_neg (validKey_ne_nil hk)]
    rw [hk]
    simp only [Bool.not_true, Bool.false_eq_true, if_false]

/-- A key line that satisfies the survival conditions re-renders identically
after one classify/render round: the re-parse recovers the same key, value,
comment and export flag, except that a quoted value followed by an inline
comment re-parses as an unterminated-quote error line, which preserves the
rendered text verbatim. -/
theorem renderLine_roundtrip (l : DotenvLine) (hk : l.Kind = .key)
    (hK : isValidEnvKey l.Key = true)
    (hCt : goTrimSpace l.Comment = l.Comment)
    (hCh : l.Comment ≠ [] → l.Comment.head? = some '#')
    (hok : lineOK l = true) :
    renderLine (classifyLine (renderLine l)).1 = renderLine l := by
  rcases l with ⟨kind, raw, k, v, cm, ex⟩
  dsimp only at hk hK hCt hCh
  subst hk
  have hok12 : ((needsQuote v || (goTrimSpace v == v)) &&
      ((!needsQuote v) || (cm == []) || !(cm.getLast? == some qchar))) = true := hok
  rcases Bool.and_eq_true_iff.mp hok12 with ⟨hok1, hok2⟩
  rw [renderLine_mk_key_raw raw k v cm ex]
  by_cases hq : needsQuote v = true
  · -- quoted rendering
    have hvne : v ≠ [] := by
      intro h
      subst h
      simp [needsQuote] at hq
    have hfv : formatDotenvValue v = qchar :: (goEscape v ++ [qchar]) := by
      unfold formatDotenvValue
      rw [if_neg hvne, hq]
      simp
    have hlastq : (qchar :: (goEscape v ++ [qchar])).getLast? = some qchar := by
      rw [show qchar :: (goEscape v ++ [qchar]) = (qchar :: goEscape v) ++ [qchar] from by simp]
      exact List.getLast?_concat _
    by_cases hcm : cm = []
    · -- quoted, no comment: full structured round trip
      have h1 : formatDotenvValue v ++ (if cm = [] then [] else ' ' :: cm) =
          qchar :: (goEscape v ++ [qchar]) := by
        rw [hfv, if_pos hcm, List.append_nil]
      rw [h1]
      have hE : goTrimRight (qchar :: (goEscape v ++ [qchar])) =
          qchar :: (goEscape v ++ [qchar]) := by
        apply goTrimRight_eq_self
        intro d hd
        rw [hlastq] at hd
        cases hd
        decide
      rw [classifyLine_keyline ex k _ hK hE]
      have hA : goTrimSpace (qchar :: (goEscape v ++ [qchar])) =
          qchar :: (goEscape v ++ [qchar]) := by
        rw [goTrimSpace_cons_not_space _ (by decide)]
        congr 1
        apply goTrimRight_eq_self
        intro d hd
        rw [List.getLast?_concat] at hd
        cases hd
        decide
      have hPV : parseDotenvValue (goTrimSpace (qchar :: (goEscape v ++ [qchar]))) = .ok v := by
        have h0 := parseDotenvValue_quoted hq
        rw [hfv, hE] at h0
        exact h0
      rw [hA, classifyVC_quote_head]
      dsimp only
      rw [hPV]
      dsimp only
      rw [renderLine_mk_key]
      simp [hfv]
    · -- quoted with a comment: unterminated-quote error keeps the raw text
      have h1 : formatDotenvValue v ++ (if cm = [] then [] else ' ' :: cm) =
          qchar :: (goEscape v ++ [qchar]) ++ ' ' :: cm := by
        rw [hfv, if_neg hcm]
      rw [h1]
      have hcmlast : ∀ d, (cm : Str).getLast? = some d → goIsSpace d = false := by
        intro d hd
        exact goTrimSpace_getLast_not_space (by rw [hCt]; exact hd)
      have hE : goTrimRight (qchar :: (goEscape v ++ [qchar]) ++ ' ' :: cm) =
          qchar :: (goEscape v ++ [qchar]) ++ ' ' :: cm := by
        apply goTrimRight_eq_self
        intro d hd
        rw [getLast?_append_ne (by simp)] at hd
        rw [show (' ' :: cm : Str) = [' '] ++ cm from rfl, getLast?_append_ne hcm] at hd
        exact hcmlast d hd
      rw [classifyLine_keyline ex k _ hK hE]
      have hA : goTrimSpace (qchar :: (goEscape v ++ [qchar]) ++ ' ' :: cm) =
          qchar :: (goEscape v ++ [qchar]) ++ ' ' :: cm := by
        apply goTrimSpace_eq_self
        · intro d hd
          rw [show (qchar :: (goEscape v ++ [qchar]) ++ ' ' :: cm).head? = some qchar
            from rfl] at hd
          cases hd
          decide
        · intro d hd
          rw [getLast?_append_ne (by simp)] at hd
          rw [show (' ' :: cm : Str) = [' '] ++ cm from rfl, getLast?_append_ne hcm] at hd
          exact hcmlast d hd
      have h2 : (cm.getLast? == some qchar) = false := by
        rcases Bool.or_eq_true_iff.mp hok2 with h3 | h3
        · rcases Bool.or_eq_true_iff.mp h3 with h4 | h4
          · rw [hq] at h4
            simp at h4
          · exact absurd (by simpa using h4) hcm
        · simpa using h3
      have hgl : (qchar :: (goEscape v ++ [qchar]) ++ ' ' :: cm).getLast? ≠ some qchar := by
        rw [getLast?_append_ne (by simp),
          show (' ' :: cm : Str) = [' '] ++ cm from rfl, getLast?_append_ne hcm]
        exact beq_eq_false_iff_ne.mp h2
      have hVC : classifyVC (qchar :: (goEscape v ++ [qchar]) ++ ' ' :: cm) =
          (qchar :: (goEscape v ++ [qchar]) ++ ' ' :: cm, []) := by
        unfold classifyVC
        rw [if_neg (by intro hcon; exact hcon.2.1 rfl)]
      have hPV : parseDotenvValue
          (goTrimSpace (qchar :: (goEscape v ++ [qchar]) ++ ' ' :: cm)) =
          .error .unterminated := by
        rw [hA]
        unfold parseDotenvValue
        rw [if_neg (by simp)]
        rw [if_pos (show (qchar :: (goEscape v ++ [qchar]) ++ ' ' :: cm).head? = some qchar
          from rfl)]
        exact parseQuoted_bad_last hgl
      rw [hA, hVC]
      dsimp only
      rw [hPV]
      rfl
  · -- bare rendering
    by_cases hv : v = []
    · subst hv
      by_cases hcm : cm = []
      · have h1 : formatDotenvValue [] ++ (if cm = [] then [] else ' ' :: cm) = ([] : Str) := by
          rw [if_pos hcm]
          rfl
        rw [h1]
        rw [classifyLine_keyline ex k [] hK (by rfl)]
        rfl
      · have hcm' : cm.head? = some '#' := hCh hcm
        obtain ⟨cr, rfl⟩ : ∃ cr, cm = '#' :: cr := by
          cases cm with
          | nil => exact absurd rfl hcm
          | cons a t =>
            simp at hcm'
            subst hcm'
            exact ⟨t, rfl⟩
        have h1 : formatDotenvValue [] ++
            (if ('#' :: cr : Str) = [] then [] else ' ' :: '#' :: cr) =
            ' ' :: '#' :: cr := by
          rw [if_neg hcm]
          rfl
        rw [h1]
        have hcl : ∀ d, ('#' :: cr : Str).getLast? = some d → goIsSpace d = false := by
          intro d hd
          exact goTrimSpace_getLast_not_space (by rw [hCt]; exact hd)
        have hE : goTrimRight (' ' :: '#' :: cr : Str) = ' ' :: '#' :: cr := by
          apply goTrimRight_eq_self
          intro d hd
          rw [show (' ' :: '#' :: cr : Str) = [' '] ++ '#' :: cr from rfl,
            getLast?_append_ne (by simp)] at hd
          exact hcl d hd
        rw [classifyLine_keyline ex k _ hK hE]
        have hA : goTrimSpace (' ' :: '#' :: cr : Str) = '#' :: cr := by
          rw [goTrimSpace_cons_space _ (by decide)]
          exact hCt
        have hVC : classifyVC ('#' :: cr) = ([], '#' :: cr) := by
          rw [classifyVC_no_quote (by simp)
            (by intro hx; exact absurd (Option.some.inj hx) (by decide))
            (by intro hx; exact absurd (Option.some.inj hx) (by decide))]
          rw [splitInlineComment_hash_head, hCt]
        rw [hA, hVC]
        dsimp only
        rw [show parseDotenvValue (goTrimSpace ([] : Str)) = .ok [] from rfl]
        dsimp only
        rw [renderLine_mk_key]
        rw [if_neg hcm]
        rfl
    · -- bare nonempty value
      have hvs : goTrimSpace v = v := by
        rcases Bool.or_eq_true_iff.mp hok1 with h3 | h3
        · exact absurd h3 hq
        · simpa using h3
      have hq' : needsQuote v = false := Bool.eq_false_iff.mpr hq
      have hfv : formatDotenvValue v = v := by
        unfold formatDotenvValue
        rw [if_neg hv, hq']
        simp
      obtain ⟨c0, vr, rfl⟩ : ∃ c0 vr, v = c0 :: vr := by
        cases v with
        | nil => exact absurd rfl hv
        | cons a as => exact ⟨a, as, rfl⟩
      have hf0 := bare_chars hq' c0 (List.mem_cons_self c0 vr)
      have hhead : goIsSpace c0 = false := goTrimSpace_head_not_space (by rw [hvs]; rfl)
      have hPV : parseDotenvValue (goTrimSpace (c0 :: vr)) = .ok (c0 :: vr) := by
        have h0 := parseDotenvValue_bare hv hq' hvs
        rw [hfv, goTrimRight_eq_self_of_stable hvs] at h0
        exact h0
      by_cases hcm : cm = []
      · have h1 : formatDotenvValue (c0 :: vr) ++ (if cm = [] then [] else ' ' :: cm) =
            c0 :: vr := by
          rw [hfv, if_pos hcm, List.append_nil]
        rw [h1]
        rw [classifyLine_keyline ex k _ hK (goTrimRight_eq_self_of_stable hvs)]
        have hVC : classifyVC (c0 :: vr) = (c0 :: vr, []) := by
          rw [classifyVC_no_quote (by simp)
            (by intro hx; exact hf0.2.2.2.2.2.1 (by simpa using hx))
            (by intro hx; exact hf0.2.2.2.2.2.2.1 (by simpa using hx))]
          exact splitInlineComment_no_hash (bare_no_hash hq')
        rw [hvs, hVC]
        dsimp only
        rw [hPV]
        dsimp only
        rw [renderLine_mk_key]
        simp [hfv]
      · have hcm' : cm.head? = some '#' := hCh hcm
        obtain ⟨cr, rfl⟩ : ∃ cr, cm = '#' :: cr := by
          cases cm with
          | nil => exact absurd rfl hcm
          | cons a t =>
            simp at hcm'
            subst hcm'
            exact ⟨t, rfl⟩
        have h1 : formatDotenvValue (c0 :: vr) ++
            (if ('#' :: cr : Str) = [] then [] else ' ' :: '#' :: cr) =
            (c0 :: vr) ++ ' ' :: '#' :: cr := by
          rw [hfv, if_neg hcm]
        rw [h1]
        have hcl : ∀ d, ('#' :: cr : Str).getLast? = some d → goIsSpace d = false := by
          intro d hd
          exact goTrimSpace_getLast_not_space (by rw [hCt]; exact hd)
        have hE : goTrimRight ((c0 :: vr) ++ ' ' :: '#' :: cr) =
            (c0 :: vr) ++ ' ' :: '#' :: cr := by
          apply goTrimRight_eq_self
          intro d hd
          rw [getLast?_append_ne (by simp)] at hd
          rw [show (' ' :: '#' :: cr : Str) = [' '] ++ '#' :: cr from rfl,
            getLast?_append_ne (by simp)] at hd
          exact hcl d hd
        rw [classifyLine_keyline ex k _ hK hE]
        have hA : goTrimSpace ((c0 :: vr) ++ ' ' :: '#' :: cr) =
            (c0 :: vr) ++ ' ' :: '#' :: cr := by
          apply goTrimSpace_eq_self
          · intro d hd
            rw [show ((c0 :: vr) ++ ' ' :: '#' :: cr).head? = some c0 from rfl] at hd
            simp at hd
            exact hd ▸ hhead
          · intro d hd
            rw [getLast?_append_ne (by simp)] at hd
            rw [show (' ' :: '#' :: cr : Str) = [' '] ++ '#' :: cr from rfl,
              getLast?_append_ne (by simp)] at hd
            exact hcl d hd
        have hVC : classifyVC ((c0 :: vr) ++ ' ' :: '#' :: cr) = (c0 :: vr, '#' :: cr) := by
          rw [classifyVC_no_quote (by simp)
            (by intro hx; exact hf0.2.2.2.2.2.1 (Option.some.inj hx))
            (by intro hx; exact hf0.2.2.2.2.2.2.1 (Option.some.inj hx))]
          exact splitInlineComment_bare_comment hq' hv hvs hCt
        rw [hA, hVC]
        dsimp only
        rw [hPV]
        dsimp only
        rw [renderLine_mk_key]
        rw [hfv, if_neg hcm]

/-- The comment field produced by the inline-comment decision is empty or a
trim-stable hash-led fragment of its input. -/
theorem classifyVC_snd_props (vp : Str) :
    (classifyVC vp).2 = [] ∨
    (goTrimSpace (classifyVC vp).2 = (classifyVC vp).2 ∧
     (classifyVC vp).2.head? = some '#' ∧ ∀ c ∈ (classifyVC vp).2, c ∈ vp) := by
  unfold classifyVC
  split_ifs with h
  · unfold splitInlineComment
    cases hf : findHashIdx vp with
    | none => left; rfl
    | some i =>
      right
      obtain ⟨t, ht⟩ := findHashIdx_drop hf
      dsimp only
      refine ⟨goTrimSpace_idem _, ?_, ?_⟩
      · rw [ht, goTrimSpace_cons_not_space t (by decide)]
        rfl
      · intro c hc
        exact List.drop_subset _ _ (mem_of_mem_goTrimSpace hc)
  · left
    rfl

/-- Structural facts about every key line `classifyLine` produces: a valid
key and an empty-or-hash-led trim-stable comment drawn from the raw line. -/
theorem classifyLine_wf {raw : Str} :
    (classifyLine raw).1.Kind = .key →
    isValidEnvKey (classifyLine raw).1.Key = true ∧
    goTrimSpace (classifyLine raw).1.Comment = (classifyLine raw).1.Comment ∧
    ((classifyLine raw).1.Comment ≠ [] → (classifyLine raw).1.Comment.head? = some '#') ∧
    ∀ c ∈ (classifyLine raw).1.Comment, c ∈ raw := by
  unfold classifyLine
  dsimp only
  split_ifs with h1 h2 h3
  · exact fun hcon => by simp at hcon
  · exact fun hcon => by simp at hcon
  · split
    · exact fun hcon => by simp at hcon
    · rename_i k0 rest heq
      split_ifs with h4 h5
      · exact fun hcon => by simp at hcon
      · exact fun hcon => by simp at hcon
      · split
        · exact fun hcon => by simp at hcon
        · intro _
          dsimp only
          have hkv : isValidEnvKey (goTrimSpace k0) = true := by
            simpa using h5
          have hrest : ∀ c ∈ rest, c ∈ raw := by
            intro c hc
            have h6 : c ∈ goTrimSpace ((goTrimSpace raw).drop 7) := by
              rw [splitFirstEq_parts heq]
              exact List.mem_append.mpr (Or.inr (List.mem_cons_of_mem _ hc))
            have h7 := List.drop_subset _ _ (mem_of_mem_goTrimSpace h6)
            exact mem_of_mem_goTrimSpace h7
          rcases classifyVC_snd_props (goTrimSpace rest) with hnil | ⟨hst, hhd, hsub⟩
          · rw [hnil]
            exact ⟨hkv, rfl, fun hcc => absurd rfl hcc, fun c hc => absurd hc (by simp)⟩
          · exact ⟨hkv, hst, fun _ => hhd,
              fun c hc => hrest c (mem_of_mem_goTrimSpace (hsub c hc))⟩
  · split
    · exact fun hcon => by simp at hcon
    · rename_i k0 rest heq
      split_ifs with h4 h5
      · exact fun hcon => by simp at hcon
      · exact fun hcon => by simp at hcon
      · split
        · exact fun hcon => by simp at hcon
        · intro _
          dsimp only
          have hkv : isValidEnvKey (goTrimSpace k0) = true := by
            simpa using h5
          have hrest : ∀ c ∈ rest, c ∈ raw := by
            intro c hc
            have h6 : c ∈ goTrimSpace raw := by
              rw [splitFirstEq_parts heq]
              exact List.mem_append.mpr (Or.inr (List.mem_cons_of_mem _ hc))
            exact mem_of_mem_goTrimSpace h6
          rcases classifyVC_snd_props (goTrimSpace rest) with hnil | ⟨hst, hhd, hsub⟩
          · rw [hnil]
            exact ⟨hkv, rfl, fun hcc => absurd rfl hcc, fun c hc => absurd hc (by simp)⟩
          · exact ⟨hkv, hst, fun _ => hhd,
              fun c hc => hrest c (mem_of_mem_goTrimSpace (hsub c hc))⟩

theorem renderLine_of_nonkey {l : DotenvLine} (h : l.Kind ≠ .key) :
    renderLine l = l.Raw := by
  unfold renderLine
  cases hk2 : l.Kind with
  | key => exact absurd hk2 h
  | comment => rfl
  | blank => rfl
  | other => rfl

/-- A rendered key line is newline-free and does not end in a carriage
return. -/
theorem renderLine_key_clean {l : DotenvLine} (hk : l.Kind = .key)
    (hK : isValidEnvKey l.Key = true)
    (hCt : goTrimSpace l.Comment = l.Comment)
    (hCnl : '\n' ∉ l.Comment) :
    '\n' ∉ renderLine l ∧ dropCR (renderLine l) = renderLine l := by
  rcases l with ⟨kind, raw, k, v, cm, ex⟩
  dsimp only at hk hK hCt hCnl
  subst hk
  rw [renderLine_mk_key_raw raw k v cm ex]
  constructor
  · intro hmem
    rcases List.mem_append.mp hmem with hm | hm
    · rcases List.mem_append.mp hm with hm2 | hm2
      · cases ex with
        | true => revert hm2; decide
        | false => revert hm2; decide
      · exact absurd (keyChar_bounds (validKey_chars hK '\n' hm2)) (by decide)
    · rcases List.mem_cons.mp hm with hm2 | hm2
      · exact absurd hm2 (by decide)
      · rcases List.mem_append.mp hm2 with hm3 | hm3
        · rcases mem_formatDotenvValue hm3 with h | h | h
          · exact absurd h (by decide)
          · exact goEscape_no_nl h
          · exact (bare_chars h.1 '\n' h.2).2.2.1 rfl
        · by_cases hcm : cm = []
          · rw [if_pos hcm] at hm3
            simp at hm3
          · rw [if_neg hcm] at hm3
            rcases List.mem_cons.mp hm3 with hm4 | hm4
            · exact absurd hm4 (by decide)
            · exact hCnl hm4
  · apply dropCR_eq_self
    intro c hc
    rw [getLast?_append_ne (by simp)] at hc
    by_cases hcm : cm = []
    · rw [if_pos hcm] at hc
      simp only [List.append_nil] at hc
      rw [show ('=' :: formatDotenvValue v : Str) = ['='] ++ formatDotenvValue v from rfl,
        List.getLast?_append] at hc
      cases hfv : (formatDotenvValue v).getLast? with
      | some d =>
        rw [hfv] at hc
        simp at hc
        subst hc
        exact getLast?_formatDotenvValue_ne_cr hfv
      | none =>
        rw [hfv] at hc
        simp at hc
        rw [← hc]
        decide
    · rw [if_neg hcm] at hc
      rw [show ('=' :: (formatDotenvValue v ++ ' ' :: cm) : Str) =
        ('=' :: formatDotenvValue v) ++ ' ' :: cm from by simp] at hc
      rw [getLast?_append_ne (by simp)] at hc
      rw [show (' ' :: cm : Str) = [' '] ++ cm from rfl, getLast?_append_ne hcm] at hc
      intro he
      subst he
      have hsp := goTrimSpace_getLast_not_space (l := cm) (by rw [hCt]; exact hc)
      exact absurd hsp (by decide)

/-- The rendering of any classified line from a newline-free raw line that
satisfies `lineOK` is newline-free and survives the carriage-return drop. -/
theorem renderLine_clean {raw : Str} (hnl : '\n' ∉ raw)
    (hok : lineOK (classifyLine raw).1 = true) :
    '\n' ∉ renderLine (classifyLine raw).1 ∧
    dropCR (renderLine (classifyLine raw).1) = renderLine (classifyLine raw).1 := by
  by_cases hk : (classifyLine raw).1.Kind = .key
  · obtain ⟨hK, hCt, hCh, hsub⟩ := classifyLine_wf hk
    exact renderLine_key_clean hk hK hCt fun hm => hnl (hsub '\n' hm)
  · have hraw := classify_nonkey_raw hk
    have hrl : renderLine (classifyLine raw).1 = raw := by
      rw [renderLine_of_nonkey hk, hraw]
    rw [hrl]
    have hcr : (raw.getLast? == some '\r') = false := by
      unfold lineOK at hok
      cases hkind : (classifyLine raw).1.Kind with
      | key => exact absurd hkind hk
      | comment =>
        rw [hkind] at hok
        simp at hok
        rw [hraw] at hok
        simpa using hok
      | blank =>
        rw [hkind] at hok
        simp at hok
        rw [hraw] at hok
        simpa using hok
      | other =>
        rw [hkind] at hok
        simp at hok
        rw [hraw] at hok
        simpa using hok
    refine ⟨hnl, dropCR_eq_self ?_⟩
    intro c hcx he
    subst he
    rw [hcx] at hcr
    simp at hcr

/-- One line of the render/re-parse round: a classified line that satisfies
`lineOK` re-renders identically after being rendered and classified again. -/
theorem classify_render_roundtrip {r : Str} (hok : lineOK (classifyLine r).1 = true) :
    renderLine (classifyLine (renderLine (classifyLine r).1)).1 =
      renderLine (classifyLine r).1 := by
  by_cases hk : (classifyLine r).1.Kind = .key
  · obtain ⟨hK, hCt, hCh, _⟩ := classifyLine_wf hk
    exact renderLine_roundtrip _ hk hK hCt hCh hok
  · have hrl : renderLine (classifyLine r).1 = r := by
      rw [renderLine_of_nonkey hk, classify_nonkey_raw hk]
    rw [hrl]
    exact hrl

def c2ex : Str := ['K', '=', squote, 'v', squote, '\n']

/-- C2: counterexample to byte-exact reproduction.  The document `K='v'`
followed by a newline parses in document mode with no issues at all (in
particular no Error-severity issue) and has no duplicate keys, yet rendering
the parsed document yields `K=v` followed by a newline: the single quotes
are not reproduced, so the render is not byte-identical to the input. -/
theorem claim_C2_counterexample :
    (∀ i ∈ (ParseDotenvDocument c2ex).2, i.severity ≠ Severity.error) ∧
    ((ParseDotenvDocument c2ex).1.Lines.filterMap
      (fun l => if l.Kind = .key then some l.Key else none)).Nodup ∧
    (ParseDotenvDocument c2ex).1.Render ≠ c2ex := by decide

/-- C2 (amended): rendering a parsed, unmutated document reproduces every
non-key line verbatim (raw text), and the render/parse composition is
idempotent — re-parsing and re-rendering the render changes nothing —
provided every parsed line satisfies the `lineOK` side conditions (retained
raw lines do not end in a carriage return; a bare-rendered value is
trim-stable; a quoted-rendered value with an inline comment does not have
the comment end in a double quote).  Key lines themselves are normalised,
not reproduced byte-exactly. -/
theorem claim_C2_amended (D : Str)
    (hok : ∀ l ∈ (ParseDotenvDocument D).1.Lines, lineOK l = true) :
    (∀ l ∈ (ParseDotenvDocument D).1.Lines, l.Kind ≠ .key → renderLine l = l.Raw) ∧
    (ParseDotenvDocument ((ParseDotenvDocument D).1.Render)).1.Render =
      (ParseDotenvDocument D).1.Render := by
  have hL : ∀ (E : Str), (ParseDotenvDocument E).1.Lines =
      (goLines E).map (fun r => (classifyLine r).1) := by
    intro E
    unfold ParseDotenvDocument
    dsimp only
    exact parseDocAux_lines (goLines E) 1 []
  constructor
  · exact fun l _ hlk => renderLine_of_nonkey hlk
  · have hok' : ∀ r ∈ goLines D, lineOK (classifyLine r).1 = true := by
      intro r hr
      exact hok _ (by rw [hL]; exact List.mem_map.mpr ⟨r, hr, rfl⟩)
    have hclean : ∀ r ∈ goLines D,
        '\n' ∉ renderLine (classifyLine r).1 ∧
        dropCR (renderLine (classifyLine r).1) = renderLine (classifyLine r).1 :=
      fun r hr => renderLine_clean (goLines_no_nl r hr) (hok' r hr)
    have hrender : ∀ (E : Str), (ParseDotenvDocument E).1.Render =
        ((goLines E).map (fun r => renderLine (classifyLine r).1 ++ ['\n'])).flatten := by
      intro E
      unfold DotenvDocument.Render
      rw [hL, List.map_map]
      rfl
    have hGL : goLines ((ParseDotenvDocument D).1.Render) =
        (goLines D).map (fun r => renderLine (classifyLine r).1) := by
      rw [hrender]
      have hform : (goLines D).map (fun r => renderLine (classifyLine r).1 ++ ['\n']) =
          ((goLines D).map (fun r => renderLine (classifyLine r).1)).map (· ++ ['\n']) := by
        rw [List.map_map]
        rfl
      rw [hform, goLines_flatten (by
        intro s hs
        rcases List.mem_map.mp hs with ⟨r, hr, rfl⟩
        exact (hclean r hr).1)]
      rw [List.map_map]
      apply List.map_congr_left
      intro r hr
      exact (hclean r hr).2
    rw [hrender ((ParseDotenvDocument D).1.Render), hGL, hrender D, List.map_map]
    congr 1
    apply List.map_congr_left
    intro r hr
    simp only [Function.comp]
    rw [classify_render_roundtrip (hok' r hr)]

def c2wit : Str :=
  ['e', 'x', 'p', 'o', 'r', 't', ' ', 'A', '=', 'a', ' ', 'b', ' ', '#', ' ', 'c', '\n',
   'B', '=', '1', '\n', '\n', '#', ' ', 'h', 'i', '\n']

/-- C2 amended witness: a concrete document with an exported quoted-value
line carrying an inline comment, a bare-value line, a blank line and a
comment line satisfies the side conditions, and the theorem yields the
idempotence equation for it. -/
theorem claim_C2_witness :
    (∀ l ∈ (ParseDotenvDocument c2wit).1.Lines, lineOK l = true) ∧
    ((∀ l ∈ (ParseDotenvDocument c2wit).1.Lines, l.Kind ≠ .key → renderLine l = l.Raw) ∧
     (ParseDotenvDocument ((ParseDotenvDocument c2wit).1.Render)).1.Render =
       (ParseDotenvDocument c2wit).1.Render) :=
  ⟨by decide, claim_C2_amended c2wit (by decide)⟩

/-! ## Sortedness of `sort.Strings` -/

theorem lexLe_total : ∀ a b : Str, lexLe a b = true ∨ lexLe b a = true := by
  intro a
  induction a with
  | nil =>
    intro b
    left
    rfl
  | cons x xs ih =>
    intro b
    cases b with
    | nil =>
      right
      rfl
    | cons y ys =>
      by_cases hxy : x = y
      · subst hxy
        rcases ih ys with h | h
        · left
          simp [lexLe, h]
        · right
          simp [lexLe, h]
      · rcases lt_trichotomy x y with h | h | h
        · left
          simp [lexLe, hxy, h]
        · exact absurd h hxy
        · right
          have hyx : ¬ y = x := fun he => hxy he.symm
          simp [lexLe, hyx, h]

theorem insertSorted_head (x : Str) (l : List Str) :
    (insertSorted x l).head? = some x ∨ (insertSorted x l).head? = l.head? := by
  cases l with
  | nil =>
    left
    rfl
  | cons y ys =>
    unfold insertSorted
    by_cases h : lexLe x y = true
    · rw [if_pos h]
      left
      rfl
    · rw [if_neg h]
      right
      rfl

theorem chain_lexLe_insertSorted {x : Str} : ∀ {l : List Str},
    l.Chain' (fun a b => lexLe a b = true) →
    (insertSorted x l).Chain' (fun a b => lexLe a b = true) := by
  intro l
  induction l with
  | nil =>
    intro _
    simp [insertSorted]
  | cons y ys ih =>
    intro h
    unfold insertSorted
    by_cases hxy : lexLe x y = true
    · rw [if_pos hxy]
      exact List.chain'_cons.mpr ⟨hxy, h⟩
    · rw [if_neg hxy]
      have hyx : lexLe y x = true := (lexLe_total x y).resolve_left hxy
      have h1 := (List.chain'_cons'.mp h).1
      have h2 := (List.chain'_cons'.mp h).2
      refine List.chain'_cons'.mpr ⟨?_, ih h2⟩
      intro z hz
      rcases insertSorted_head x ys with hh | hh
      · rw [hh] at hz
        have hzx : x = z := by simpa using hz
        subst hzx
        exact hyx
      · rw [hh] at hz
        exact h1 z hz

theorem sortKeys_chain (l : List Str) :
    (sortKeys l).Chain' (fun a b => lexLe a b = true) := by
  induction l with
  | nil => simp [sortKeys]
  | cons x xs ih => exact chain_lexLe_insertSorted ih

/-! ## Claim C7: applying vault values to a dotenv document -/

/-- The keys of the key lines of a document (the `existing` set of
`applyValuesToDocument`). -/
def docKeys (ls : List DotenvLine) : List Str :=
  ls.filterMap fun l => if l.Kind = .key then some l.Key else none

/-- The effect of the update loop of `applyValuesToDocument` on one line. -/
def applyLine (values : List (Str × Str)) (l : DotenvLine) : DotenvLine :=
  if l.Kind = .key then
    match alookup values l.Key with
    | some v => { l with Value := v }
    | none => l
  else l

/-- The update loop of `applyValuesToDocument`: rewrite key lines whose key
is in `values` and count the lines whose value actually changed. -/
def applyLines (values : List (Str × Str)) : List DotenvLine → List DotenvLine × Nat
  | [] => ([], 0)
  | l :: ls =>
    let rec0 := applyLines values ls
    if l.Kind = .key then
      match alookup values l.Key with
      | none => (l :: rec0.1, rec0.2)
      | some v =>
        ({ l with Value := v } :: rec0.1, (if l.Value ≠ v then 1 else 0) + rec0.2)
    else (l :: rec0.1, rec0.2)

/-- `applyValuesToDocument`: the updated document, the `Updated` count and
the `Added` count.  The missing keys are sorted, so the Go map iteration
order is immaterial. -/
def applyValuesToDocument (doc : DotenvDocument) (values : List (Str × Str))
    (onlyExisting : Bool) : DotenvDocument × Nat × Nat :=
  let ap := applyLines values doc.Lines
  if onlyExisting then ({ doc with Lines := ap.1 }, ap.2, 0)
  else
    let missing := sortKeys ((values.map Prod.fst).filter
      fun k => !((docKeys doc.Lines).contains k))
    ({ doc with Lines := ap.1 ++ missing.map fun k =>
        { Kind := .key, Key := k, Value := (alookup values k).getD [] } },
      ap.2, missing.length)

/-- The pure core of `SecretService.ApplyEnvFile` after the target file is
read: fatal on Error-severity parse issues; a zero report writes nothing
(the file content stays `data`); otherwise the re-rendered document is
written. -/
def ApplyEnvFileCore (values : List (Str × Str)) (data : Str) (onlyExisting : Bool) :
    Except Unit (Str × Nat × Nat) :=
  let pr := ParseDotenvDocument data
  if pr.2.any (fun i => i.severity == Severity.error) then .error ()
  else
    let ap := applyValuesToDocument pr.1 values onlyExisting
    if ap.2.1 = 0 ∧ ap.2.2 = 0 then .ok (data, 0, 0)
    else .ok (ap.1.Render, ap.2.1, ap.2.2)

theorem update_value_eq_iff {l : DotenvLine} {v : Str} :
    ({ l with Value := v } = l) ↔ l.Value = v := by
  constructor
  · intro h
    have h2 := congrArg DotenvLine.Value h
    simpa using h2.symm
  · intro h
    cases l
    simp_all

theorem applyLines_spec (values : List (Str × Str)) : ∀ (ls : List DotenvLine),
    (applyLines values ls).1 = ls.map (applyLine values) ∧
    (applyLines values ls).2 = ls.countP (fun l => decide (applyLine values l ≠ l)) := by
  intro ls
  induction ls with
  | nil => exact ⟨rfl, rfl⟩
  | cons l rest ih =>
    unfold applyLines
    dsimp only
    by_cases hk : l.Kind = .key
    · rw [if_pos hk]
      cases hal : alookup values l.Key with
      | none =>
        dsimp only
        have hid : applyLine values l = l := by
          unfold applyLine
          rw [if_pos hk, hal]
        constructor
        · rw [ih.1, List.map_cons, hid]
        · rw [ih.2, List.countP_cons]
          rw [show (decide (applyLine values l ≠ l)) = false from by simp [hid]]
          simp
      | some v =>
        dsimp only
        have hap : applyLine values l = { l with Value := v } := by
          unfold applyLine
          rw [if_pos hk, hal]
        constructor
        · rw [ih.1, List.map_cons, hap]
        · rw [ih.2, List.countP_cons, hap]
          by_cases hv : l.Value = v
          · rw [if_neg (by simpa using hv)]
            rw [show (decide (({ l with Value := v } : DotenvLine) ≠ l)) = false from by
              simp [update_value_eq_iff, hv]]
            simp [Nat.add_comm]
          · rw [if_pos (by simpa using hv)]
            rw [show (decide (({ l with Value := v } : DotenvLine) ≠ l)) = true from by
              simp [update_value_eq_iff, hv]]
            simp [Nat.add_comm]
    · rw [if_neg hk]
      dsimp only
      have hid : applyLine values l = l := by
        unfold applyLine
        rw [if_neg hk]
      constructor
      · rw [ih.1, List.map_cons, hid]
      · rw [ih.2, List.countP_cons]
        rw [show (decide (applyLine values l ≠ l)) = false from by simp [hid]]
        simp

theorem contains_iff_mem {l : List Str} {k : Str} : l.contains k = true ↔ k ∈ l := by
  simp [List.contains]

/-- C7: on a target file whose document-mode parse has no Error-severity
issue, applying the vault values rewrites each key line in place — the key,
comment, export flag, kind and position are preserved, the value becomes the
vault value when the key is in the vault, and the line is untouched
otherwise — with Updated counting exactly the lines whose value actually
changed; with onlyExisting false the document is extended by exactly the
vault keys absent from the file, as fresh key lines in lexical order, and
Added is their number; and when Updated and Added are both zero the core
returns a zero report with the file content unchanged, otherwise it writes
the re-rendered document. -/
theorem claim_C7 (values : List (Str × Str)) (data : Str) (onlyExisting : Bool)
    (hparse : ∀ i ∈ (ParseDotenvDocument data).2, i.severity ≠ Severity.error) :
    (∀ l : DotenvLine, (applyLine values l).Key = l.Key ∧
      (applyLine values l).Comment = l.Comment ∧
      (applyLine values l).HasExport = l.HasExport ∧
      (applyLine values l).Kind = l.Kind ∧
      (∀ v, alookup values l.Key = some v → l.Kind = .key →
        (applyLine values l).Value = v) ∧
      (alookup values l.Key = none → applyLine values l = l) ∧
      (l.Kind ≠ .key → applyLine values l = l)) ∧
    (∀ i, i < (ParseDotenvDocument data).1.Lines.length →
      (applyValuesToDocument (ParseDotenvDocument data).1 values onlyExisting).1.Lines[i]? =
        ((ParseDotenvDocument data).1.Lines[i]?).map (applyLine values)) ∧
    ((applyValuesToDocument (ParseDotenvDocument data).1 values onlyExisting).2.1 =
      (ParseDotenvDocument data).1.Lines.countP
        (fun l => decide (applyLine values l ≠ l))) ∧
    (onlyExisting = true →
      (applyValuesToDocument (ParseDotenvDocument data).1 values onlyExisting).1.Lines =
        (ParseDotenvDocument data).1.Lines.map (applyLine values) ∧
      (applyValuesToDocument (ParseDotenvDocument data).1 values onlyExisting).2.2 = 0) ∧
    (onlyExisting = false →
      (applyValuesToDocument (ParseDotenvDocument data).1 values onlyExisting).1.Lines =
        (ParseDotenvDocument data).1.Lines.map (applyLine values) ++
          (sortKeys ((values.map Prod.fst).filter
            fun k => !((docKeys (ParseDotenvDocument data).1.Lines).contains k))).map
            (fun k => { Kind := .key, Key := k, Value := (alookup values k).getD [] }) ∧
      (applyValuesToDocument (ParseDotenvDocument data).1 values onlyExisting).2.2 =
        (sortKeys ((values.map Prod.fst).filter
          fun k => !((docKeys (ParseDotenvDocument data).1.Lines).contains k))).length ∧
      (sortKeys ((values.map Prod.fst).filter
        fun k => !((docKeys (ParseDotenvDocument data).1.Lines).contains k))).Chain'
        (fun a b => lexLe a b = true) ∧
      (∀ k, k ∈ sortKeys ((values.map Prod.fst).filter
          fun k => !((docKeys (ParseDotenvDocument data).1.Lines).contains k)) ↔
        (k ∈ values.map Prod.fst ∧
          ¬ k ∈ docKeys (ParseDotenvDocument data).1.Lines))) ∧
    ((applyValuesToDocument (ParseDotenvDocument data).1 values onlyExisting).2.1 = 0 →
      (applyValuesToDocument (ParseDotenvDocument data).1 values onlyExisting).2.2 = 0 →
      ApplyEnvFileCore values data onlyExisting = .ok (data, 0, 0)) ∧
    (¬((applyValuesToDocument (ParseDotenvDocument data).1 values onlyExisting).2.1 = 0 ∧
        (applyValuesToDocument (ParseDotenvDocument data).1 values onlyExisting).2.2 = 0) →
      ApplyEnvFileCore values data onlyExisting =
        .ok ((applyValuesToDocument (ParseDotenvDocument data).1 values
          onlyExisting).1.Render,
          (applyValuesToDocument (ParseDotenvDocument data).1 values onlyExisting).2.1,
          (applyValuesToDocument (ParseDotenvDocument data).1 values onlyExisting).2.2)) := by
  have hsp := applyLines_spec values (ParseDotenvDocument data).1.Lines
  have hAny : ((ParseDotenvDocument data).2.any
      fun i => i.severity == Severity.error) = false := by
    rw [List.any_eq_false]
    intro i hi hbeq
    exact hparse i hi (by simpa using hbeq)
  refine ⟨?_, ?_, ?_, ?_, ?_, ?_, ?_⟩
  · intro l
    by_cases hk : l.Kind = .key
    · cases hal : alookup values l.Key with
      | some v =>
        have hap : applyLine values l = { l with Value := v } := by
          unfold applyLine
          rw [if_pos hk, hal]
        rw [hap]
        refine ⟨rfl, rfl, rfl, rfl, ?_, ?_, ?_⟩
        · intro w hw _
          cases hw
          rfl
        · intro hnone
          simp at hnone
        · intro hnk
          exact absurd hk hnk
      | none =>
        have hap : applyLine values l = l := by
          unfold applyLine
          rw [if_pos hk, hal]
        rw [hap]
        refine ⟨rfl, rfl, rfl, rfl, ?_, fun _ => rfl, fun _ => rfl⟩
        intro w hw _
        simp at hw
    · have hap : applyLine values l = l := by
        unfold applyLine
        rw [if_neg hk]
      rw [hap]
      exact ⟨rfl, rfl, rfl, rfl,
        fun w hw hkk => absurd hkk hk, fun _ => rfl, fun _ => rfl⟩
  · intro i hi
    unfold applyValuesToDocument
    cases onlyExisting with
    | true =>
      rw [if_pos rfl]
      dsimp only
      rw [hsp.1]
      exact List.getElem?_map _ _ _
    | false =>
      rw [if_neg (by simp)]
      dsimp only
      rw [hsp.1, List.getElem?_append]
      rw [if_pos (by rw [List.length_map]; exact hi)]
      exact List.getElem?_map _ _ _
  · unfold applyValuesToDocument
    cases onlyExisting with
    | true =>
      rw [if_pos rfl]
      exact hsp.2
    | false =>
      rw [if_neg (by simp)]
      exact hsp.2
  · intro h
    subst h
    unfold applyValuesToDocument
    rw [if_pos rfl]
    exact ⟨hsp.1, rfl⟩
  · intro h
    subst h
    unfold applyValuesToDocument
    rw [if_neg (by simp)]
    refine ⟨by rw [hsp.1], rfl, sortKeys_chain _, ?_⟩
    intro k
    rw [mem_sortKeys, List.mem_filter]
    constructor
    · rintro ⟨h1, h2⟩
      refine ⟨h1, ?_⟩
      intro hmem
      rw [Bool.not_eq_eq_eq_not, Bool.not_true] at h2
      rw [contains_iff_mem.mpr hmem] at h2
      simp at h2
    · rintro ⟨h1, h2⟩
      refine ⟨h1, ?_⟩
      rw [Bool.not_eq_eq_eq_not, Bool.not_true]
      cases hcc : (docKeys (ParseDotenvDocument data).1.Lines).contains k with
      | false => rfl
      | true => exact absurd (contains_iff_mem.mp hcc) h2
  · intro h1 h2
    unfold ApplyEnvFileCore
    dsimp only
    rw [hAny]
    simp only [Bool.false_eq_true, if_false]
    rw [if_pos ⟨h1, h2⟩]
  · intro hne
    unfold ApplyEnvFileCore
    dsimp only
    rw [hAny]
    simp only [Bool.false_eq_true, if_false]
    rw [if_neg hne]

def c7vals : List (Str × Str) := [(['A'], ['1']), (['B'], ['2'])]

def c7data : Str := ['A', '=', '0', '\n', '#', ' ', 'c', '\n']

/-- C7 witness: a concrete file with one key line whose value changes and a
comment line, applied with two vault values so that one key is updated and
the other appended. -/
theorem claim_C7_witness :
    (∀ i ∈ (ParseDotenvDocument c7data).2, i.severity ≠ Severity.error) ∧
    ((∀ l : DotenvLine, (applyLine c7vals l).Key = l.Key ∧
      (applyLine c7vals l).Comment = l.Comment ∧
      (applyLine c7vals l).HasExport = l.HasExport ∧
      (applyLine c7vals l).Kind = l.Kind ∧
      (∀ v, alookup c7vals l.Key = some v → l.Kind = .key →
        (applyLine c7vals l).Value = v) ∧
      (alookup c7vals l.Key = none → applyLine c7vals l = l) ∧
      (l.Kind ≠ .key → applyLine c7vals l = l)) ∧
    (∀ i, i < (ParseDotenvDocument c7data).1.Lines.length →
      (applyValuesToDocument (ParseDotenvDocument c7data).1 c7vals false).1.Lines[i]? =
        ((ParseDotenvDocument c7data).1.Lines[i]?).map (applyLine c7vals)) ∧
    ((applyValuesToDocument (ParseDotenvDocument c7data).1 c7vals false).2.1 =
      (ParseDotenvDocument c7data).1.Lines.countP
        (fun l => decide (applyLine c7vals l ≠ l))) ∧
    ((false : Bool) = true →
      (applyValuesToDocument (ParseDotenvDocument c7data).1 c7vals false).1.Lines =
        (ParseDotenvDocument c7data).1.Lines.map (applyLine c7vals) ∧
      (applyValuesToDocument (ParseDotenvDocument c7data).1 c7vals false).2.2 = 0) ∧
    ((false : Bool) = false →
      (applyValuesToDocument (ParseDotenvDocument c7data).1 c7vals false).1.Lines =
        (ParseDotenvDocument c7data).1.Lines.map (applyLine c7vals) ++
          (sortKeys ((c7vals.map Prod.fst).filter
            fun k => !((docKeys (ParseDotenvDocument c7data).1.Lines).contains k))).map
            (fun k => { Kind := .key, Key := k, Value := (alookup c7vals k).getD [] }) ∧
      (applyValuesToDocument (ParseDotenvDocument c7data).1 c7vals false).2.2 =
        (sortKeys ((c7vals.map Prod.fst).filter
          fun k => !((docKeys (ParseDotenvDocument c7data).1.Lines).contains k))).length ∧
      (sortKeys ((c7vals.map Prod.fst).filter
        fun k => !((docKeys (ParseDotenvDocument c7data).1.Lines).contains k))).Chain'
        (fun a b => lexLe a b = true) ∧
      (∀ k, k ∈ sortKeys ((c7vals.map Prod.fst).filter
          fun k => !((docKeys (ParseDotenvDocument c7data).1.Lines).contains k)) ↔
        (k ∈ c7vals.map Prod.fst ∧
          ¬ k ∈ docKeys (ParseDotenvDocument c7data).1.Lines))) ∧
    ((applyValuesToDocument (ParseDotenvDocument c7data).1 c7vals false).2.1 = 0 →
      (applyValuesToDocument (ParseDotenvDocument c7data).1 c7vals false).2.2 = 0 →
      ApplyEnvFileCore c7vals c7data false = .ok (c7data, 0, 0)) ∧
    (¬((applyValuesToDocument (ParseDotenvDocument c7data).1 c7vals false).2.1 = 0 ∧
        (applyValuesToDocument (ParseDotenvDocument c7data).1 c7vals false).2.2 = 0) →
      ApplyEnvFileCore c7vals c7data false =
        .ok ((applyValuesToDocument (ParseDotenvDocument c7data).1 c7vals
          false).1.Render,
          (applyValuesToDocument (ParseDotenvDocument c7data).1 c7vals false).2.1,
          (applyValuesToDocument (ParseDotenvDocument c7data).1 c7vals false).2.2))) :=
  ⟨by decide, claim_C7 c7vals c7data false (by decide)⟩

/-! ## Claim C5: the merged order of an order-preserving import -/

/-- One pass of the `mergeOrder` loops: emit the keys that are in `values`
and not yet seen, in input order.  The Go `seen` set always holds exactly
the keys emitted so far, so it is carried as the list of emitted keys. -/
def dedupFilter (values : List (Str × Str)) : List Str → List Str → List Str
  | _, [] => []
  | seen, k :: ks =>
    if (alookup values k).isSome && !(seen.contains k) then
      k :: dedupFilter values (k :: seen) ks
    else dedupFilter values seen ks

/-- `mergeOrder`: file order first, then existing order, both filtered to
surviving keys and de-duplicated; when that does not already cover all of
`values`, the still-missing keys follow, sorted. -/
def mergeOrder (existing file : List Str) (values : List (Str × Str)) : List Str :=
  let part1 := dedupFilter values [] file
  let order := part1 ++ dedupFilter values part1 existing
  if order.length = values.length then order
  else order ++ sortKeys ((values.map Prod.fst).filter fun k => !(order.contains k))

/-- The merged order as the specification words it: the imported file's
order filtered to surviving keys and de-duplicated, then the existing vault
order filtered and de-duplicated omitting keys already emitted, then the
remaining surviving keys sorted lexically. -/
def mergeOrderSpec (existing file : List Str) (values : List (Str × Str)) : List Str :=
  let part1 := firstDedup (file.filter fun k => (alookup values k).isSome)
  let part2 := firstDedupFrom part1 (existing.filter fun k => (alookup values k).isSome)
  (part1 ++ part2) ++
    sortKeys ((values.map Prod.fst).filter fun k => !((part1 ++ part2).contains k))

theorem dedupFilter_eq (values : List (Str × Str)) : ∀ (l seen : List Str),
    dedupFilter values seen l =
      firstDedupFrom seen (l.filter fun k => (alookup values k).isSome) := by
  intro l
  induction l with
  | nil => intro seen; rfl
  | cons k ks ih =>
    intro seen
    unfold dedupFilter
    rw [List.filter_cons]
    cases hp : (alookup values k).isSome with
    | false =>
      simp only [Bool.false_and, Bool.false_eq_true, if_false]
      exact ih seen
    | true =>
      simp only [Bool.true_and, if_true]
      cases hc : seen.contains k with
      | true =>
        rw [firstDedupFrom_cons, if_pos hc]
        simp only [Bool.not_true, Bool.false_eq_true, if_false]
        exact ih seen
      | false =>
        rw [firstDedupFrom_cons,
          if_neg (show ¬(seen.contains k = true) from
            fun hcc => by rw [hcc] at hc; exact absurd hc (by decide))]
        simp only [Bool.not_false, if_true]
        rw [ih (k :: seen)]

theorem mem_firstDedupFrom_of : ∀ {l seen : List Str} {x : Str},
    x ∈ l → x ∉ seen → x ∈ firstDedupFrom seen l := by
  intro l
  induction l with
  | nil =>
    intro seen x hx _
    simp at hx
  | cons k ks ih =>
    intro seen x hx hs
    rw [firstDedupFrom_cons]
    by_cases hc : seen.contains k = true
    · rw [if_pos hc]
      rcases List.mem_cons.mp hx with rfl | hx2
      · exact absurd (contains_iff_mem.mp hc) hs
      · exact ih hx2 hs
    · rw [if_neg hc]
      rcases List.mem_cons.mp hx with rfl | hx2
      · exact List.mem_cons_self _ _
      · by_cases hxk : x = k
        · subst hxk
          exact List.mem_cons_self _ _
        · refine List.mem_cons_of_mem _ (ih hx2 ?_)
          intro hmem
          rcases List.mem_cons.mp hmem with h | h
          · exact hxk h
          · exact hs h

theorem count_eq_one_of_nodup_mem : ∀ {l : List Str} {a : Str},
    l.Nodup → a ∈ l → l.count a = 1 := by
  intro l
  induction l with
  | nil =>
    intro a _ ha
    simp at ha
  | cons x xs ih =>
    intro a hd ha
    have hx : x ∉ xs := (List.nodup_cons.mp hd).1
    have hxs : xs.Nodup := (List.nodup_cons.mp hd).2
    rw [List.count_cons]
    rcases List.mem_cons.mp ha with rfl | ha2
    · rw [List.count_eq_zero.mpr hx]
      simp
    · have hax : a ≠ x := fun he => hx (he ▸ ha2)
      rw [ih hxs ha2,
        if_neg (fun hbe => hax (Eq.symm (show x = a from by simpa using hbe)))]

/-- C5: for every existing vault order, imported file order and surviving
value map (with distinct keys, as Go maps have), the merged order equals the
specification's description — the file order filtered to surviving keys and
de-duplicated, then the existing order filtered and de-duplicated omitting
keys already emitted, then the remaining surviving keys sorted lexically —
and every surviving key appears exactly once in it. -/
theorem claim_C5 (existing file : List Str) (values : List (Str × Str))
    (hnd : (values.map Prod.fst).Nodup) :
    mergeOrder existing file values = mergeOrderSpec existing file values ∧
    (mergeOrder existing file values).Nodup ∧
    (∀ k, k ∈ mergeOrder existing file values ↔ k ∈ values.map Prod.fst) ∧
    (∀ k ∈ values.map Prod.fst, (mergeOrder existing file values).count k = 1) := by
  have hd1 : dedupFilter values [] file =
      firstDedup (file.filter fun k => (alookup values k).isSome) :=
    dedupFilter_eq values file []
  have hd2 : dedupFilter values
      (firstDedup (file.filter fun k => (alookup values k).isSome)) existing =
      firstDedupFrom (firstDedup (file.filter fun k => (alookup values k).isSome))
        (existing.filter fun k => (alookup values k).isSome) :=
    dedupFilter_eq values existing _
  have hsub : ∀ x ∈ firstDedup (file.filter fun k => (alookup values k).isSome) ++
      firstDedupFrom (firstDedup (file.filter fun k => (alookup values k).isSome))
        (existing.filter fun k => (alookup values k).isSome),
      x ∈ values.map Prod.fst := by
    intro x hx
    rcases List.mem_append.mp hx with hx1 | hx1
    · have h1 := (mem_firstDedupFrom hx1).1
      exact alookup_isSome_iff.mp (List.mem_filter.mp h1).2
    · have h1 := (mem_firstDedupFrom hx1).1
      exact alookup_isSome_iff.mp (List.mem_filter.mp h1).2
  have hnodupE : (firstDedup (file.filter fun k => (alookup values k).isSome) ++
      firstDedupFrom (firstDedup (file.filter fun k => (alookup values k).isSome))
        (existing.filter fun k => (alookup values k).isSome)).Nodup := by
    rw [List.nodup_append]
    exact ⟨firstDedupFrom_nodup _ _, firstDedupFrom_nodup _ _,
      fun a ha1 ha2 => (mem_firstDedupFrom ha2).2 ha1⟩
  have hcov : (firstDedup (file.filter fun k => (alookup values k).isSome) ++
      firstDedupFrom (firstDedup (file.filter fun k => (alookup values k).isSome))
        (existing.filter fun k => (alookup values k).isSome)).length =
        values.length →
      ∀ k ∈ values.map Prod.fst,
        k ∈ firstDedup (file.filter fun k => (alookup values k).isSome) ++
          firstDedupFrom (firstDedup (file.filter fun k => (alookup values k).isSome))
            (existing.filter fun k => (alookup values k).isSome) := by
    intro hlen k hk
    by_contra hkn
    have hsub2 : k :: (firstDedup (file.filter fun k => (alookup values k).isSome) ++
        firstDedupFrom (firstDedup (file.filter fun k => (alookup values k).isSome))
          (existing.filter fun k => (alookup values k).isSome)) ⊆
        values.map Prod.fst := by
      intro a ha
      rcases List.mem_cons.mp ha with rfl | h
      · exact hk
      · exact hsub a h
    have hnd2 := List.nodup_cons.mpr ⟨hkn, hnodupE⟩
    have hle := (List.subperm_of_subset hnd2 hsub2).length_le
    rw [List.length_cons, hlen, List.length_map] at hle
    omega
  have hEq : mergeOrder existing file values = mergeOrderSpec existing file values := by
    unfold mergeOrder mergeOrderSpec
    dsimp only
    rw [hd1, hd2]
    by_cases hlen : (firstDedup (file.filter fun k => (alookup values k).isSome) ++
        firstDedupFrom (firstDedup (file.filter fun k => (alookup values k).isSome))
          (existing.filter fun k => (alookup values k).isSome)).length =
          values.length
    · rw [if_pos hlen]
      have hfil : ((values.map Prod.fst).filter fun k =>
          !((firstDedup (file.filter fun k => (alookup values k).isSome) ++
            firstDedupFrom (firstDedup (file.filter fun k => (alookup values k).isSome))
              (existing.filter fun k => (alookup values k).isSome)).contains k)) = [] := by
        rw [List.filter_eq_nil_iff]
        intro a ha hcon
        rw [contains_iff_mem.mpr (hcov hlen a ha)] at hcon
        simp at hcon
      rw [hfil]
      rw [show sortKeys ([] : List Str) = [] from rfl, List.append_nil]
    · rw [if_neg hlen]
  have specNodup : (mergeOrderSpec existing file values).Nodup := by
    unfold mergeOrderSpec
    dsimp only
    rw [List.nodup_append]
    refine ⟨hnodupE, sortKeys_nodup (List.Nodup.filter _ hnd), ?_⟩
    intro a ha1 ha2
    have h2 := (List.mem_filter.mp (mem_sortKeys.mp ha2)).2
    rw [contains_iff_mem.mpr ha1] at h2
    simp at h2
  have specMem : ∀ k, k ∈ mergeOrderSpec existing file values ↔
      k ∈ values.map Prod.fst := by
    intro k
    unfold mergeOrderSpec
    dsimp only
    constructor
    · intro hx
      rcases List.mem_append.mp hx with hx1 | hx1
      · exact hsub k hx1
      · exact (List.mem_filter.mp (mem_sortKeys.mp hx1)).1
    · intro hk
      by_cases hin : k ∈ firstDedup (file.filter fun k => (alookup values k).isSome) ++
          firstDedupFrom (firstDedup (file.filter fun k => (alookup values k).isSome))
            (existing.filter fun k => (alookup values k).isSome)
      · exact List.mem_append.mpr (Or.inl hin)
      · refine List.mem_append.mpr (Or.inr (mem_sortKeys.mpr
          (List.mem_filter.mpr ⟨hk, ?_⟩)))
        cases hcc : (firstDedup (file.filter fun k => (alookup values k).isSome) ++
            firstDedupFrom (firstDedup (file.filter fun k => (alookup values k).isSome))
              (existing.filter fun k => (alookup values k).isSome)).contains k with
        | false => rfl
        | true => exact absurd (contains_iff_mem.mp hcc) hin
  refine ⟨hEq, by rw [hEq]; exact specNodup, fun k => by rw [hEq]; exact specMem k, ?_⟩
  intro k hk
  rw [hEq]
  exact count_eq_one_of_nodup_mem specNodup ((specMem k).mpr hk)

def c5vals : List (Str × Str) := [(['B'], ['1']), (['A'], ['2']), (['C'], ['3'])]

def c5existing : List Str := [['A'], ['Z'], ['A']]

def c5file : List Str := [['C'], ['C'], ['Q']]

/-- C5 witness: a concrete merge where the file contributes one surviving
key (with a duplicate and a dead key dropped), the existing order another,
and the remaining key is appended by sorting. -/
theorem claim_C5_witness :
    (c5vals.map Prod.fst).Nodup ∧
    (mergeOrder c5existing c5file c5vals = mergeOrderSpec c5existing c5file c5vals ∧
     (mergeOrder c5existing c5file c5vals).Nodup ∧
     (∀ k, k ∈ mergeOrder c5existing c5file c5vals ↔ k ∈ c5vals.map Prod.fst) ∧
     (∀ k ∈ c5vals.map Prod.fst, (mergeOrder c5existing c5file c5vals).count k = 1)) :=
  ⟨by decide, claim_C5 c5existing c5file c5vals (by decide)⟩

/-! ## Claim C4: the ImportEnv merge loop -/

/-- The merge strategies of `SecretService.ImportEnv`; the empty and any
unrecognised strategy string behave as prefer-vault (the switch default). -/
inductive MergeStrategy
  | preferVault
  | preferFile
  | interactive
deriving DecidableEq, Repr

/-- The merge loop of `ImportEnv` over the parsed file pairs: a missing key
is added, an existing key is overwritten (prefer-file), resolved
(interactive, erroring when no resolver is supplied or the resolver fails)
or kept (default).  Returns the merged values and the Added, Updated and
Skipped counts. -/
def importMerge (strategy : MergeStrategy)
    (resolver : Option (Str → Str → Str → Except Unit Str)) :
    List (Str × Str) → List (Str × Str) →
    Except Unit (List (Str × Str) × Nat × Nat × Nat)
  | values, [] => .ok (values, 0, 0, 0)
  | values, (k, fv) :: rest =>
    match alookup values k with
    | none =>
      (importMerge strategy resolver (aupsert values k fv) rest).map
        fun r => (r.1, r.2.1 + 1, r.2.2.1, r.2.2.2)
    | some vv =>
      match strategy with
      | .preferFile =>
        (importMerge strategy resolver (aupsert values k fv) rest).map
          fun r => (r.1, r.2.1, r.2.2.1 + 1, r.2.2.2)
      | .interactive =>
        match resolver with
        | none => .error ()
        | some res =>
          match res k vv fv with
          | .error _ => .error ()
          | .ok resolved =>
            if resolved = vv then
              (importMerge strategy resolver values rest).map
                fun r => (r.1, r.2.1, r.2.2.1, r.2.2.2 + 1)
            else
              (importMerge strategy resolver (aupsert values k resolved) rest).map
                fun r => (r.1, r.2.1, r.2.2.1 + 1, r.2.2.2)
      | .preferVault =>
        (importMerge strategy resolver values rest).map
          fun r => (r.1, r.2.1, r.2.2.1, r.2.2.2 + 1)

theorem importMerge_nil (strategy : MergeStrategy)
    (resolver : Option (Str → Str → Str → Except Unit Str))
    (values : List (Str × Str)) :
    importMerge strategy resolver values [] = .ok (values, 0, 0, 0) := rfl

theorem importMerge_cons (strategy : MergeStrategy)
    (resolver : Option (Str → Str → Str → Except Unit Str))
    (values : List (Str × Str)) (k fv : Str) (rest : List (Str × Str)) :
    importMerge strategy resolver values ((k, fv) :: rest) =
      (match alookup values k with
      | none =>
        (importMerge strategy resolver (aupsert values k fv) rest).map
          fun r => (r.1, r.2.1 + 1, r.2.2.1, r.2.2.2)
      | some vv =>
        match strategy with
        | .preferFile =>
          (importMerge strategy resolver (aupsert values k fv) rest).map
            fun r => (r.1, r.2.1, r.2.2.1 + 1, r.2.2.2)
        | .interactive =>
          match resolver with
          | none => .error ()
          | some res =>
            match res k vv fv with
            | .error _ => .error ()
            | .ok resolved =>
              if resolved = vv then
                (importMerge strategy resolver values rest).map
                  fun r => (r.1, r.2.1, r.2.2.1, r.2.2.2 + 1)
              else
                (importMerge strategy resolver (aupsert values k resolved) rest).map
                  fun r => (r.1, r.2.1, r.2.2.1 + 1, r.2.2.2)
        | .preferVault =>
          (importMerge strategy resolver values rest).map
            fun r => (r.1, r.2.1, r.2.2.1, r.2.2.2 + 1)) := rfl

/-- The pure core of `SecretService.ImportEnv` on the value map: parse the
input in value mode, abort on Error-severity issues, then merge. -/
def ImportEnvCore (strategy : MergeStrategy)
    (resolver : Option (Str → Str → Str → Except Unit Str))
    (existingVals : List (Str × Str)) (input : Str) :
    Except Unit (List (Str × Str) × Nat × Nat × Nat) :=
  let pr := ParseDotenv input
  if pr.2.any (fun i => i.severity == Severity.error) then .error ()
  else importMerge strategy resolver existingVals pr.1.Values

theorem mem_keys_aupsert_fresh {values : List (Str × Str)} {k0 : Str} (fv : Str)
    (hal : alookup values k0 = none) (k : Str) :
    k ∈ (aupsert values k0 fv).map Prod.fst ↔
      (k ∈ values.map Prod.fst ∨ k = k0) := by
  rw [aupsert_fresh fv hal, List.map_append]
  simp

theorem importMerge_spec (strategy : MergeStrategy)
    (resolver : Option (Str → Str → Str → Except Unit Str)) :
    ∀ (imported values vals : List (Str × Str)) (a u s : Nat),
      importMerge strategy resolver values imported = .ok (vals, a, u, s) →
      (∀ k, k ∈ vals.map Prod.fst ↔
        (k ∈ values.map Prod.fst ∨ k ∈ imported.map Prod.fst)) ∧
      a + u + s = imported.length := by
  intro imported
  induction imported with
  | nil =>
    intro values vals a u s h
    rw [importMerge_nil] at h
    injection h with h1
    injection h1 with h2 h3
    injection h3 with h4 h5
    injection h5 with h6 h7
    subst h2
    subst h4
    subst h6
    subst h7
    exact ⟨fun k => by simp, by simp⟩
  | cons p rest ih =>
    rcases p with ⟨k0, fv⟩
    intro values vals a u s h
    rw [importMerge_cons] at h
    cases hal : alookup values k0 with
    | none =>
      rw [hal] at h
      cases hrec : importMerge strategy resolver (aupsert values k0 fv) rest with
      | error e =>
        rw [hrec] at h
        simp [Except.map] at h
      | ok rr =>
        rw [hrec] at h
        obtain ⟨vals0, a0, u0, s0⟩ := rr
        simp only [Except.map, Except.ok.injEq, Prod.mk.injEq] at h
        obtain ⟨rfl, rfl, rfl, rfl⟩ := h
        obtain ⟨hm, hc⟩ := ih (aupsert values k0 fv) vals0 a0 u0 s0 hrec
        constructor
        · intro k
          rw [hm k, mem_keys_aupsert_fresh fv hal k]
          simp only [List.map_cons, List.mem_cons]
          tauto
        · simp only [List.length_cons]
          omega
    | some vv =>
      rw [hal] at h
      have hk0 : k0 ∈ values.map Prod.fst :=
        alookup_isSome_iff.mp (by rw [hal]; rfl)
      have hsome : (alookup values k0).isSome = true := by
        rw [hal]
        rfl
      cases strategy with
      | preferFile =>
        cases hrec : importMerge .preferFile resolver (aupsert values k0 fv) rest with
        | error e =>
          rw [hrec] at h
          simp [Except.map] at h
        | ok rr =>
          rw [hrec] at h
          obtain ⟨vals0, a0, u0, s0⟩ := rr
          simp only [Except.map, Except.ok.injEq, Prod.mk.injEq] at h
          obtain ⟨rfl, rfl, rfl, rfl⟩ := h
          obtain ⟨hm, hc⟩ := ih (aupsert values k0 fv) vals0 a0 u0 s0 hrec
          constructor
          · intro k
            rw [hm k]
            rw [show (aupsert values k0 fv).map Prod.fst = values.map Prod.fst from
              aupsert_keys_of_some fv hsome]
            simp only [List.map_cons, List.mem_cons]
            constructor
            · rintro (h1 | h1)
              · exact Or.inl h1
              · exact Or.inr (Or.inr h1)
            · rintro (h1 | h1 | h1)
              · exact Or.inl h1
              · exact Or.inl (h1 ▸ hk0)
              · exact Or.inr h1
          · simp only [List.length_cons]
            omega
      | preferVault =>
        cases hrec : importMerge .preferVault resolver values rest with
        | error e =>
          rw [hrec] at h
          simp [Except.map] at h
        | ok rr =>
          rw [hrec] at h
          obtain ⟨vals0, a0, u0, s0⟩ := rr
          simp only [Except.map, Except.ok.injEq, Prod.mk.injEq] at h
          obtain ⟨rfl, rfl, rfl, rfl⟩ := h
          obtain ⟨hm, hc⟩ := ih values vals0 a0 u0 s0 hrec
          constructor
          · intro k
            rw [hm k]
            simp only [List.map_cons, List.mem_cons]
            constructor
            · rintro (h1 | h1)
              · exact Or.inl h1
              · exact Or.inr (Or.inr h1)
            · rintro (h1 | h1 | h1)
              · exact Or.inl h1
              · exact Or.inl (h1 ▸ hk0)
              · exact Or.inr h1
          · simp only [List.length_cons]
            omega
      | interactive =>
        cases resolver with
        | none =>
          simp at h
        | some res =>
          dsimp only at h
          cases hres : res k0 vv fv with
          | error e =>
            rw [hres] at h
            simp at h
          | ok resolved =>
            rw [hres] at h
            dsimp only at h
            by_cases hrv : resolved = vv
            · rw [if_pos hrv] at h
              cases hrec : importMerge .interactive (some res) values rest with
              | error e =>
                rw [hrec] at h
                simp [Except.map] at h
              | ok rr =>
                rw [hrec] at h
                obtain ⟨vals0, a0, u0, s0⟩ := rr
                simp only [Except.map, Except.ok.injEq, Prod.mk.injEq] at h
                obtain ⟨rfl, rfl, rfl, rfl⟩ := h
                obtain ⟨hm, hc⟩ := ih values vals0 a0 u0 s0 hrec
                constructor
                · intro k
                  rw [hm k]
                  simp only [List.map_cons, List.mem_cons]
                  constructor
                  · rintro (h1 | h1)
                    · exact Or.inl h1
                    · exact Or.inr (Or.inr h1)
                  · rintro (h1 | h1 | h1)
                    · exact Or.inl h1
                    · exact Or.inl (h1 ▸ hk0)
                    · exact Or.inr h1
                · simp only [List.length_cons]
                  omega
            · rw [if_neg hrv] at h
              cases hrec : importMerge .interactive (some res)
                  (aupsert values k0 resolved) rest with
              | error e =>
                rw [hrec] at h
                simp [Except.map] at h
              | ok rr =>
                rw [hrec] at h
                obtain ⟨vals0, a0, u0, s0⟩ := rr
                simp only [Except.map, Except.ok.injEq, Prod.mk.injEq] at h
                obtain ⟨rfl, rfl, rfl, rfl⟩ := h
                obtain ⟨hm, hc⟩ := ih (aupsert values k0 resolved) vals0 a0 u0 s0 hrec
                constructor
                · intro k
                  rw [hm k]
                  rw [show (aupsert values k0 resolved).map Prod.fst =
                    values.map Prod.fst from aupsert_keys_of_some resolved hsome]
                  simp only [List.map_cons, List.mem_cons]
                  constructor
                  · rintro (h1 | h1)
                    · exact Or.inl h1
                    · exact Or.inr (Or.inr h1)
                  · rintro (h1 | h1 | h1)
                    · exact Or.inl h1
                    · exact Or.inl (h1 ▸ hk0)
                    · exact Or.inr h1
                · simp only [List.length_cons]
                  omega

theorem parse_values_keys_nodup (data : Str) :
    ((ParseDotenv data).1.Values.map Prod.fst).Nodup := by
  obtain ⟨_, r2, r3, _, _⟩ := parseEnvAux_spec (goLines data) 1 ⟨[], []⟩ rfl
  have hOV : (ParseDotenv data).1.Values.map (·.1) =
      firstDedupFrom []
        (((goLines data).filterMap fun r => (parseEnvLine r).2).map (·.1)) := by
    rw [show ParseDotenv data = parseEnvAux 1 ⟨[], []⟩ (goLines data) from rfl]
    rw [← r3]
    rw [r2]
    simp
  have hnd : ((ParseDotenv data).1.Values.map (·.1)).Nodup := by
    rw [hOV]
    exact firstDedupFrom_nodup _ _
  exact hnd

/-- C4: for every merge strategy and resolver, when the input parses with no
Error-severity issue and the import core returns without error, the merged
value map's key set is exactly the union of the previous vault keys and the
imported keys, the imported keys are distinct, and
Added + Updated + Skipped equals their number. -/
theorem claim_C4 (strategy : MergeStrategy)
    (resolver : Option (Str → Str → Str → Except Unit Str))
    (existingVals : List (Str × Str)) (input : Str)
    (hparse : ∀ i ∈ (ParseDotenv input).2, i.severity ≠ Severity.error) :
    ∀ vals a u s,
      ImportEnvCore strategy resolver existingVals input = .ok (vals, a, u, s) →
      (∀ k, k ∈ vals.map Prod.fst ↔
        (k ∈ existingVals.map Prod.fst ∨
          k ∈ (ParseDotenv input).1.Values.map Prod.fst)) ∧
      ((ParseDotenv input).1.Values.map Prod.fst).Nodup ∧
      a + u + s = ((ParseDotenv input).1.Values.map Prod.fst).length := by
  intro vals a u s h
  have hAny : ((ParseDotenv input).2.any
      fun i => i.severity == Severity.error) = false := by
    rw [List.any_eq_false]
    intro i hi hbeq
    exact hparse i hi (by simpa using hbeq)
  unfold ImportEnvCore at h
  dsimp only at h
  rw [hAny] at h
  simp only [Bool.false_eq_true, if_false] at h
  obtain ⟨hm, hc⟩ :=
    importMerge_spec strategy resolver (ParseDotenv input).1.Values existingVals
      vals a u s h
  exact ⟨hm, parse_values_keys_nodup input,
    by rw [List.length_map]; exact hc⟩

def c4input : Str := ['A', '=', '2', '\n', 'B', '=', '3', '\n']

/-- C4 witness: importing `A=2`, `B=3` into a vault holding only `A` with
the prefer-file strategy. -/
theorem claim_C4_witness :
    (∀ i ∈ (ParseDotenv c4input).2, i.severity ≠ Severity.error) ∧
    (∀ vals a u s,
      ImportEnvCore .preferFile none [(['A'], ['1'])] c4input = .ok (vals, a, u, s) →
      (∀ k, k ∈ vals.map Prod.fst ↔
        (k ∈ [(['A'], ['1'])].map Prod.fst ∨
          k ∈ (ParseDotenv c4input).1.Values.map Prod.fst)) ∧
      ((ParseDotenv c4input).1.Values.map Prod.fst).Nodup ∧
      a + u + s = ((ParseDotenv c4input).1.Values.map Prod.fst).length) :=
  ⟨by decide, claim_C4 .preferFile none [(['A'], ['1'])] c4input (by decide)⟩

/-! ## Claim C8: key rotation over the secret files -/

structure RotateReport where
  Total : Nat
  Rotated : Nat
  Failed : Nat
  Errors : List Str
deriving DecidableEq, Repr

/-- The read/decrypt/encrypt/write pipeline for one file, abstracted over
the four effectful stages; the error string carries the failure message. -/
def rotateFile (readFile decrypt encrypt : Str → Except Str Str)
    (write : Str → Str → Except Str Unit) (path : Str) : Except Str Unit :=
  match readFile path with
  | .error e => .error e
  | .ok data =>
    match decrypt data with
    | .error e => .error e
    | .ok plaintext =>
      match encrypt plaintext with
      | .error e => .error e
      | .ok ciphertext => write path ciphertext

def stepOk (step : Str → Except Str Unit) (p : Str) : Bool :=
  match step p with
  | .ok _ => true
  | .error _ => false

/-- The per-file loop of `KeysService.Rotate`: every file is counted, a
failing file adds one failure and one error string, a succeeding file adds
one rotation, and the remaining files are processed either way. -/
def rotateLoop (step : Str → Except Str Unit) : List Str → RotateReport
  | [] => ⟨0, 0, 0, []⟩
  | path :: rest =>
    let r := rotateLoop step rest
    match step path with
    | .ok _ => ⟨1 + r.Total, 1 + r.Rotated, r.Failed, r.Errors⟩
    | .error e => ⟨1 + r.Total, r.Rotated, 1 + r.Failed, e :: r.Errors⟩

inductive RotateErr
  | noRecipients
  | nothingToRotate
deriving DecidableEq, Repr

/-- `KeysService.Rotate` after config load: empty recipients is an error,
a run over zero secret files reports the distinguished nothing-to-rotate
condition, otherwise the aggregated report is returned. -/
def RotateCore (recipients files : List Str) (step : Str → Except Str Unit) :
    Except (RotateErr × RotateReport) RotateReport :=
  if recipients.length = 0 then .error (.noRecipients, ⟨0, 0, 0, []⟩)
  else
    let report := rotateLoop step files
    if report.Total = 0 then .error (.nothingToRotate, report)
    else .ok report

theorem rotateLoop_nil (step : Str → Except Str Unit) :
    rotateLoop step [] = ⟨0, 0, 0, []⟩ := rfl

theorem rotateLoop_cons (step : Str → Except Str Unit) (path : Str) (rest : List Str) :
    rotateLoop step (path :: rest) =
      ⟨1 + (rotateLoop step rest).Total,
        (if stepOk step path then 1 else 0) + (rotateLoop step rest).Rotated,
        (if stepOk step path then 0 else 1) + (rotateLoop step rest).Failed,
        (match step path with | .ok _ => [] | .error e => [e]) ++
          (rotateLoop step rest).Errors⟩ := by
  rw [rotateLoop]
  cases hs : step path with
  | ok u =>
    have hok : stepOk step path = true := by
      unfold stepOk
      rw [hs]
    rw [hok]
    simp
  | error e =>
    have hok : stepOk step path = false := by
      unfold stepOk
      rw [hs]
    rw [hok]
    simp

theorem rotateLoop_spec (step : Str → Except Str Unit) : ∀ (files : List Str),
    (rotateLoop step files).Total = files.length ∧
    (rotateLoop step files).Rotated + (rotateLoop step files).Failed =
      (rotateLoop step files).Total ∧
    (rotateLoop step files).Errors.length = (rotateLoop step files).Failed ∧
    (rotateLoop step files).Rotated = files.countP (stepOk step) := by
  intro files
  induction files with
  | nil => exact ⟨rfl, rfl, rfl, rfl⟩
  | cons path rest ih =>
    rw [rotateLoop_cons]
    obtain ⟨h1, h2, h3, h4⟩ := ih
    dsimp only
    refine ⟨?_, ?_, ?_, ?_⟩
    · rw [h1, List.length_cons]
      omega
    · by_cases hs : stepOk step path
      · rw [if_pos hs, if_pos hs]
        omega
      · rw [if_neg hs, if_neg hs]
        omega
    · rw [List.length_append, h3]
      cases hsp : step path with
      | ok u =>
        have hs : stepOk step path = true := by
          unfold stepOk
          rw [hsp]
        rw [if_pos hs]
        simp
      | error e =>
        have hs : stepOk step path = false := by
          unfold stepOk
          rw [hsp]
        rw [if_neg (by rw [hs]; simp)]
        simp
    · rw [h4, List.countP_cons]
      by_cases hs : stepOk step path = true
      · rw [if_pos hs]
        omega
      · rw [if_neg hs]
        omega

/-- C8: every secret file is processed whatever the other files' outcomes —
the report over `path :: rest` is the report over `rest` plus this file's
own contribution, so one file's read/decrypt/encrypt/write failure never
aborts the batch; Total counts all files, Rotated + Failed = Total with one
error string per failed file; and zero secret files yield the distinguished
nothing-to-rotate condition while a nonempty batch returns the report. -/
theorem claim_C8 (recipients files : List Str) (step : Str → Except Str Unit)
    (hrec : recipients ≠ []) :
    (∀ (path : Str) (rest : List Str),
      rotateLoop step (path :: rest) =
        ⟨1 + (rotateLoop step rest).Total,
          (if stepOk step path then 1 else 0) + (rotateLoop step rest).Rotated,
          (if stepOk step path then 0 else 1) + (rotateLoop step rest).Failed,
          (match step path with | .ok _ => [] | .error e => [e]) ++
            (rotateLoop step rest).Errors⟩) ∧
    (rotateLoop step files).Total = files.length ∧
    (rotateLoop step files).Rotated + (rotateLoop step files).Failed =
      (rotateLoop step files).Total ∧
    (rotateLoop step files).Errors.length = (rotateLoop step files).Failed ∧
    (rotateLoop step files).Rotated = files.countP (stepOk step) ∧
    (files = [] → RotateCore recipients files step =
      .error (.nothingToRotate, ⟨0, 0, 0, []⟩)) ∧
    (files ≠ [] → RotateCore recipients files step = .ok (rotateLoop step files)) := by
  obtain ⟨h1, h2, h3, h4⟩ := rotateLoop_spec step files
  have hlen : ¬ recipients.length = 0 := by
    intro h0
    exact hrec (List.length_eq_zero.mp h0)
  refine ⟨rotateLoop_cons step, h1, h2, h3, h4, ?_, ?_⟩
  · intro hnil
    subst hnil
    unfold RotateCore
    rw [if_neg hlen]
    rfl
  · intro hne
    unfold RotateCore
    rw [if_neg hlen]
    dsimp only
    rw [if_neg (by
      rw [h1]
      intro h0
      exact hne (List.length_eq_zero.mp h0))]

/-- C8 witness: one recipient, two files of which the first fails. -/
theorem claim_C8_witness :
    ([['r']] : List Str) ≠ [] ∧
    ((∀ (path : Str) (rest : List Str),
      rotateLoop (fun p => if p = ['a'] then .error ['x'] else .ok ()) (path :: rest) =
        ⟨1 + (rotateLoop (fun p => if p = ['a'] then .error ['x'] else .ok ())
            rest).Total,
          (if stepOk (fun p => if p = ['a'] then .error ['x'] else .ok ()) path
            then 1 else 0) +
            (rotateLoop (fun p => if p = ['a'] then .error ['x'] else .ok ())
              rest).Rotated,
          (if stepOk (fun p => if p = ['a'] then .error ['x'] else .ok ()) path
            then 0 else 1) +
            (rotateLoop (fun p => if p = ['a'] then .error ['x'] else .ok ())
              rest).Failed,
          (match (if path = ['a'] then Except.error ['x'] else Except.ok ()) with
            | .ok _ => [] | .error e => [e]) ++
            (rotateLoop (fun p => if p = ['a'] then .error ['x'] else .ok ())
              rest).Errors⟩) ∧
    (rotateLoop (fun p => if p = ['a'] then .error ['x'] else .ok ())
      [['a'], ['b']]).Total = ([['a'], ['b']] : List Str).length ∧
    (rotateLoop (fun p => if p = ['a'] then .error ['x'] else .ok ())
        [['a'], ['b']]).Rotated +
      (rotateLoop (fun p => if p = ['a'] then .error ['x'] else .ok ())
        [['a'], ['b']]).Failed =
      (rotateLoop (fun p => if p = ['a'] then .error ['x'] else .ok ())
        [['a'], ['b']]).Total ∧
    (rotateLoop (fun p => if p = ['a'] then .error ['x'] else .ok ())
        [['a'], ['b']]).Errors.length =
      (rotateLoop (fun p => if p = ['a'] then .error ['x'] else .ok ())
        [['a'], ['b']]).Failed ∧
    (rotateLoop (fun p => if p = ['a'] then .error ['x'] else .ok ())
        [['a'], ['b']]).Rotated =
      ([['a'], ['b']] : List Str).countP
        (stepOk (fun p => if p = ['a'] then .error ['x'] else .ok ())) ∧
    (([['a'], ['b']] : List Str) = [] →
      RotateCore [['r']] [['a'], ['b']]
        (fun p => if p = ['a'] then .error ['x'] else .ok ()) =
        .error (.nothingToRotate, ⟨0, 0, 0, []⟩)) ∧
    (([['a'], ['b']] : List Str) ≠ [] →
      RotateCore [['r']] [['a'], ['b']]
        (fun p => if p = ['a'] then .error ['x'] else .ok ()) =
        .ok (rotateLoop (fun p => if p = ['a'] then .error ['x'] else .ok ())
          [['a'], ['b']]))) :=
  ⟨by decide, claim_C8 [['r']] [['a'], ['b']]
    (fun p => if p = ['a'] then .error ['x'] else .ok ()) (by decide)⟩

/-! ## Claim C1: the output-path guard of export -/

/-- Absolute, cleaned paths are carried as their component lists. -/
def commonPrefixLen : List Str → List Str → Nat
  | a :: as, b :: bs => if a = b then 1 + commonPrefixLen as bs else 0
  | _, _ => 0

/-- `filepath.Rel` for two absolute cleaned paths: climb out of the
uncommon part of the root, then descend into the path; the empty relative
path is `.`. -/
def relPath (root path : List Str) : Str :=
  let n := commonPrefixLen root path
  let comps := List.replicate (root.length - n) ['.', '.'] ++ path.drop n
  if comps = [] then ['.']
  else (comps.intersperse ['/']).flatten

/-- `cli.isWithinRoot`: the relative path is not `.` and does not start
with the two characters `..`. -/
def isWithinRoot (root path : List Str) : Bool :=
  let rel := relPath root path
  !(rel == ['.']) && !(List.isPrefixOf ['.', '.'] rel)

/-- The Git capability of the guard: `TopLevel` and `IsPathTracked`, either
of which may fail. -/
structure GitCap where
  TopLevel : List Str → Except Unit (List Str)
  IsPathTracked : List Str → List Str → Except Unit Bool

inductive StatOutcome
  | found
  | notFound
  | statError
deriving DecidableEq, Repr

inductive GuardErr
  | insideVault
  | trackedExists
  | tracked
  | fileExists
  | statFailed
deriving DecidableEq, Repr

/-- `cli.App.guardOutputPath` on an already-absolute path: the
vault-containment check, the git-tracking probe (any capability error means
not tracked), the existence probe (skipped under `force`), and the refusal
ladder. -/
def guardOutputPath (root path : List Str) (git : Option GitCap)
    (stat : StatOutcome) (allowGit force : Bool) : Option GuardErr :=
  if isWithinRoot root path then some .insideVault
  else
    let tracked :=
      if !allowGit then
        match git with
        | none => false
        | some g =>
          match g.TopLevel path.dropLast with
          | .error _ => false
          | .ok repoRoot =>
            match g.IsPathTracked repoRoot path with
            | .error _ => false
            | .ok t => t
      else false
    let existsRes : Except GuardErr Bool :=
      if force then .ok false
      else
        match stat with
        | .found => .ok true
        | .notFound => .ok false
        | .statError => .error .statFailed
    match existsRes with
    | .error e => some e
    | .ok ex =>
      if tracked && !allowGit then
        if ex && !force then some .trackedExists else some .tracked
      else if !force && ex then some .fileExists
      else none

def c1root : List Str := [['v', 'a', 'u', 'l', 't']]

def c1path : List Str := [['v', 'a', 'u', 'l', 't'], ['.', '.', 's', 'e', 'c', 'r', 'e', 't']]

/-- C1: code bug.  The output path `/vault/..secret` lies strictly inside
the vault root `/vault` (the root's components are a proper prefix of the
path's), yet `isWithinRoot` reports it outside — the relative path is the
single component `..secret`, and the `strings.HasPrefix(rel, "..")` test
mistakes it for a climb out of the root — so `guardOutputPath` never raises
the inside-vault refusal for it under any allowGit/force/stat combination,
and with `force` set and no git capability the guard allows the write. -/
theorem claim_C1 :
    (c1root.isPrefixOf c1path = true ∧ c1path ≠ c1root) ∧
    isWithinRoot c1root c1path = false ∧
    (∀ allowGit force : Bool,
      guardOutputPath c1root c1path none .found allowGit force ≠ some .insideVault ∧
      guardOutputPath c1root c1path none .notFound allowGit force ≠
        some .insideVault ∧
      guardOutputPath c1root c1path none .statError allowGit force ≠
        some .insideVault) ∧
    guardOutputPath c1root c1path none .notFound false true = none := by decide

/-! ## The vault state: secret files per (project, env) and the Index

`SecretService.Set`/`Unset`/`ImportEnv` read a per-(project, env) encrypted
secret file, rewrite it, and keep the `Index` in step.  The file store and
the nested `Index` maps become association lists; Go map lookup, insert and
delete become `alook`, `aset` and `adel`. -/

/-- Go map lookup over an association list. -/
def alook {κ α : Type} [DecidableEq κ] : List (κ × α) → κ → Option α
  | [], _ => none
  | p :: rest, k => if p.1 = k then some p.2 else alook rest k

/-- Go map insert: replace in place, or append when the key is new. -/
def aset {κ α : Type} [DecidableEq κ] : List (κ × α) → κ → α → List (κ × α)
  | [], k, v => [(k, v)]
  | p :: rest, k, v => if p.1 = k then (k, v) :: rest else p :: aset rest k v

/-- Go map delete: drop the key's entry. -/
def adel {κ α : Type} [DecidableEq κ] (l : List (κ × α)) (k : κ) : List (κ × α) :=
  l.filter fun p => decide (p.1 ≠ k)

/-- `domain.EnvIndex`, keys and file names only (the per-entry timestamp and
file metadata play no part in the key-set claims). -/
structure EnvIdx where
  Keys : List Str
  Files : List Str
deriving DecidableEq, Repr

/-- `domain.ProjectIndex`: the envs of one project. -/
abbrev ProjIdx := List (Str × EnvIdx)

/-- `domain.Index`: projects, each with envs. -/
abbrev VIndex := List (Str × ProjIdx)

/-- `Index.SetKey`: `ensureProject`/`ensureEnv` create missing nodes, then the
key is recorded (an already-present key only refreshes its metadata, which is
elided). -/
def indexSetKey (idx : VIndex) (project env key : Str) : VIndex :=
  aset idx project
    (aset ((alook idx project).getD []) env
      ⟨(if key ∈ (((alook ((alook idx project).getD []) env).getD ⟨[], []⟩).Keys)
          then ((alook ((alook idx project).getD []) env).getD ⟨[], []⟩).Keys
          else ((alook ((alook idx project).getD []) env).getD ⟨[], []⟩).Keys ++ [key]),
        ((alook ((alook idx project).getD []) env).getD ⟨[], []⟩).Files⟩)

/-- `Index.RemoveKey`: missing project or env is a no-op; otherwise the key is
deleted, the env node is pruned when its keys and files both end empty, and
the project node is pruned when it loses its last env. -/
def indexRemoveKey (idx : VIndex) (project env key : Str) : VIndex :=
  match alook idx project with
  | none => idx
  | some p =>
    match alook p env with
    | none => idx
    | some e =>
      if (e.Keys.filter fun x => decide (x ≠ key)) = [] ∧ e.Files = [] then
        if adel p env = [] then adel idx project
        else aset idx project (adel p env)
      else aset idx project
        (aset p env ⟨e.Keys.filter fun x => decide (x ≠ key), e.Files⟩)

/-- The `Index.SetKey` loop `ImportEnv` runs over its changed keys. -/
def indexSetKeys (project env : Str) : VIndex → List Str → VIndex
  | idx, [] => idx
  | idx, k :: ks => indexSetKeys project env (indexSetKey idx project env k) ks

/-- The keys the Index lists under (project, env); `[]` when the node is
absent. -/
def idxKeys (idx : VIndex) (project env : Str) : List Str :=
  match alook idx project with
  | none => []
  | some p =>
    match alook p env with
    | none => []
    | some e => e.Keys

/-- The `ports.Encrypter` pair abstracted to an encoding whose decryption
inverts it (the age round-trip); recipients only parameterise encryption and
are elided. -/
structure EncScheme where
  enc : Str → Str
  dec : Str → Except Unit Str
  dec_enc : ∀ p, dec (enc p) = Except.ok p

/-- The vault state the secret operations touch: one ciphertext per
(project, env) — an absent entry is an absent secret file — and the Index. -/
structure VaultState where
  files : List ((Str × Str) × Str)
  index : VIndex
deriving DecidableEq, Repr

/-- Modelled from the spec: the key sequence `RenderDotenvOrdered` emits —
the supplied order first (keys not backed by a value are skipped, repeats
emitted once), then any remaining value keys sorted lexically. -/
def orderedKeys (values : List (Str × Str)) (order : List Str) : List Str :=
  (firstDedup (order.filter fun k => (alookup values k).isSome)) ++
    sortKeys ((firstDedup (values.map (·.1))).filter
      fun k => !((firstDedup (order.filter fun k2 =>
        (alookup values k2).isSome)).contains k))

/-- Modelled from the spec: `RenderDotenvOrdered` emits one `KEY=value` line
per value key, keys in the supplied order first, then any remaining keys
sorted lexically, each line rendered like `RenderDotenv`. -/
def RenderDotenvOrdered (values : List (Str × Str)) (order : List Str) : Str :=
  ((orderedKeys values order).map
    fun k => renderKV k ((alookup values k).getD [])).flatten

/-- `removeKeyFromOrder`: drop every occurrence of the key (the source
filters in place; an empty order passes through the filter unchanged). -/
def removeKeyFromOrder (order : List Str) (key : Str) : List Str :=
  order.filter fun item => decide (item ≠ key)

/-- One character of `domain.ValidateIdentifier`: letters, digits, `-`, `_`
and `.`. -/
def identChar (c : Char) : Bool :=
  (decide ('a' ≤ c) && decide (c ≤ 'z')) ||
  (decide ('A' ≤ c) && decide (c ≤ 'Z')) ||
  (decide ('0' ≤ c) && decide (c ≤ '9')) ||
  decide (c = '-') || decide (c = '_') || decide (c = '.')

/-- Whether `..` occurs as a substring. -/
def hasDotDot : Str → Bool
  | '.' :: '.' :: _ => true
  | _ :: rest => hasDotDot rest
  | [] => false

/-- `domain.ValidateIdentifier` as a predicate: not blank, only identifier
characters, and no `..`, `/` or backslash. -/
def validIdent (name : Str) : Bool :=
  !(goTrimSpace name).isEmpty && name.all identChar &&
    !(hasDotDot name) && !(name.contains '/') && !(name.contains bslash)

/-- `SecretService.readEnv`: an absent secret file reads as the empty dotenv;
otherwise decrypt, parse in value mode and fail on any Error-severity
issue. -/
def readEnv (E : EncScheme) (st : VaultState) (project env : Str) :
    Except Unit Dotenv :=
  match alook st.files (project, env) with
  | none => Except.ok ⟨[], []⟩
  | some data =>
    match E.dec data with
    | .error _ => .error ()
    | .ok plaintext =>
      if (ParseDotenv plaintext).2.any
          (fun i => i.severity == Severity.error) = true then .error ()
      else .ok (ParseDotenv plaintext).1

/-- `SecretService.writeEnv`: render (ordered when `preserveOrder`), encrypt
and store at the (project, env) slot. -/
def writeEnv (E : EncScheme) (files : List ((Str × Str) × Str))
    (project env : Str) (d : Dotenv) (preserveOrder : Bool) :
    List ((Str × Str) × Str) :=
  aset files (project, env)
    (E.enc (if preserveOrder then RenderDotenvOrdered d.Values d.Order
      else RenderDotenv d.Values))

/-- `SecretService.Set`: validate the identifiers and the key, require
recipients, read the env, append a fresh key to the order, set the value,
write with `preserveOrder` and record the key in the Index. -/
def setOp (E : EncScheme) (recipientsOK : Bool) (st : VaultState)
    (project env key value : Str) : Except Unit VaultState :=
  if validIdent project = false then Except.error ()
  else if validIdent env = false then Except.error ()
  else if isValidEnvKey key = false then Except.error ()
  else if recipientsOK = false then Except.error ()
  else
    match readEnv E st project env with
    | .error _ => .error ()
    | .ok d =>
      .ok ⟨writeEnv E st.files project env
          ⟨aupsert d.Values key value,
            if (alookup d.Values key).isSome then d.Order else d.Order ++ [key]⟩
          true,
        indexSetKey st.index project env key⟩

/-- `SecretService.Unset`: validate, read the env, require the key, drop it
from the values and the order, delete the secret file when the dotenv became
empty (else rewrite it preserving order), and remove the key from the
Index. -/
def unsetOp (E : EncScheme) (st : VaultState) (project env key : Str) :
    Except Unit VaultState :=
  if validIdent project = false then Except.error ()
  else if validIdent env = false then Except.error ()
  else if isValidEnvKey key = false then Except.error ()
  else
    match readEnv E st project env with
    | .error _ => .error ()
    | .ok d =>
      if (alookup d.Values key).isSome = false then Except.error ()
      else
        .ok ⟨(if adel d.Values key = [] then adel st.files (project, env)
            else writeEnv E st.files project env
              ⟨adel d.Values key, removeKeyFromOrder d.Order key⟩ true),
          indexRemoveKey st.index project env key⟩

/-- The merge loop of `ImportEnv` once more, now also carrying the `changed`
key set the service then records in the Index (`importMerge` above is the
same loop without it). -/
def importMergeC (strategy : MergeStrategy)
    (resolver : Option (Str → Str → Str → Except Unit Str)) :
    List (Str × Str) → List (Str × Str) →
    Except Unit (List (Str × Str) × Nat × Nat × Nat × List Str)
  | values, [] => .ok (values, 0, 0, 0, [])
  | values, (k, fv) :: rest =>
    match alookup values k with
    | none =>
      (importMergeC strategy resolver (aupsert values k fv) rest).map
        fun r => (r.1, r.2.1 + 1, r.2.2.1, r.2.2.2.1, k :: r.2.2.2.2)
    | some vv =>
      match strategy with
      | .preferFile =>
        (importMergeC strategy resolver (aupsert values k fv) rest).map
          fun r => (r.1, r.2.1, r.2.2.1 + 1, r.2.2.2.1, k :: r.2.2.2.2)
      | .interactive =>
        match resolver with
        | none => .error ()
        | some res =>
          match res k vv fv with
          | .error _ => .error ()
          | .ok resolved =>
            if resolved = vv then
              (importMergeC strategy resolver values rest).map
                fun r => (r.1, r.2.1, r.2.2.1, r.2.2.2.1 + 1, r.2.2.2.2)
            else
              (importMergeC strategy resolver (aupsert values k resolved) rest).map
                fun r => (r.1, r.2.1, r.2.2.1 + 1, r.2.2.2.1, k :: r.2.2.2.2)
      | .preferVault =>
        (importMergeC strategy resolver values rest).map
          fun r => (r.1, r.2.1, r.2.2.1, r.2.2.2.1 + 1, r.2.2.2.2)

/-- `SecretService.ImportEnv` on the vault state: validate, parse the input
(fatal on Error issues), require recipients, read the env, run the merge
loop, merge the order when preserving it, write, and record every changed
key in the Index. -/
def importOp (E : EncScheme) (recipientsOK : Bool) (strategy : MergeStrategy)
    (resolver : Option (Str → Str → Str → Except Unit Str))
    (st : VaultState) (project env : Str) (input : Str) (preserveOrder : Bool) :
    Except Unit (VaultState × Nat × Nat × Nat) :=
  if validIdent project = false then Except.error ()
  else if validIdent env = false then Except.error ()
  else if (ParseDotenv input).2.any
      (fun i => i.severity == Severity.error) = true then Except.error ()
  else if recipientsOK = false then Except.error ()
  else
    match readEnv E st project env with
    | .error _ => .error ()
    | .ok existing =>
      match importMergeC strategy resolver existing.Values
          (ParseDotenv input).1.Values with
      | .error _ => .error ()
      | .ok (vals, a, u, s, changed) =>
        .ok (⟨writeEnv E st.files project env
            ⟨vals, if preserveOrder
                then mergeOrder existing.Order (ParseDotenv input).1.Order vals
                else existing.Order⟩ preserveOrder,
          indexSetKeys project env st.index changed⟩, a, u, s)

/-- The C3 invariant: the Index node for (project, env) lists exactly the
keys of the decrypted, parsed secret file (an absent file being the empty
key set). -/
def EnvConsistent (E : EncScheme) (st : VaultState) (project env : Str) : Prop :=
  ∃ d, readEnv E st project env = Except.ok d ∧
    ∀ k, k ∈ idxKeys st.index project env ↔ k ∈ d.Values.map (·.1)

/-! ## Association-list facts -/

theorem alook_aset_self {κ α : Type} [DecidableEq κ] (l : List (κ × α))
    (k : κ) (v : α) : alook (aset l k v) k = some v := by
  induction l with
  | nil => simp [aset, alook]
  | cons p rest ih =>
    by_cases h : p.1 = k
    · simp [aset, alook, h]
    · simp [aset, alook, h, ih]

theorem alook_adel_self {κ α : Type} [DecidableEq κ] (l : List (κ × α))
    (k : κ) : alook (adel l k) k = none := by
  induction l with
  | nil => rfl
  | cons p rest ih =>
    by_cases h : p.1 = k
    · rw [show adel (p :: rest) k = adel rest k from by
        simp [adel, List.filter_cons, h]]
      exact ih
    · rw [show adel (p :: rest) k = p :: adel rest k from by
        simp [adel, List.filter_cons, h]]
      rw [show alook (p :: adel rest k) k = alook (adel rest k) k from by
        simp [alook, h]]
      exact ih

theorem mem_keys_adel {κ α : Type} [DecidableEq κ] (l : List (κ × α))
    (k q : κ) : q ∈ (adel l k).map (·.1) ↔ (q ∈ l.map (·.1) ∧ q ≠ k) := by
  unfold adel
  constructor
  · intro h
    rcases List.mem_map.mp h with ⟨p, hp, rfl⟩
    have h2 := List.mem_filter.mp hp
    exact ⟨List.mem_map.mpr ⟨p, h2.1, rfl⟩, by simpa using h2.2⟩
  · rintro ⟨h1, h2⟩
    rcases List.mem_map.mp h1 with ⟨p, hp, rfl⟩
    exact List.mem_map.mpr ⟨p, List.mem_filter.mpr ⟨hp, by simpa using h2⟩, rfl⟩

theorem alookup_adel_ne {m : List (Str × Str)} {key q : Str} (h : q ≠ key) :
    alookup (adel m key) q = alookup m q := by
  induction m with
  | nil => rfl
  | cons p rest ih =>
    by_cases hp : p.1 = key
    · rw [show adel (p :: rest) key = adel rest key from by
        simp [adel, List.filter_cons, hp]]
      rw [alookup_cons_ne (beq_false_of_ne (by rw [hp]; exact fun he => h he.symm))]
      exact ih
    · rw [show adel (p :: rest) key = p :: adel rest key from by
        simp [adel, List.filter_cons, hp]]
      cases hbeq : (p.1 == q) with
      | true => simp [alookup, List.find?_cons, hbeq]
      | false =>
        rw [alookup_cons_ne hbeq, alookup_cons_ne hbeq]
        exact ih

theorem mem_aupsert {l : List (Str × Str)} {k v : Str} {p : Str × Str}
    (h : p ∈ aupsert l k v) : p ∈ l ∨ p = (k, v) := by
  induction l with
  | nil =>
    unfold aupsert at h
    rcases List.mem_singleton.mp h with rfl
    exact Or.inr rfl
  | cons q rest ih =>
    rcases q with ⟨k0, v0⟩
    unfold aupsert at h
    by_cases hbeq : (k0 == k) = true
    · rw [if_pos hbeq] at h
      rcases List.mem_cons.mp h with rfl | h2
      · exact Or.inr rfl
      · exact Or.inl (List.mem_cons_of_mem _ h2)
    · rw [if_neg hbeq] at h
      rcases List.mem_cons.mp h with rfl | h2
      · exact Or.inl (List.mem_cons_self _ _)
      · rcases ih h2 with h3 | h3
        · exact Or.inl (List.mem_cons_of_mem _ h3)
        · exact Or.inr h3

theorem mem_keys_aupsert (m : List (Str × Str)) (key v k : Str) :
    k ∈ (aupsert m key v).map (·.1) ↔ (k ∈ m.map (·.1) ∨ k = key) := by
  cases hal : alookup m key with
  | none =>
    rw [aupsert_fresh v hal, List.map_append]
    simp
  | some vv =>
    have hs : (alookup m key).isSome = true := by rw [hal]; rfl
    rw [aupsert_keys_of_some v hs]
    constructor
    · exact Or.inl
    · intro h
      rcases h with h | rfl
      · exact h
      · exact alookup_isSome_iff.mp hs

theorem mem_removeKeyFromOrder {order : List Str} {key q : Str} :
    q ∈ removeKeyFromOrder order key ↔ (q ∈ order ∧ q ≠ key) := by
  unfold removeKeyFromOrder
  rw [List.mem_filter]
  simp

/-! ## Index facts -/

theorem idxKeys_setKey (idx : VIndex) (project env key : Str) (k : Str) :
    k ∈ idxKeys (indexSetKey idx project env key) project env ↔
      (k ∈ idxKeys idx project env ∨ k = key) := by
  unfold indexSetKey idxKeys
  rw [alook_aset_self]
  dsimp only
  rw [alook_aset_self]
  dsimp only
  cases halp : alook idx project with
  | none =>
    dsimp only [Option.getD]
    rw [show (alook ([] : ProjIdx) env) = none from rfl]
    dsimp only [Option.getD]
    simp
  | some P =>
    dsimp only [Option.getD]
    cases hale : alook P env with
    | none =>
      dsimp only [Option.getD]
      simp
    | some e0 =>
      dsimp only [Option.getD]
      by_cases hkm : key ∈ e0.Keys
      · rw [if_pos hkm]
        constructor
        · exact Or.inl
        · intro h
          rcases h with h | rfl
          · exact h
          · exact hkm
      · rw [if_neg hkm]
        simp

theorem idxKeys_setKeys (project env : Str) : ∀ (ks : List Str) (idx : VIndex)
    (k : Str), k ∈ idxKeys (indexSetKeys project env idx ks) project env ↔
      (k ∈ idxKeys idx project env ∨ k ∈ ks) := by
  intro ks
  induction ks with
  | nil =>
    intro idx k
    simp [indexSetKeys]
  | cons k0 rest ih =>
    intro idx k
    show k ∈ idxKeys (indexSetKeys project env
        (indexSetKey idx project env k0) rest) project env ↔ _
    rw [ih, idxKeys_setKey]
    simp only [List.mem_cons]
    tauto

theorem idxKeys_removeKey (idx : VIndex) (project env key : Str) (k : Str) :
    k ∈ idxKeys (indexRemoveKey idx project env key) project env ↔
      (k ∈ idxKeys idx project env ∧ k ≠ key) := by
  cases halp : alook idx project with
  | none =>
    have hred : indexRemoveKey idx project env key = idx := by
      unfold indexRemoveKey
      rw [halp]
    have hK : idxKeys idx project env = [] := by
      unfold idxKeys
      rw [halp]
    rw [hred, hK]
    simp
  | some P =>
    have hKsome : idxKeys idx project env =
        (match alook P env with
          | none => []
          | some e => e.Keys) := by
      unfold idxKeys
      rw [halp]
    cases hale : alook P env with
    | none =>
      have hred : indexRemoveKey idx project env key = idx := by
        unfold indexRemoveKey
        rw [halp]
        dsimp only
        rw [hale]
      have hK : idxKeys idx project env = [] := by
        rw [hKsome, hale]
      rw [hred, hK]
      simp
    | some e0 =>
      have hK : idxKeys idx project env = e0.Keys := by
        rw [hKsome, hale]
      have hbody : indexRemoveKey idx project env key =
          (if (e0.Keys.filter fun x => decide (x ≠ key)) = [] ∧ e0.Files = [] then
            if adel P env = [] then adel idx project
            else aset idx project (adel P env)
          else aset idx project
            (aset P env ⟨e0.Keys.filter fun x => decide (x ≠ key), e0.Files⟩)) := by
        unfold indexRemoveKey
        rw [halp]
        dsimp only
        rw [hale]
      rw [hK]
      by_cases hpr : (e0.Keys.filter fun x => decide (x ≠ key)) = [] ∧ e0.Files = []
      · have hempty : ∀ q, ¬ (q ∈ e0.Keys ∧ q ≠ key) := by
          rintro q ⟨h1, h2⟩
          have hmf : q ∈ e0.Keys.filter fun x => decide (x ≠ key) :=
            List.mem_filter.mpr ⟨h1, by simpa using h2⟩
          rw [hpr.1] at hmf
          exact absurd hmf (List.not_mem_nil q)
        by_cases hp2 : adel P env = []
        · have hred : indexRemoveKey idx project env key = adel idx project := by
            rw [hbody, if_pos hpr, if_pos hp2]
          rw [hred]
          have hK2 : idxKeys (adel idx project) project env = [] := by
            unfold idxKeys
            rw [alook_adel_self]
          rw [hK2]
          constructor
          · intro h
            exact absurd h (List.not_mem_nil k)
          · intro h
            exact absurd h (hempty k)
        · have hred : indexRemoveKey idx project env key =
              aset idx project (adel P env) := by
            rw [hbody, if_pos hpr, if_neg hp2]
          rw [hred]
          have hK2 : idxKeys (aset idx project (adel P env)) project env = [] := by
            unfold idxKeys
            rw [alook_aset_self]
            dsimp only
            rw [alook_adel_self]
          rw [hK2]
          constructor
          · intro h
            exact absurd h (List.not_mem_nil k)
          · intro h
            exact absurd h (hempty k)
      · have hred : indexRemoveKey idx project env key = aset idx project
            (aset P env ⟨e0.Keys.filter fun x => decide (x ≠ key), e0.Files⟩) := by
          rw [hbody, if_neg hpr]
        rw [hred]
        have hK2 : idxKeys (aset idx project
            (aset P env ⟨e0.Keys.filter fun x => decide (x ≠ key), e0.Files⟩))
              project env = e0.Keys.filter fun x => decide (x ≠ key) := by
          unfold idxKeys
          rw [alook_aset_self]
          dsimp only
          rw [alook_aset_self]
        rw [hK2, List.mem_filter]
        simp

/-! ## Keys surviving a parse are valid; rendered payloads read back -/

theorem parseEnvLine_some_valid {raw k v : Str}
    (h : (parseEnvLine raw).2 = some (k, v)) : isValidEnvKey k = true := by
  unfold parseEnvLine at h
  dsimp only at h
  split at h
  · simp at h
  · unfold parseEnvBody at h
    dsimp only at h
    split at h
    · simp at h
    · split at h
      · simp at h
      · split at h
        · simp at h
        · rename_i hnv
          split at h
          · simp at h
          · simp at h
            rw [← h.1]
            simpa using hnv

theorem parseEnvAux_values_valid : ∀ (raws : List Str) (n : Nat) (acc : Dotenv),
    (∀ p ∈ acc.Values, isValidEnvKey p.1 = true) →
    ∀ p ∈ (parseEnvAux n acc raws).1.Values, isValidEnvKey p.1 = true := by
  intro raws
  induction raws with
  | nil =>
    intro n acc hacc p hp
    exact hacc p (by simpa [parseEnvAux] using hp)
  | cons raw rest ih =>
    intro n acc hacc p hp
    cases hpl : (parseEnvLine raw).2 with
    | none =>
      rw [@parseEnvAux_cons_none n acc raw rest hpl] at hp
      dsimp only at hp
      exact ih (n + 1) acc hacc p hp
    | some kv =>
      obtain ⟨k0, v0⟩ := kv
      rw [@parseEnvAux_cons_some n acc raw rest k0 v0 hpl] at hp
      dsimp only at hp
      refine ih (n + 1) _ ?_ p hp
      intro q hq
      rcases mem_aupsert hq with hq1 | hq2
      · exact hacc q hq1
      · rw [hq2]
        exact parseEnvLine_some_valid hpl

theorem parse_values_valid (data : Str) :
    ∀ p ∈ (ParseDotenv data).1.Values, isValidEnvKey p.1 = true := by
  intro p hp
  refine parseEnvAux_values_valid (goLines data) 1 ⟨[], []⟩ ?_ p hp
  intro q hq
  simp at hq

theorem readEnv_keys_valid {E : EncScheme} {st : VaultState}
    {project env : Str} {d : Dotenv}
    (h : readEnv E st project env = Except.ok d) :
    ∀ p ∈ d.Values, isValidEnvKey p.1 = true := by
  unfold readEnv at h
  split at h
  · injection h with h1
    subst h1
    intro p hp
    simp at hp
  · split at h
    · exact absurd h (by simp)
    · split at h
      · exact absurd h (by simp)
      · injection h with h1
        subst h1
        exact parse_values_valid _

theorem parseEnvAux_all_warning : ∀ (raws : List Str) (n : Nat) (acc : Dotenv),
    (∀ r ∈ raws, (parseEnvLine r).1 = []) →
    ∀ i ∈ (parseEnvAux n acc raws).2, i.severity = Severity.warning := by
  intro raws
  induction raws with
  | nil =>
    intro n acc _ i hi
    simp [parseEnvAux] at hi
  | cons raw rest ih =>
    intro n acc hcl i hi
    have hr : (parseEnvLine raw).1 = [] := hcl raw (List.mem_cons_self raw rest)
    have hrest : ∀ r ∈ rest, (parseEnvLine r).1 = [] :=
      fun r hx => hcl r (List.mem_cons_of_mem raw hx)
    cases hpl : (parseEnvLine raw).2 with
    | none =>
      rw [@parseEnvAux_cons_none n acc raw rest hpl] at hi
      dsimp only at hi
      rw [hr] at hi
      simp only [List.map_nil, List.nil_append] at hi
      exact ih (n + 1) acc hrest i hi
    | some kv =>
      obtain ⟨k0, v0⟩ := kv
      rw [@parseEnvAux_cons_some n acc raw rest k0 v0 hpl] at hi
      dsimp only at hi
      rw [hr] at hi
      simp only [List.map_nil, List.nil_append] at hi
      rw [List.mem_append] at hi
      rcases hi with hi | hi
      · by_cases hdup : (alookup acc.Values k0).isSome = true
        · rw [if_pos hdup] at hi
          rcases List.mem_singleton.mp hi with rfl
          rfl
        · rw [if_neg hdup] at hi
          simp at hi
      · exact ih (n + 1) _ hrest i hi

theorem parse_rows_issue_nil (f : Str → Str) (ks : List Str)
    (hval : ∀ k ∈ ks, isValidEnvKey k = true) :
    ∀ r ∈ ks.map fun k => k ++ '=' :: formatDotenvValue (f k),
      (parseEnvLine r).1 = [] := by
  intro r hr
  rcases List.mem_map.mp hr with ⟨k, hk, rfl⟩
  obtain ⟨w, hw⟩ := parseEnvLine_renderKV_weak (f k) (hval k hk)
  rw [hw]

theorem parse_rows_kvs_keys (f : Str → Str) : ∀ (ks : List Str),
    (∀ k ∈ ks, isValidEnvKey k = true) →
    ((ks.map fun k => k ++ '=' :: formatDotenvValue (f k)).filterMap
      fun r => (parseEnvLine r).2).map (·.1) = ks := by
  intro ks
  induction ks with
  | nil =>
    intro _
    rfl
  | cons k rest ih =>
    intro hval
    have hk := hval k (List.mem_cons_self k rest)
    obtain ⟨w, hw⟩ := parseEnvLine_renderKV_weak (f k) hk
    have h2 : (parseEnvLine (k ++ '=' :: formatDotenvValue (f k))).2 =
        some (k, w) := by rw [hw]
    rw [List.map_cons, List.filterMap_cons, h2]
    dsimp only
    rw [List.map_cons]
    rw [ih fun x hx => hval x (List.mem_cons_of_mem k hx)]

theorem no_error_of_all_warning {issues : List DotenvIssue}
    (h : ∀ i ∈ issues, i.severity = Severity.warning) :
    (issues.any fun i => i.severity == Severity.error) = false := by
  rw [List.any_eq_false]
  intro i hi
  rw [h i hi]
  decide

/-- Parsing the concatenation of rendered `KEY=value` lines yields only
Warning-severity issues and exactly the rendered keys. -/
theorem renderKeys_readback (ks : List Str) (f : Str → Str)
    (hval : ∀ k ∈ ks, isValidEnvKey k = true) :
    (∀ i ∈ (ParseDotenv ((ks.map fun k => renderKV k (f k)).flatten)).2,
      i.severity = Severity.warning) ∧
    (∀ k, k ∈ (ParseDotenv
        ((ks.map fun k => renderKV k (f k)).flatten)).1.Values.map (·.1)
      ↔ k ∈ ks) := by
  have hshape : (ks.map fun k => renderKV k (f k)) =
      (ks.map fun k => k ++ '=' :: formatDotenvValue (f k)).map (· ++ ['\n']) := by
    rw [List.map_map]
    exact List.map_congr_left fun k _ => renderKV_shape k (f k)
  have hnl : ∀ r ∈ ks.map fun k => k ++ '=' :: formatDotenvValue (f k),
      '\n' ∉ r := by
    intro r hr
    rcases List.mem_map.mp hr with ⟨k, hk, rfl⟩
    exact keyline_no_nl (hval k hk)
  have hlines : goLines ((ks.map fun k => renderKV k (f k)).flatten) =
      ks.map fun k => k ++ '=' :: formatDotenvValue (f k) := by
    rw [hshape, goLines_flatten hnl, List.map_map]
    exact List.map_congr_left fun k _ => dropCR_keyline k (f k)
  have hkvs := parse_rows_kvs_keys f ks hval
  constructor
  · intro i hi
    refine parseEnvAux_all_warning
      (goLines ((ks.map fun k => renderKV k (f k)).flatten)) 1 ⟨[], []⟩ ?_ i hi
    rw [hlines]
    exact parse_rows_issue_nil f ks hval
  · intro k
    obtain ⟨_, h2, h3, _, _⟩ := parseEnvAux_spec
      (goLines ((ks.map fun k => renderKV k (f k)).flatten)) 1 ⟨[], []⟩ rfl
    rw [hlines, hkvs] at h2
    dsimp only at h2
    simp only [List.map_nil, List.nil_append] at h2
    rw [show ParseDotenv ((ks.map fun k => renderKV k (f k)).flatten) =
      parseEnvAux 1 ⟨[], []⟩
        (goLines ((ks.map fun k => renderKV k (f k)).flatten)) from rfl]
    rw [hlines] at h3 ⊢
    rw [← h3, h2]
    constructor
    · intro hm
      exact (mem_firstDedupFrom hm).1
    · intro hm
      exact mem_firstDedupFrom_of hm (by simp)

/-- Reading the (project, env) slot back after storing an encrypted rendered
payload: the parse succeeds and its keys are the rendered key list. -/
theorem readEnv_aset (E : EncScheme) (files : List ((Str × Str) × Str))
    (idx : VIndex) (project env : Str) (ks : List Str) (f : Str → Str)
    (hval : ∀ k ∈ ks, isValidEnvKey k = true) :
    ∃ d, readEnv E
        ⟨aset files (project, env)
          (E.enc ((ks.map fun k => renderKV k (f k)).flatten)), idx⟩
        project env = Except.ok d ∧
      ∀ k, k ∈ d.Values.map (·.1) ↔ k ∈ ks := by
  obtain ⟨hwarn, hmem⟩ := renderKeys_readback ks f hval
  refine ⟨(ParseDotenv ((ks.map fun k => renderKV k (f k)).flatten)).1, ?_, hmem⟩
  have hA := no_error_of_all_warning hwarn
  unfold readEnv
  dsimp only
  rw [alook_aset_self]
  dsimp only
  rw [E.dec_enc]
  dsimp only
  rw [if_neg (by rw [hA]; decide)]

theorem orderedKeys_mem (values : List (Str × Str)) (order : List Str)
    (k : Str) : k ∈ orderedKeys values order ↔ k ∈ values.map (·.1) := by
  unfold orderedKeys
  rw [List.mem_append]
  constructor
  · intro h
    rcases h with h | h
    · have h2 := (mem_firstDedupFrom h).1
      have h3 := List.mem_filter.mp h2
      exact alookup_isSome_iff.mp h3.2
    · have h2 := mem_sortKeys.mp h
      have h3 := (List.mem_filter.mp h2).1
      exact (mem_firstDedupFrom h3).1
  · intro h
    by_cases he : k ∈ firstDedup (order.filter fun k2 => (alookup values k2).isSome)
    · exact Or.inl he
    · refine Or.inr ?_
      rw [mem_sortKeys, List.mem_filter]
      refine ⟨mem_firstDedupFrom_of h (by simp), ?_⟩
      cases hc : (firstDedup (order.filter
          fun k2 => (alookup values k2).isSome)).contains k with
      | false => rfl
      | true => exact absurd (contains_iff_mem.mp hc) he

/-- Reading back what `writeEnv` wrote (either render) reproduces exactly the
written value keys. -/
theorem readEnv_writeEnv (E : EncScheme) (files : List ((Str × Str) × Str))
    (idx : VIndex) (project env : Str) (d : Dotenv) (po : Bool)
    (hv : ∀ p ∈ d.Values, isValidEnvKey p.1 = true) :
    ∃ d2, readEnv E ⟨writeEnv E files project env d po, idx⟩ project env =
        Except.ok d2 ∧
      ∀ k, k ∈ d2.Values.map (·.1) ↔ k ∈ d.Values.map (·.1) := by
  cases po with
  | true =>
    have hval : ∀ k ∈ orderedKeys d.Values d.Order, isValidEnvKey k = true := by
      intro k hk
      exact valid_of_mem_keys hv ((orderedKeys_mem d.Values d.Order k).mp hk)
    obtain ⟨d2, h1, h2⟩ := readEnv_aset E files idx project env
      (orderedKeys d.Values d.Order) (fun k => (alookup d.Values k).getD []) hval
    exact ⟨d2, h1, fun k => (h2 k).trans (orderedKeys_mem d.Values d.Order k)⟩
  | false =>
    have hval : ∀ k ∈ sortKeys (d.Values.map (·.1)), isValidEnvKey k = true := by
      intro k hk
      exact valid_of_mem_keys hv (mem_sortKeys.mp hk)
    obtain ⟨d2, h1, h2⟩ := readEnv_aset E files idx project env
      (sortKeys (d.Values.map (·.1))) (fun k => (alookup d.Values k).getD []) hval
    exact ⟨d2, h1, fun k => (h2 k).trans mem_sortKeys⟩

/-! ## The merge loop with its changed-key set -/

theorem importMergeC_nil (strategy : MergeStrategy)
    (resolver : Option (Str → Str → Str → Except Unit Str))
    (values : List (Str × Str)) :
    importMergeC strategy resolver values [] = .ok (values, 0, 0, 0, []) := rfl

theorem importMergeC_cons (strategy : MergeStrategy)
    (resolver : Option (Str → Str → Str → Except Unit Str))
    (values : List (Str × Str)) (k fv : Str) (rest : List (Str × Str)) :
    importMergeC strategy resolver values ((k, fv) :: rest) =
      (match alookup values k with
      | none =>
        (importMergeC strategy resolver (aupsert values k fv) rest).map
          fun r => (r.1, r.2.1 + 1, r.2.2.1, r.2.2.2.1, k :: r.2.2.2.2)
      | some vv =>
        match strategy with
        | .preferFile =>
          (importMergeC strategy resolver (aupsert values k fv) rest).map
            fun r => (r.1, r.2.1, r.2.2.1 + 1, r.2.2.2.1, k :: r.2.2.2.2)
        | .interactive =>
          match resolver with
          | none => .error ()
          | some res =>
            match res k vv fv with
            | .error _ => .error ()
            | .ok resolved =>
              if resolved = vv then
                (importMergeC strategy resolver values rest).map
                  fun r => (r.1, r.2.1, r.2.2.1, r.2.2.2.1 + 1, r.2.2.2.2)
              else
                (importMergeC strategy resolver (aupsert values k resolved) rest).map
                  fun r => (r.1, r.2.1, r.2.2.1 + 1, r.2.2.2.1, k :: r.2.2.2.2)
        | .preferVault =>
          (importMergeC strategy resolver values rest).map
            fun r => (r.1, r.2.1, r.2.2.1, r.2.2.2.1 + 1, r.2.2.2.2)) := rfl

/-- The merge loop's state facts: merged keys are the union, every changed
key was imported, every imported key missing from the start map is changed,
and valid inputs keep every merged key valid. -/
theorem importMergeC_spec (strategy : MergeStrategy)
    (resolver : Option (Str → Str → Str → Except Unit Str)) :
    ∀ (imported values vals : List (Str × Str)) (a u s : Nat)
      (changed : List Str),
      importMergeC strategy resolver values imported =
        .ok (vals, a, u, s, changed) →
      (∀ k, k ∈ vals.map (·.1) ↔
        (k ∈ values.map (·.1) ∨ k ∈ imported.map (·.1))) ∧
      (∀ k ∈ changed, k ∈ imported.map (·.1)) ∧
      (∀ k, k ∈ imported.map (·.1) → k ∉ values.map (·.1) → k ∈ changed) ∧
      ((∀ p ∈ values, isValidEnvKey p.1 = true) →
        (∀ q ∈ imported, isValidEnvKey q.1 = true) →
        ∀ p ∈ vals, isValidEnvKey p.1 = true) := by
  intro imported
  induction imported with
  | nil =>
    intro values vals a u s changed h
    rw [importMergeC_nil] at h
    injection h with h1
    injection h1 with h2 h3
    injection h3 with h4 h5
    injection h5 with h6 h7
    injection h7 with h8 h9
    subst h2
    subst h9
    refine ⟨fun k => by simp, ?_, ?_, ?_⟩
    · intro k hk
      simp at hk
    · intro k hk
      simp at hk
    · intro hv _ p hp
      exact hv p hp
  | cons p rest ih =>
    rcases p with ⟨k0, fv⟩
    intro values vals a u s changed h
    rw [importMergeC_cons] at h
    cases hal : alookup values k0 with
    | none =>
      rw [hal] at h
      cases hrec : importMergeC strategy resolver (aupsert values k0 fv) rest with
      | error e =>
        rw [hrec] at h
        simp [Except.map] at h
      | ok rr =>
        rw [hrec] at h
        obtain ⟨vals0, a0, u0, s0, ch0⟩ := rr
        simp only [Except.map, Except.ok.injEq, Prod.mk.injEq] at h
        obtain ⟨rfl, rfl, rfl, rfl, rfl⟩ := h
        obtain ⟨hm, hch, hcov, hvv⟩ :=
          ih (aupsert values k0 fv) vals0 a0 u0 s0 ch0 hrec
        refine ⟨?_, ?_, ?_, ?_⟩
        · intro k
          rw [hm k, mem_keys_aupsert values k0 fv k]
          simp only [List.map_cons, List.mem_cons]
          tauto
        · intro k hk
          rcases List.mem_cons.mp hk with rfl | hk2
          · simp
          · simp only [List.map_cons, List.mem_cons]
            exact Or.inr (hch k hk2)
        · intro k hkimp hknv
          simp only [List.map_cons, List.mem_cons] at hkimp
          rcases hkimp with rfl | hkrest
          · exact List.mem_cons_self _ _
          · by_cases hin : k ∈ (aupsert values k0 fv).map (·.1)
            · rcases (mem_keys_aupsert values k0 fv k).mp hin with h1 | rfl
              · exact absurd h1 hknv
              · exact List.mem_cons_self _ _
            · exact List.mem_cons_of_mem _ (hcov k hkrest hin)
        · intro hv hq p hp
          refine hvv ?_ (fun q hqr => hq q (List.mem_cons_of_mem _ hqr)) p hp
          intro r hr
          rcases mem_aupsert hr with h1 | h1
          · exact hv r h1
          · rw [h1]
            exact hq ⟨k0, fv⟩ (List.mem_cons_self _ _)
    | some vv =>
      rw [hal] at h
      have hk0 : k0 ∈ values.map (·.1) :=
        alookup_isSome_iff.mp (by rw [hal]; rfl)
      have hsome : (alookup values k0).isSome = true := by
        rw [hal]
        rfl
      cases strategy with
      | preferFile =>
        cases hrec : importMergeC .preferFile resolver (aupsert values k0 fv) rest with
        | error e =>
          rw [hrec] at h
          simp [Except.map] at h
        | ok rr =>
          rw [hrec] at h
          obtain ⟨vals0, a0, u0, s0, ch0⟩ := rr
          simp only [Except.map, Except.ok.injEq, Prod.mk.injEq] at h
          obtain ⟨rfl, rfl, rfl, rfl, rfl⟩ := h
          obtain ⟨hm, hch, hcov, hvv⟩ :=
            ih (aupsert values k0 fv) vals0 a0 u0 s0 ch0 hrec
          refine ⟨?_, ?_, ?_, ?_⟩
          · intro k
            rw [hm k, mem_keys_aupsert values k0 fv k]
            simp only [List.map_cons, List.mem_cons]
            tauto
          · intro k hk
            rcases List.mem_cons.mp hk with rfl | hk2
            · simp
            · simp only [List.map_cons, List.mem_cons]
              exact Or.inr (hch k hk2)
          · intro k hkimp hknv
            simp only [List.map_cons, List.mem_cons] at hkimp
            rcases hkimp with rfl | hkrest
            · exact List.mem_cons_self _ _
            · by_cases hin : k ∈ (aupsert values k0 fv).map (·.1)
              · rcases (mem_keys_aupsert values k0 fv k).mp hin with h1 | rfl
                · exact absurd h1 hknv
                · exact List.mem_cons_self _ _
              · exact List.mem_cons_of_mem _ (hcov k hkrest hin)
          · intro hv hq p hp
            refine hvv ?_ (fun q hqr => hq q (List.mem_cons_of_mem _ hqr)) p hp
            intro r hr
            rcases mem_aupsert hr with h1 | h1
            · exact hv r h1
            · rw [h1]
              exact hq ⟨k0, fv⟩ (List.mem_cons_self _ _)
      | preferVault =>
        cases hrec : importMergeC .preferVault resolver values rest with
        | error e =>
          rw [hrec] at h
          simp [Except.map] at h
        | ok rr =>
          rw [hrec] at h
          obtain ⟨vals0, a0, u0, s0, ch0⟩ := rr
          simp only [Except.map, Except.ok.injEq, Prod.mk.injEq] at h
          obtain ⟨rfl, rfl, rfl, rfl, rfl⟩ := h
          obtain ⟨hm, hch, hcov, hvv⟩ := ih values vals0 a0 u0 s0 ch0 hrec
          refine ⟨?_, ?_, ?_, ?_⟩
          · intro k
            rw [hm k]
            simp only [List.map_cons, List.mem_cons]
            constructor
            · rintro (h1 | h1)
              · exact Or.inl h1
              · exact Or.inr (Or.inr h1)
            · rintro (h1 | h1 | h1)
              · exact Or.inl h1
              · exact Or.inl (h1 ▸ hk0)
              · exact Or.inr h1
          · intro k hk
            simp only [List.map_cons, List.mem_cons]
            exact Or.inr (hch k hk)
          · intro k hkimp hknv
            simp only [List.map_cons, List.mem_cons] at hkimp
            rcases hkimp with rfl | hkrest
            · exact absurd hk0 hknv
            · exact hcov k hkrest hknv
          · intro hv hq p hp
            exact hvv hv (fun q hqr => hq q (List.mem_cons_of_mem _ hqr)) p hp
      | interactive =>
        cases resolver with
        | none =>
          simp at h
        | some res =>
          dsimp only at h
          cases hres : res k0 vv fv with
          | error e =>
            rw [hres] at h
            simp at h
          | ok resolved =>
            rw [hres] at h
            dsimp only at h
            by_cases hrv : resolved = vv
            · rw [if_pos hrv] at h
              cases hrec : importMergeC .interactive (some res) values rest with
              | error e =>
                rw [hrec] at h
                simp [Except.map] at h
              | ok rr =>
                rw [hrec] at h
                obtain ⟨vals0, a0, u0, s0, ch0⟩ := rr
                simp only [Except.map, Except.ok.injEq, Prod.mk.injEq] at h
                obtain ⟨rfl, rfl, rfl, rfl, rfl⟩ := h
                obtain ⟨hm, hch, hcov, hvv⟩ := ih values vals0 a0 u0 s0 ch0 hrec
                refine ⟨?_, ?_, ?_, ?_⟩
                · intro k
                  rw [hm k]
                  simp only [List.map_cons, List.mem_cons]
                  constructor
                  · rintro (h1 | h1)
                    · exact Or.inl h1
                    · exact Or.inr (Or.inr h1)
                  · rintro (h1 | h1 | h1)
                    · exact Or.inl h1
                    · exact Or.inl (h1 ▸ hk0)
                    · exact Or.inr h1
                · intro k hk
                  simp only [List.map_cons, List.mem_cons]
                  exact Or.inr (hch k hk)
                · intro k hkimp hknv
                  simp only [List.map_cons, List.mem_cons] at hkimp
                  rcases hkimp with rfl | hkrest
                  · exact absurd hk0 hknv
                  · exact hcov k hkrest hknv
                · intro hv hq p hp
                  exact hvv hv (fun q hqr => hq q (List.mem_cons_of_mem _ hqr)) p hp
            · rw [if_neg hrv] at h
              cases hrec : importMergeC .interactive (some res)
                  (aupsert values k0 resolved) rest with
              | error e =>
                rw [hrec] at h
                simp [Except.map] at h
              | ok rr =>
                rw [hrec] at h
                obtain ⟨vals0, a0, u0, s0, ch0⟩ := rr
                simp only [Except.map, Except.ok.injEq, Prod.mk.injEq] at h
                obtain ⟨rfl, rfl, rfl, rfl, rfl⟩ := h
                obtain ⟨hm, hch, hcov, hvv⟩ :=
                  ih (aupsert values k0 resolved) vals0 a0 u0 s0 ch0 hrec
                refine ⟨?_, ?_, ?_, ?_⟩
                · intro k
                  rw [hm k, mem_keys_aupsert values k0 resolved k]
                  simp only [List.map_cons, List.mem_cons]
                  tauto
                · intro k hk
                  rcases List.mem_cons.mp hk with rfl | hk2
                  · simp
                  · simp only [List.map_cons, List.mem_cons]
                    exact Or.inr (hch k hk2)
                · intro k hkimp hknv
                  simp only [List.map_cons, List.mem_cons] at hkimp
                  rcases hkimp with rfl | hkrest
                  · exact List.mem_cons_self _ _
                  · by_cases hin : k ∈ (aupsert values k0 resolved).map (·.1)
                    · rcases (mem_keys_aupsert values k0 resolved k).mp hin with h1 | rfl
                      · exact absurd h1 hknv
                      · exact List.mem_cons_self _ _
                    · exact List.mem_cons_of_mem _ (hcov k hkrest hin)
                · intro hv hq p hp
                  refine hvv ?_ (fun q hqr => hq q (List.mem_cons_of_mem _ hqr)) p hp
                  intro r hr
                  rcases mem_aupsert hr with h1 | h1
                  · exact hv r h1
                  · rw [h1]
                    exact hq ⟨k0, fv⟩ (List.mem_cons_self _ _)

/-! ## Claim C3 -/

/-- **C3.** The key-set agreement between the Index node for (project, env)
and the decrypted, parsed secret file (an absent file being the empty key
set) is an invariant of the secret operations: every `Set`, `Unset` or
`ImportEnv` call that returns without error carries a consistent state to a
consistent state, in both directions. -/
theorem claim_C3 (E : EncScheme) (st : VaultState) (project env : Str)
    (hpre : EnvConsistent E st project env) :
    (∀ rOK key value st2,
      setOp E rOK st project env key value = Except.ok st2 →
      EnvConsistent E st2 project env) ∧
    (∀ key st2,
      unsetOp E st project env key = Except.ok st2 →
      EnvConsistent E st2 project env) ∧
    (∀ rOK strategy resolver input po st2 a u s,
      importOp E rOK strategy resolver st project env input po =
        Except.ok (st2, a, u, s) →
      EnvConsistent E st2 project env) := by
  obtain ⟨d0, hre0, hiff⟩ := hpre
  refine ⟨?_, ?_, ?_⟩
  · -- Set
    intro rOK key value st2 h
    unfold setOp at h
    split at h
    · exact absurd h (by simp)
    · split at h
      · exact absurd h (by simp)
      · split at h
        · exact absurd h (by simp)
        · rename_i hkeyv
          split at h
          · exact absurd h (by simp)
          · split at h
            · exact absurd h (by simp)
            · rename_i d hred
              injection h with h1
              subst h1
              have hd : d = d0 := by
                have h2 := hred.symm.trans hre0
                injection h2
              subst hd
              have hvd : ∀ p ∈ d.Values, isValidEnvKey p.1 = true :=
                readEnv_keys_valid hred
              have hkeyv2 : isValidEnvKey key = true := by
                cases hkv : isValidEnvKey key with
                | true => rfl
                | false => exact absurd hkv hkeyv
              have hv2 : ∀ p ∈ aupsert d.Values key value,
                  isValidEnvKey p.1 = true := by
                intro p hp
                rcases mem_aupsert hp with h1 | h1
                · exact hvd p h1
                · rw [h1]
                  exact hkeyv2
              obtain ⟨d2, hr2, hm2⟩ := readEnv_writeEnv E st.files
                (indexSetKey st.index project env key) project env
                ⟨aupsert d.Values key value,
                  if (alookup d.Values key).isSome then d.Order
                  else d.Order ++ [key]⟩ true hv2
              refine ⟨d2, hr2, ?_⟩
              intro k
              dsimp only
              rw [idxKeys_setKey st.index project env key k, hm2 k]
              dsimp only
              rw [mem_keys_aupsert d.Values key value k, hiff k]
  · -- Unset
    intro key st2 h
    unfold unsetOp at h
    split at h
    · exact absurd h (by simp)
    · split at h
      · exact absurd h (by simp)
      · split at h
        · exact absurd h (by simp)
        · split at h
          · exact absurd h (by simp)
          · rename_i d hred
            split at h
            · exact absurd h (by simp)
            · injection h with h1
              subst h1
              have hd : d = d0 := by
                have h2 := hred.symm.trans hre0
                injection h2
              subst hd
              have hvd : ∀ p ∈ d.Values, isValidEnvKey p.1 = true :=
                readEnv_keys_valid hred
              by_cases hemp : adel d.Values key = []
              · refine ⟨⟨[], []⟩, ?_, ?_⟩
                · rw [if_pos hemp]
                  unfold readEnv
                  dsimp only
                  rw [alook_adel_self]
                · intro k
                  dsimp only
                  rw [idxKeys_removeKey st.index project env key k]
                  simp only [List.map_nil]
                  constructor
                  · rintro ⟨h1, h2⟩
                    have h3 := (hiff k).mp h1
                    have h4 : k ∈ (adel d.Values key).map (·.1) :=
                      (mem_keys_adel d.Values key k).mpr ⟨h3, h2⟩
                    rw [hemp] at h4
                    simp at h4
                  · intro h1
                    exact absurd h1 (List.not_mem_nil k)
              · rw [if_neg hemp]
                have hv2 : ∀ p ∈ adel d.Values key, isValidEnvKey p.1 = true := by
                  intro p hp
                  exact hvd p (List.mem_filter.mp hp).1
                obtain ⟨d2, hr2, hm2⟩ := readEnv_writeEnv E st.files
                  (indexRemoveKey st.index project env key) project env
                  ⟨adel d.Values key, removeKeyFromOrder d.Order key⟩ true hv2
                refine ⟨d2, hr2, ?_⟩
                intro k
                dsimp only
                rw [idxKeys_removeKey st.index project env key k, hm2 k]
                dsimp only
                rw [mem_keys_adel d.Values key k, hiff k]
  · -- ImportEnv
    intro rOK strategy resolver input po st2 a u s h
    unfold importOp at h
    split at h
    · exact absurd h (by simp)
    · split at h
      · exact absurd h (by simp)
      · split at h
        · exact absurd h (by simp)
        · split at h
          · exact absurd h (by simp)
          · split at h
            · exact absurd h (by simp)
            · rename_i existing hred
              split at h
              · exact absurd h (by simp)
              · rename_i vals a0 u0 s0 changed hrec
                injection h with h1
                injection h1 with h2 h3
                subst h2
                have hd : existing = d0 := by
                  have h4 := hred.symm.trans hre0
                  injection h4
                subst hd
                have hvd : ∀ p ∈ existing.Values, isValidEnvKey p.1 = true :=
                  readEnv_keys_valid hred
                have hvq := parse_values_valid input
                obtain ⟨hm, hch, hcov, hvv⟩ := importMergeC_spec strategy resolver
                  (ParseDotenv input).1.Values existing.Values vals a0 u0 s0
                  changed hrec
                have hvals : ∀ p ∈ vals, isValidEnvKey p.1 = true := hvv hvd hvq
                obtain ⟨d2, hr2, hm2⟩ := readEnv_writeEnv E st.files
                  (indexSetKeys project env st.index changed) project env
                  ⟨vals, if po
                    then mergeOrder existing.Order (ParseDotenv input).1.Order vals
                    else existing.Order⟩ po hvals
                refine ⟨d2, hr2, ?_⟩
                intro k
                dsimp only
                rw [idxKeys_setKeys project env changed st.index k, hm2 k]
                dsimp only
                rw [hm k]
                constructor
                · rintro (h1 | h1)
                  · exact Or.inl ((hiff k).mp h1)
                  · exact Or.inr (hch k h1)
                · rintro (h1 | h1)
                  · exact Or.inl ((hiff k).mpr h1)
                  · by_cases h2 : k ∈ existing.Values.map (·.1)
                    · exact Or.inl ((hiff k).mpr h2)
                    · exact Or.inr (hcov k h1 h2)

/-- An identity-coded encryption scheme for concrete witnesses. -/
def idEnc : EncScheme := ⟨fun p => p, fun c => Except.ok c, fun _ => rfl⟩

/-- The state a successful `Set K=1` from the empty vault produces. -/
def c3st2 : VaultState :=
  ⟨[((['p'], ['e']), ['K', '=', '1', '\n'])],
    [(['p'], [(['e'], ⟨[['K']], []⟩)])]⟩

/-- C3 witness: from the empty consistent vault, a concrete successful `Set`
lands in a consistent state. -/
theorem claim_C3_witness : EnvConsistent idEnc c3st2 ['p'] ['e'] :=
  (claim_C3 idEnc ⟨[], []⟩ ['p'] ['e']
      ⟨⟨[], []⟩, rfl, fun k => by simp [idxKeys, alook]⟩).1
    true ['K'] ['1'] c3st2 (by rfl)

/-! ## Claim C6 -/

/-- **C6.** `Unset` errors when the key is absent from the decrypted dotenv;
when present it succeeds, dropping the key from the values (other lookups
untouched) and every occurrence from the order, deleting the secret file
instead of writing an empty ciphertext when the dotenv became empty, and
removing the key from the Index — where an env node whose keys and files
both end empty is pruned, along with its project node once that loses its
last env. -/
theorem claim_C6 (E : EncScheme) (st : VaultState) (project env key : Str)
    (d : Dotenv)
    (hvp : validIdent project = true) (hve : validIdent env = true)
    (hk : isValidEnvKey key = true)
    (hre : readEnv E st project env = Except.ok d) :
    ((alookup d.Values key).isSome = false →
      unsetOp E st project env key = Except.error ()) ∧
    ((alookup d.Values key).isSome = true →
      unsetOp E st project env key = Except.ok
        ⟨(if adel d.Values key = [] then adel st.files (project, env)
            else writeEnv E st.files project env
              ⟨adel d.Values key, removeKeyFromOrder d.Order key⟩ true),
          indexRemoveKey st.index project env key⟩) ∧
    alookup (adel d.Values key) key = none ∧
    (∀ q, q ≠ key → alookup (adel d.Values key) q = alookup d.Values q) ∧
    (∀ q, q ∈ removeKeyFromOrder d.Order key ↔ (q ∈ d.Order ∧ q ≠ key)) ∧
    (adel d.Values key = [] →
      alook (adel st.files (project, env)) (project, env) = none) ∧
    (∀ q, q ∈ idxKeys (indexRemoveKey st.index project env key) project env ↔
      (q ∈ idxKeys st.index project env ∧ q ≠ key)) ∧
    (∀ P e0, alook st.index project = some P → alook P env = some e0 →
      ((e0.Keys.filter fun x => decide (x ≠ key)) = [] ∧ e0.Files = [] →
        (alook (indexRemoveKey st.index project env key) project).bind
            (fun P2 => alook P2 env) = none ∧
        (adel P env = [] →
          alook (indexRemoveKey st.index project env key) project = none)) ∧
      (¬ ((e0.Keys.filter fun x => decide (x ≠ key)) = [] ∧ e0.Files = []) →
        (alook (indexRemoveKey st.index project env key) project).bind
            (fun P2 => alook P2 env) =
          some ⟨e0.Keys.filter fun x => decide (x ≠ key), e0.Files⟩)) := by
  have h1 : ¬(validIdent project = false) := by
    rw [hvp]
    decide
  have h2 : ¬(validIdent env = false) := by
    rw [hve]
    decide
  have h3 : ¬(isValidEnvKey key = false) := by
    rw [hk]
    decide
  refine ⟨?_, ?_, ?_, ?_, ?_, ?_, ?_, ?_⟩
  · intro hiss
    unfold unsetOp
    rw [if_neg h1, if_neg h2, if_neg h3, hre]
    dsimp only
    rw [if_pos hiss]
  · intro hsome
    unfold unsetOp
    rw [if_neg h1, if_neg h2, if_neg h3, hre]
    dsimp only
    rw [if_neg (show ¬((alookup d.Values key).isSome = false) from by
      rw [hsome]; decide)]
  · apply alookup_none_of_not_mem
    intro hm
    exact ((mem_keys_adel d.Values key key).mp hm).2 rfl
  · intro q hq
    exact alookup_adel_ne hq
  · intro q
    exact mem_removeKeyFromOrder
  · intro _
    exact alook_adel_self st.files (project, env)
  · intro q
    exact idxKeys_removeKey st.index project env key q
  · intro P e0 halp hale
    constructor
    · intro hpr
      have hbody : indexRemoveKey st.index project env key =
          (if adel P env = [] then adel st.index project
            else aset st.index project (adel P env)) := by
        unfold indexRemoveKey
        rw [halp]
        dsimp only
        rw [hale]
        dsimp only
        rw [if_pos hpr]
      constructor
      · by_cases hp2 : adel P env = []
        · rw [hbody, if_pos hp2, alook_adel_self]
          rfl
        · rw [hbody, if_neg hp2, alook_aset_self]
          exact alook_adel_self P env
      · intro hp2
        rw [hbody, if_pos hp2]
        exact alook_adel_self st.index project
    · intro hpr
      have hbody : indexRemoveKey st.index project env key =
          aset st.index project
            (aset P env ⟨e0.Keys.filter fun x => decide (x ≠ key), e0.Files⟩) := by
        unfold indexRemoveKey
        rw [halp]
        dsimp only
        rw [hale]
        dsimp only
        rw [if_neg hpr]
      rw [hbody, alook_aset_self]
      exact alook_aset_self P env ⟨e0.Keys.filter fun x => decide (x ≠ key), e0.Files⟩

/-- The one-key vault the C6 witness unsets from. -/
def c6st : VaultState :=
  ⟨[((['p'], ['e']), ['K', '=', '1', '\n'])],
    [(['p'], [(['e'], ⟨[['K']], []⟩)])]⟩

/-- What that vault's secret file decrypts and parses to. -/
def c6d : Dotenv := ⟨[(['K'], ['1'])], [['K']]⟩

/-- C6 witness: the `Unset` facts at the concrete one-key vault. -/
theorem claim_C6_witness :
    ((alookup c6d.Values ['K']).isSome = false →
      unsetOp idEnc c6st ['p'] ['e'] ['K'] = Except.error ()) ∧
    ((alookup c6d.Values ['K']).isSome = true →
      unsetOp idEnc c6st ['p'] ['e'] ['K'] = Except.ok
        ⟨(if adel c6d.Values ['K'] = [] then adel c6st.files (['p'], ['e'])
            else writeEnv idEnc c6st.files ['p'] ['e']
              ⟨adel c6d.Values ['K'], removeKeyFromOrder c6d.Order ['K']⟩ true),
          indexRemoveKey c6st.index ['p'] ['e'] ['K']⟩) ∧
    alookup (adel c6d.Values ['K']) ['K'] = none ∧
    (∀ q, q ≠ ['K'] → alookup (adel c6d.Values ['K']) q = alookup c6d.Values q) ∧
    (∀ q, q ∈ removeKeyFromOrder c6d.Order ['K'] ↔ (q ∈ c6d.Order ∧ q ≠ ['K'])) ∧
    (adel c6d.Values ['K'] = [] →
      alook (adel c6st.files (['p'], ['e'])) (['p'], ['e']) = none) ∧
    (∀ q, q ∈ idxKeys (indexRemoveKey c6st.index ['p'] ['e'] ['K']) ['p'] ['e'] ↔
      (q ∈ idxKeys c6st.index ['p'] ['e'] ∧ q ≠ ['K'])) ∧
    (∀ P e0, alook c6st.index ['p'] = some P → alook P ['e'] = some e0 →
      ((e0.Keys.filter fun x => decide (x ≠ ['K'])) = [] ∧ e0.Files = [] →
        (alook (indexRemoveKey c6st.index ['p'] ['e'] ['K']) ['p']).bind
            (fun P2 => alook P2 ['e']) = none ∧
        (adel P ['e'] = [] →
          alook (indexRemoveKey c6st.index ['p'] ['e'] ['K']) ['p'] = none)) ∧
      (¬ ((e0.Keys.filter fun x => decide (x ≠ ['K'])) = [] ∧ e0.Files = []) →
        (alook (indexRemoveKey c6st.index ['p'] ['e'] ['K']) ['p']).bind
            (fun P2 => alook P2 ['e']) =
          some ⟨e0.Keys.filter fun x => decide (x ≠ ['K']), e0.Files⟩)) :=
  claim_C6 idEnc c6st ['p'] ['e'] ['K'] c6d
    (by decide) (by decide) (by decide) (by rfl)

end GitVault
